import Mathlib

/-!
# sparkcoroutine: a model of `coroutine.hpp` and of the producer/consumer demo

The runtime is a set of Win32 fibers on one thread.  A fiber's saved native stack is a
first-class value, so it is represented here as a list of return points (`Frame`), innermost
first; `SwitchToFiber` changes which stack is the running one.  User code (task closures and
`main`) is given as a transition function `prog : L → σ → σ × Call L σ` over control states `L`
and shared user memory `σ`: one application runs user code up to its next call into the
library.  `step` executes the innermost return point of the running fiber; the library
functions of `coroutine.hpp` are the cases of `step` and the helpers it calls, and every
`_SPARK_ASSERT` is a fallible check.

`trace` is a ghost log (calls of `_resume_condition`, `SwitchToFiber` and `Sleep`) used to state
how often a predicate was evaluated and whether a stack switch happened.
-/

namespace Spark

/-- The enum `Coroutine::Status` (coroutine.hpp:27-32); the first constructor keeps the
spelling of the source. -/
inductive Status where
  | Supended
  | Finished
  | Excepted
  deriving DecidableEq, Repr

/-- Identity (address) of a `CoroutineImpl` object: its position in allocation order. -/
abbrev Fid := Nat

/-- Name of a `Coroutine` handle variable of the user program. -/
abbrev Hid := Nat

/-- The class `Coroutine` (coroutine.hpp:24-121): a movable handle holding `_impl`, a shared
pointer that is either null or refers to a `CoroutineImpl`. -/
structure Coroutine where
  _impl : Option Fid
  deriving DecidableEq, Repr

/-- Ghost events: `cond f b` is one evaluation of `_resume_condition` of `f` inside
`CoroutineImpl::resume` with result `b`; `switch src dst` is one `SwitchToFiber(dst)` executed
by `src` (`none` is the major fiber); `sleep` is one `Sleep(1)`. -/
inductive Event where
  | cond (f : Fid) (b : Bool)
  | switch (src dst : Option Fid)
  | sleep
  deriving DecidableEq, Repr

/-- Ways in which the program stops: a failed `_SPARK_ASSERT` (named after the asserted
condition), a fiber procedure or `main` that has returned, or a call of `terminate()`
(also the end of an exception leaving `main`). `assert_not_supended` is the assertion
`_status != Supended` of the destructor, `assert_major` the assertion
`current_fiber == nullptr` of `Coroutine::uninit`. -/
inductive Err where
  | assert_impl
  | assert_not_self
  | assert_supended
  | assert_current
  | assert_come_from
  | assert_await_self
  | thread_exit
  | terminate
  | assert_not_supended
  | assert_major
  deriving DecidableEq, Repr

/-- One call of user code into the library, with the control state at which user code goes on
when the call returns. `ret` and `raise` are the two ways a task closure (or `main`) ends. -/
inductive Call (L σ : Type) where
  | ret
  | raise
  | yield (k : L)
  | yield_until (condition : σ → σ × Bool) (k : L)
  | resume (h : Hid) (k : L)
  | status (h : Hid) (k : Status → L)
  | await (h : Hid) (k : L)
  | await_all (hs : List Hid) (k : L)
  | manage (h : Hid) (k : L)
  | go (h : Hid) (task : L) (k : L)

/-- Return points on a fiber's stack. `user pc`: in user code at `pc`.
`mgr_yield i`: loop head of `CoroutineMgr::yield` (line 174) with the iterator at position `i`;
`mgr_yield_181 i`: the same loop at line 181, after `fib.resume()`.
`mgr_yield_until c`: loop head of `CoroutineMgr::yield_until` (line 191).
`await_421`, `await_424`, `await_431`: `Coroutine::await` at its first test, at its loop head and
at the `resume` that ends the loop body.
`await_all_345`, `await_all_349`, `await_all_358`: `Coroutine::await_all` at the `while` head, at the
`for` head with the iterator at position `i`, and after `fib.resume()`. -/
inductive Frame (L σ : Type) where
  | user (pc : L)
  | mgr_yield (i : Nat)
  | mgr_yield_181 (i : Nat)
  | mgr_yield_until (condition : σ → σ × Bool)
  | await_421 (h : Hid)
  | await_424 (h : Hid)
  | await_431 (h : Hid)
  | await_all_345 (hs : List Hid) (all_done : Bool)
  | await_all_349 (hs : List Hid) (i : Nat) (all_done : Bool)
  | await_all_358 (hs : List Hid) (i : Nat) (all_done : Bool)

/-- The class `CoroutineImpl` (coroutine.hpp:209-307). `stack` is the native stack owned by
`_handle`; `_fiber_come_from` is `none` for `nullptr`, `some none` for the major fiber and
`some (some f)` for the fiber of context `f`. -/
structure CoroutineImpl (L σ : Type) where
  _task : L
  _resume_condition : σ → σ × Bool
  _status : Status
  _fiber_come_from : Option (Option Fid)
  stack : List (Frame L σ)

/-- The thread: user memory, the heap of contexts, the handle variables, the registry
`CoroutineMgr::_fiber_list`, `data->current_fiber` of the running fiber (`none` in the major
fiber), the stack of the major fiber, and the ghost log. -/
structure Machine (L σ : Type) where
  mem : σ
  fibers : List (CoroutineImpl L σ)
  handles : Hid → Coroutine
  _fiber_list : List Coroutine
  current : Option Fid
  major_stack : List (Frame L σ)
  trace : List Event

section Runtime

variable {L σ : Type}

/-- `CoroutineImpl::always_true` (coroutine.hpp:295-298). -/
def always_true (s : σ) : σ × Bool := (s, true)

/-- The constructor `CoroutineImpl(task)` (coroutine.hpp:212-227, member initialisers 304-306);
the new fiber starts in `static_fiber_proc`, which runs the task. -/
def CoroutineImpl.mk_task (task : L) : CoroutineImpl L σ :=
  { _task := task, _resume_condition := always_true, _status := Status.Supended,
    _fiber_come_from := none, stack := [Frame.user task] }

/-- Apply `g` to the context `f`. -/
def updFiber (m : Machine L σ) (f : Fid) (g : CoroutineImpl L σ → CoroutineImpl L σ) :
    Machine L σ :=
  match m.fibers[f]? with
  | some c => { m with fibers := m.fibers.set f (g c) }
  | none => m

/-- The stack of the running fiber. -/
def Machine.stack (m : Machine L σ) : List (Frame L σ) :=
  match m.current with
  | none => m.major_stack
  | some f =>
    match m.fibers[f]? with
    | some c => c.stack
    | none => []

/-- Replace the stack of the running fiber. -/
def Machine.setStack (m : Machine L σ) (s : List (Frame L σ)) : Machine L σ :=
  match m.current with
  | none => { m with major_stack := s }
  | some f => updFiber m f (fun c => { c with stack := s })

/-- `CoroutineImpl::get_status` (coroutine.hpp:264-269). -/
def CoroutineImpl.get_status (m : Machine L σ) (this : Fid) : Except Err Status :=
  if m.current = some this then Except.error Err.assert_not_self
  else
    match m.fibers[this]? with
    | some c => Except.ok c._status
    | none => Except.error Err.assert_impl

/-- `Coroutine::status` (coroutine.hpp:397-401). -/
def Coroutine.status (m : Machine L σ) (fib : Coroutine) : Except Err Status :=
  match fib._impl with
  | none => Except.error Err.assert_impl
  | some this => CoroutineImpl.get_status m this

/-- `CoroutineImpl::resume` (coroutine.hpp:235-246), called by the running fiber, whose stack
already holds the point to continue from. -/
def CoroutineImpl.resume (m : Machine L σ) (this : Fid) : Except Err (Machine L σ) :=
  match m.fibers[this]? with
  | none => Except.error Err.assert_impl
  | some c =>
    if m.current = some this then Except.error Err.assert_not_self
    else if c._status ≠ Status.Supended then Except.error Err.assert_supended
    else
      let r := c._resume_condition m.mem
      let m1 : Machine L σ := { m with mem := r.1, trace := m.trace ++ [Event.cond this r.2] }
      if r.2 then
        Except.ok
          { updFiber m1 this (fun c => { c with _fiber_come_from := some m.current }) with
            current := some this
            trace := m1.trace ++ [Event.switch m.current (some this)] }
      else Except.ok m1

/-- `Coroutine::resume` (coroutine.hpp:391-395). -/
def Coroutine.resume (m : Machine L σ) (fib : Coroutine) : Except Err (Machine L σ) :=
  match fib._impl with
  | none => Except.error Err.assert_impl
  | some this => CoroutineImpl.resume m this

/-- `CoroutineImpl::yield_until` (coroutine.hpp:254-262), called by the running fiber, whose
stack already holds the point to continue from. -/
def CoroutineImpl.yield_until (m : Machine L σ) (this : Fid) (condition : σ → σ × Bool) :
    Except Err (Machine L σ) :=
  if m.current ≠ some this then Except.error Err.assert_current
  else
    match m.fibers[this]? with
    | none => Except.error Err.assert_impl
    | some c =>
      match c._fiber_come_from with
      | none => Except.error Err.assert_come_from
      | some src =>
        Except.ok
          { updFiber m this (fun c => { c with _resume_condition := condition }) with
            current := src
            trace := m.trace ++ [Event.switch (some this) src] }

/-- `CoroutineImpl::yield` (coroutine.hpp:248-252). -/
def CoroutineImpl.yield (m : Machine L σ) (this : Fid) : Except Err (Machine L σ) :=
  if m.current ≠ some this then Except.error Err.assert_current
  else CoroutineImpl.yield_until m this always_true

/-- `CoroutineImpl::do_fiber_work` (coroutine.hpp:280-293) from the point where `_task()` has
returned (`st = Finished`) or thrown (`st = Excepted`): store the status and `yield()`. What is
left on the stack is the return from `do_fiber_work` and `static_fiber_proc`. -/
def CoroutineImpl.do_fiber_work (m : Machine L σ) (this : Fid) (st : Status) :
    Except Err (Machine L σ) :=
  CoroutineImpl.yield ((updFiber m this (fun c => { c with _status := st })).setStack []) this

/-- `CoroutineMgr::manage` (coroutine.hpp:167-170) on the handle variable `h`:
`push_back(std::move(fiber))` appends the handle and leaves `fiber` empty. -/
def CoroutineMgr.manage (m : Machine L σ) (h : Hid) : Machine L σ :=
  { m with
    _fiber_list := m._fiber_list ++ [m.handles h]
    handles := fun j => if j = h then { _impl := none } else m.handles j }

/-- `Coroutine::go` (coroutine.hpp:378-382) on the handle variable `h`. -/
def Coroutine.go (m : Machine L σ) (h : Hid) (task : L) : Machine L σ :=
  match (m.handles h)._impl with
  | some _ => m
  | none =>
    { m with
      fibers := m.fibers ++ [CoroutineImpl.mk_task task]
      handles := fun j => if j = h then { _impl := some m.fibers.length } else m.handles j }

/-- A call of user code into the library. `rest` is the part of the running stack below the
user frame; the user frame is replaced by the point at which user code continues. The static
functions `Coroutine::yield` and `Coroutine::yield_until` (coroutine.hpp:403-414) dispatch on
`data->current_fiber`. -/
def call (m : Machine L σ) (rest : List (Frame L σ)) : Call L σ → Except Err (Machine L σ)
  | Call.ret =>
    match m.current with
    | none => Except.ok (m.setStack [])
    | some this => CoroutineImpl.do_fiber_work m this Status.Finished
  | Call.raise =>
    match m.current with
    | none => Except.error Err.terminate
    | some this => CoroutineImpl.do_fiber_work m this Status.Excepted
  | Call.yield k =>
    match m.current with
    | none => Except.ok (m.setStack (Frame.mgr_yield 0 :: Frame.user k :: rest))
    | some this => CoroutineImpl.yield (m.setStack (Frame.user k :: rest)) this
  | Call.yield_until condition k =>
    match m.current with
    | none => Except.ok (m.setStack (Frame.mgr_yield_until condition :: Frame.user k :: rest))
    | some this => CoroutineImpl.yield_until (m.setStack (Frame.user k :: rest)) this condition
  | Call.resume h k => Coroutine.resume (m.setStack (Frame.user k :: rest)) (m.handles h)
  | Call.status h k =>
    match Coroutine.status m (m.handles h) with
    | Except.ok s => Except.ok (m.setStack (Frame.user (k s) :: rest))
    | Except.error e => Except.error e
  | Call.await h k => Except.ok (m.setStack (Frame.await_421 h :: Frame.user k :: rest))
  | Call.await_all hs k =>
    Except.ok (m.setStack (Frame.await_all_345 hs false :: Frame.user k :: rest))
  | Call.manage h k => Except.ok ((CoroutineMgr.manage m h).setStack (Frame.user k :: rest))
  | Call.go h task k => Except.ok ((Coroutine.go m h task).setStack (Frame.user k :: rest))

/-- `Coroutine::yield()` or `::Sleep(1)` between two polls of `await` and `await_all`
(coroutine.hpp:365-368 and 426-429); the running stack already holds the point to continue
from. -/
def yield_or_sleep (m : Machine L σ) : Except Err (Machine L σ) :=
  match m.current with
  | some this => CoroutineImpl.yield m this
  | none => Except.ok { m with trace := m.trace ++ [Event.sleep] }

/-- One step of the running fiber: execute from the innermost return point of its stack up to
the next return point. -/
def step (prog : L → σ → σ × Call L σ) (m : Machine L σ) : Except Err (Machine L σ) :=
  match m.stack with
  | [] => Except.error Err.thread_exit
  | Frame.user pc :: rest =>
    let r := prog pc m.mem
    call { m with mem := r.1 } rest r.2
  -- CoroutineMgr::yield, lines 174-179
  | Frame.mgr_yield i :: rest =>
    match m._fiber_list[i]? with
    | none => Except.ok (m.setStack rest)
    | some fib =>
      match Coroutine.status m fib with
      | Except.error e => Except.error e
      | Except.ok s =>
        if s = Status.Supended then
          Coroutine.resume (m.setStack (Frame.mgr_yield_181 i :: rest)) fib
        else Except.ok (m.setStack (Frame.mgr_yield_181 i :: rest))
  -- CoroutineMgr::yield, lines 181-184
  | Frame.mgr_yield_181 i :: rest =>
    match m._fiber_list[i]? with
    | none => Except.error Err.assert_impl
    | some fib =>
      match Coroutine.status m fib with
      | Except.error e => Except.error e
      | Except.ok s =>
        if s ≠ Status.Supended then
          Except.ok
            ({ m with _fiber_list := m._fiber_list.eraseIdx i }.setStack
              (Frame.mgr_yield i :: rest))
        else Except.ok (m.setStack (Frame.mgr_yield (i + 1) :: rest))
  -- CoroutineMgr::yield_until, lines 191-194
  | Frame.mgr_yield_until condition :: rest =>
    let r := condition m.mem
    if r.2 then Except.ok ({ m with mem := r.1 }.setStack rest)
    else
      Except.ok
        ({ m with mem := r.1 }.setStack
          (Frame.mgr_yield 0 :: Frame.mgr_yield_until condition :: rest))
  -- Coroutine::await, lines 418-422
  | Frame.await_421 h :: rest =>
    if m.current = (m.handles h)._impl then Except.error Err.assert_await_self
    else
      match Coroutine.status m (m.handles h) with
      | Except.error e => Except.error e
      | Except.ok s =>
        if s = Status.Supended then
          Coroutine.resume (m.setStack (Frame.await_424 h :: rest)) (m.handles h)
        else Except.ok (m.setStack (Frame.await_424 h :: rest))
  -- Coroutine::await, lines 424-429
  | Frame.await_424 h :: rest =>
    match Coroutine.status m (m.handles h) with
    | Except.error e => Except.error e
    | Except.ok s =>
      if s = Status.Supended then yield_or_sleep (m.setStack (Frame.await_431 h :: rest))
      else Except.ok (m.setStack rest)
  -- Coroutine::await, line 431
  | Frame.await_431 h :: rest =>
    Coroutine.resume (m.setStack (Frame.await_424 h :: rest)) (m.handles h)
  -- Coroutine::await_all, lines 345-347
  | Frame.await_all_345 hs all_done :: rest =>
    if all_done then Except.ok (m.setStack rest)
    else Except.ok (m.setStack (Frame.await_all_349 hs 0 true :: rest))
  -- Coroutine::await_all, lines 349-356 and 363-369
  | Frame.await_all_349 hs i all_done :: rest =>
    match hs[i]? with
    | none =>
      if all_done then Except.ok (m.setStack (Frame.await_all_345 hs all_done :: rest))
      else yield_or_sleep (m.setStack (Frame.await_all_345 hs all_done :: rest))
    | some h =>
      if m.current = (m.handles h)._impl then Except.error Err.assert_await_self
      else
        match Coroutine.status m (m.handles h) with
        | Except.error e => Except.error e
        | Except.ok s =>
          if s = Status.Supended then
            Coroutine.resume (m.setStack (Frame.await_all_358 hs i all_done :: rest))
              (m.handles h)
          else Except.ok (m.setStack (Frame.await_all_349 hs (i + 1) all_done :: rest))
  -- Coroutine::await_all, lines 358-359
  | Frame.await_all_358 hs i all_done :: rest =>
    match hs[i]? with
    | none => Except.error Err.assert_impl
    | some h =>
      match Coroutine.status m (m.handles h) with
      | Except.error e => Except.error e
      | Except.ok s =>
        Except.ok
          (m.setStack
            (Frame.await_all_349 hs (i + 1) (if s = Status.Supended then false else all_done)
              :: rest))

/-- Run `n` steps, stopping at the first failure. -/
def run (prog : L → σ → σ × Call L σ) : Nat → Machine L σ → Except Err (Machine L σ)
  | 0, m => Except.ok m
  | n + 1, m =>
    match step prog m with
    | Except.ok m1 => run prog n m1
    | Except.error e => Except.error e

/-- The thread right after `Coroutine::init()` (coroutine.hpp:310-314), about to run `main`
from the control state `entry`: no context, empty registry, all handle variables empty. -/
def Machine.init (entry : L) (mem : σ) : Machine L σ :=
  { mem := mem, fibers := [], handles := fun _ => { _impl := none }, _fiber_list := [],
    current := none, major_stack := [Frame.user entry], trace := [] }

end Runtime

end Spark

namespace Spark

section Derived

variable {L σ : Type}

/-- The user memory after `k` evaluations of the predicate `p`, one after the other. -/
def mem_after (p : σ → σ × Bool) : Nat → σ → σ
  | 0, s => s
  | k + 1, s => mem_after p k (p s).1

/-- `k` consecutive calls of `CoroutineImpl::resume` on `this` by the running fiber. -/
def resume_times (this : Fid) : Nat → Machine L σ → Except Err (Machine L σ)
  | 0, m => Except.ok m
  | k + 1, m =>
    match CoroutineImpl.resume m this with
    | Except.ok m1 => resume_times this k m1
    | Except.error e => Except.error e

/-- One call of `CoroutineImpl::resume` on `this` by the running fiber, followed by one step of
the fiber that is running then. -/
def resume_round (prog : L → σ → σ × Call L σ) (this : Fid) (m : Machine L σ) :
    Except Err (Machine L σ) :=
  match CoroutineImpl.resume m this with
  | Except.ok m1 => step prog m1
  | Except.error e => Except.error e

end Derived

end Spark

namespace Spark

section PassDefs

variable {L σ : Type}

/-- The return points of `CoroutineMgr::yield`. -/
def Frame.isPass : Frame L σ → Bool
  | Frame.mgr_yield _ => true
  | Frame.mgr_yield_181 _ => true
  | _ => false

/-- The return points of `CoroutineMgr::yield` and `CoroutineMgr::yield_until`, the functions
that only the major fiber runs. -/
def Frame.isMgr : Frame L σ → Bool
  | Frame.mgr_yield _ => true
  | Frame.mgr_yield_181 _ => true
  | Frame.mgr_yield_until _ => true
  | _ => false

/-- The position of the iterator of `CoroutineMgr::yield` when that function is the innermost
one on the stack `s`. -/
def passIdx : List (Frame L σ) → Option Nat
  | Frame.mgr_yield i :: _ => some i
  | Frame.mgr_yield_181 i :: _ => some i
  | _ => none

/-- How `step` replaces the running stack of `m` by `s`: frames of `CoroutineMgr` are pushed
only by the major fiber, those of `CoroutineMgr::yield` only on top, and the iterator starts
at `0`, stays, or moves from `i` to `i + 1` past an entry that is `Supended`. -/
structure StackOK (m : Machine L σ) (s : List (Frame L σ)) : Prop where
  tail_ok : (∀ fr ∈ m.stack.tail, fr.isPass = false) → ∀ fr ∈ s.tail, fr.isPass = false
  fiber_ok : m.current ≠ none → (∀ fr ∈ m.stack, fr.isMgr = false) →
    ∀ fr ∈ s, fr.isMgr = false
  idx_ok : s = m.stack.tail ∨ passIdx s = none ∨ passIdx s = some 0 ∨
    passIdx s = passIdx m.stack ∨
    ∃ (i : Nat) (f : Fid) (c : CoroutineImpl L σ), passIdx m.stack = some i ∧
      passIdx s = some (i + 1) ∧ m._fiber_list[i]? = some { _impl := some f } ∧
      m.fibers[f]? = some c ∧ c._status = Status.Supended

/-- Where the target of a `resume()` call comes from: a handle variable of the user program, or
the registry entry under the iterator of `CoroutineMgr::yield`. -/
def Accessible (m : Machine L σ) (this : Fid) : Prop :=
  (∃ h : Hid, (m.handles h)._impl = some this) ∨
  (∃ (i : Nat) (rest : List (Frame L σ)), m.stack = Frame.mgr_yield_181 i :: rest ∧
    m._fiber_list[i]? = some { _impl := some this })

/-- The contexts reached from the running one by following `_fiber_come_from`. -/
inductive OnChain (m : Machine L σ) : Fid → Prop where
  | cur {f : Fid} : m.current = some f → OnChain m f
  | next {f g : Fid} {c : CoroutineImpl L σ} : OnChain m f → m.fibers[f]? = some c →
      c._fiber_come_from = some (some g) → OnChain m g

/-- Facts about statuses that hold in every state the thread can reach: a context that has
ended has an exhausted stack and was switched into before; a context that was never switched
into is still `Supended`; the running context and every recorded resumer were switched into
before. -/
structure LifeInv (m : Machine L σ) : Prop where
  term_stack : ∀ (f : Fid) (c : CoroutineImpl L σ), m.fibers[f]? = some c →
    c._status ≠ Status.Supended → c.stack = []
  fresh_susp : ∀ (f : Fid) (c : CoroutineImpl L σ), m.fibers[f]? = some c →
    c._fiber_come_from = none → c._status = Status.Supended
  cur_from : ∀ f : Fid, m.current = some f →
    ∃ c : CoroutineImpl L σ, m.fibers[f]? = some c ∧ c._fiber_come_from ≠ none
  from_from : ∀ (f : Fid) (c : CoroutineImpl L σ) (g : Fid), m.fibers[f]? = some c →
    c._fiber_come_from = some (some g) →
    ∃ d : CoroutineImpl L σ, m.fibers[g]? = some d ∧ d._fiber_come_from ≠ none

/-- Every context of `m` that has ended is still there in `m1` with the same status. -/
def Kept (m m1 : Machine L σ) : Prop :=
  ∀ (f : Fid) (c : CoroutineImpl L σ), m.fibers[f]? = some c → c._status ≠ Status.Supended →
    ∃ c1 : CoroutineImpl L σ, m1.fibers[f]? = some c1 ∧ c1._status = c._status

/-- Ownership facts that hold in every state the thread can reach. Frames of `CoroutineMgr` are
on the major fiber's stack only, those of `CoroutineMgr::yield` only on its top. No two
non-empty handles, among the handle variables and the registry entries, hold the same
context, and every held context exists. While `CoroutineMgr::yield` runs with its iterator
at `i`, every entry before `i` holds a `Supended` context that is neither running nor
waiting, directly or through others, for the running context to switch back. -/
structure Own (m : Machine L σ) : Prop where
  fiber_frames : ∀ (f : Fid) (c : CoroutineImpl L σ), m.fibers[f]? = some c →
    ∀ fr ∈ c.stack, fr.isMgr = false
  major_tail : ∀ fr ∈ m.major_stack.tail, fr.isPass = false
  list_distinct : m._fiber_list.Pairwise
    (fun a b => ∀ f : Fid, a._impl = some f → b._impl ≠ some f)
  handle_list : ∀ (h : Hid) (f : Fid), (m.handles h)._impl = some f →
    ∀ e ∈ m._fiber_list, e._impl ≠ some f
  handle_inj : ∀ (h1 h2 : Hid) (f : Fid), (m.handles h1)._impl = some f →
    (m.handles h2)._impl = some f → h1 = h2
  handle_lt : ∀ (h : Hid) (f : Fid), (m.handles h)._impl = some f → f < m.fibers.length
  list_lt : ∀ e ∈ m._fiber_list, ∀ f : Fid, e._impl = some f → f < m.fibers.length
  kept : ∀ i : Nat, passIdx m.major_stack = some i → ∀ j : Nat, j < i →
    ∃ (f : Fid) (c : CoroutineImpl L σ), m._fiber_list[j]? = some { _impl := some f } ∧
      m.fibers[f]? = some c ∧ c._status = Status.Supended ∧ ¬ OnChain m f

/-- The stack of the fiber `c` (`none` is the major fiber). -/
def Machine.stackOf (m : Machine L σ) : Option Fid → List (Frame L σ)
  | none => m.major_stack
  | some f =>
    match m.fibers[f]? with
    | some c => c.stack
    | none => []

/-- The handle variable `h` holds a context that is `Finished` or `Excepted`. -/
def Ended (m : Machine L σ) (h : Hid) : Prop :=
  ∃ (f : Fid) (c : CoroutineImpl L σ), (m.handles h)._impl = some f ∧ m.fibers[f]? = some c ∧
    c._status ≠ Status.Supended

/-- What the flag `all_done` of a call `await_all(hs)` means at each of its return points,
for the members `S` whose handle variables are left alone: when it is true, those of them
that the current `for` loop has passed have ended (all of them, at the `while` head). -/
def AwaitAllInv (m : Machine L σ) (S : Hid → Prop) (hs : List Hid) : Frame L σ → Prop
  | Frame.await_all_345 hs1 d => hs1 = hs ∧ (d = true → ∀ h ∈ hs, S h → Ended m h)
  | Frame.await_all_349 hs1 i d =>
    hs1 = hs ∧
      (d = true → ∀ (j : Nat) (h : Hid), j < i → hs[j]? = some h → S h → Ended m h)
  | Frame.await_all_358 hs1 i d =>
    hs1 = hs ∧
      (d = true → ∀ (j : Nat) (h : Hid), j < i → hs[j]? = some h → S h → Ended m h)
  | _ => False

/-- The calls with which a context gives up control: the end of its task and the two
suspensions. -/
def Call.isLeave : Call L σ → Bool
  | Call.ret => true
  | Call.raise => true
  | Call.yield _ => true
  | Call.yield_until _ _ => true
  | _ => false

/-- The handle `e` holds a context of `m` whose status is `Supended`. -/
def isSupended (m : Machine L σ) (e : Coroutine) : Bool :=
  match e._impl with
  | some f =>
    match m.fibers[f]? with
    | some c => decide (c._status = Status.Supended)
    | none => false
  | none => false

/-- The targets of the `resume()` attempts recorded in a log, in order. -/
def attempts (τ : List Event) : List Fid :=
  τ.filterMap (fun e =>
    match e with
    | Event.cond f _ => some f
    | _ => none)

/-- A registry entry whose context, when it runs, gives up control with its next library call:
its code from the point where it is suspended ends in `yield`, `yield_until`, return or raise,
whatever the user memory is. -/
def Simple (prog : L → σ → σ × Call L σ) (m : Machine L σ) (e : Coroutine) : Prop :=
  ∃ (f : Fid) (c : CoroutineImpl L σ), e._impl = some f ∧ m.fibers[f]? = some c ∧
    (c._status = Status.Supended →
      ∃ (pc : L) (rs : List (Frame L σ)), c.stack = Frame.user pc :: rs ∧
        ∀ s : σ, (prog pc s).2.isLeave = true)

/-- The events that concern the context `g` in a scheduling pass: an evaluation of its
condition, the switch from the major fiber into it, and its switch back. -/
def EventOf (g : Fid) (ev : Event) : Prop :=
  ev = Event.cond g true ∨ ev = Event.cond g false ∨ ev = Event.switch none (some g) ∨
    ev = Event.switch (some g) none

/-- The registry `l1` of a later state against the registry `l0` of an earlier one: `l1` is
what is left of `l0`, in the old order, followed by entries whose contexts were not in `l0`. -/
def Survives (l0 l1 : List Coroutine) : Prop :=
  ∃ kept app : List Coroutine, l1 = kept ++ app ∧ kept.Sublist l0 ∧
    ∀ e ∈ app, ∀ f : Fid, e._impl = some f → ∀ e0 ∈ l0, e0._impl ≠ some f

/-- What holds of a state `m` the thread reaches from `m0`: contexts are only added, no
handle variable holds a context of the registry of `m0`, and the registry of `m` is what
is left of that of `m0` followed by newer entries. -/
structure Since (m0 m : Machine L σ) : Prop where
  len : m0.fibers.length ≤ m.fibers.length
  handle_old : ∀ (h : Hid) (f : Fid), (m.handles h)._impl = some f →
    ∀ e0 ∈ m0._fiber_list, e0._impl ≠ some f
  list : Survives m0._fiber_list m._fiber_list

end PassDefs

end Spark

namespace Spark

section Handles

variable {L σ : Type}

/-- `Coroutine::operator bool` (coroutine.hpp:91-94). -/
def Coroutine.operator_bool (fib : Coroutine) : Bool := fib._impl.isSome

/-- The destructor `~CoroutineImpl` (coroutine.hpp:229-233): its two assertions. -/
def CoroutineImpl.destructor (m : Machine L σ) (this : Fid) : Except Err Unit :=
  match m.fibers[this]? with
  | none => Except.error Err.assert_impl
  | some c =>
    if c._status = Status.Supended then Except.error Err.assert_not_supended
    else if m.current = some this then Except.error Err.assert_not_self
    else Except.ok ()

/-- A handle gives up its `_impl` (`shared_ptr::reset`, or the end of the handle's life). The
handles of the program are move-only and each context is made by `make_shared` into one
handle, so the handle that gives up a context is its last owner and the context is
destroyed. -/
def Coroutine.release (m : Machine L σ) (fib : Coroutine) : Except Err Unit :=
  match fib._impl with
  | none => Except.ok ()
  | some this => CoroutineImpl.destructor m this

/-- How a call of `Coroutine::reset` ends when no assertion fails: it returns, or it throws
`std::exception` with the text "can't reset"; either way with the state it leaves. -/
inductive ResetResult (L σ : Type) where
  | returned (m : Machine L σ)
  | cant_reset (m : Machine L σ)

/-- `Coroutine::reset` (coroutine.hpp:384-389) on the handle variable `h`. -/
def Coroutine.reset (m : Machine L σ) (h : Hid) : Except Err (ResetResult L σ) :=
  let cleared : Machine L σ :=
    { m with handles := fun j => if j = h then { _impl := none } else m.handles j }
  match (m.handles h)._impl with
  | none => Except.ok (ResetResult.returned cleared)
  | some this =>
    match CoroutineImpl.get_status m this with
    | Except.error e => Except.error e
    | Except.ok s =>
      if s = Status.Supended then Except.ok (ResetResult.cant_reset m)
      else
        match CoroutineImpl.destructor m this with
        | Except.error e => Except.error e
        | Except.ok _ => Except.ok (ResetResult.returned cleared)

/-- The move assignment `Coroutine::operator=(Coroutine&&)` (coroutine.hpp:79-86) of the
handle variable `src` to the handle variable `dst`: `terminate()` when `dst` holds a
context, else the two `_impl` are swapped. -/
def Coroutine.operator_assign (m : Machine L σ) (dst src : Hid) : Except Err (Machine L σ) :=
  match (m.handles dst)._impl with
  | some _ => Except.error Err.terminate
  | none =>
    Except.ok
      { m with
        handles := fun j =>
          if j = dst then m.handles src else if j = src then m.handles dst else m.handles j }

/-- The destructor of `CoroutineMgr` on the registry `l`: the entries of `_fiber_list` give up
their contexts one after the other. -/
def CoroutineMgr.destructor (m : Machine L σ) : List Coroutine → Except Err Unit
  | [] => Except.ok ()
  | fib :: rest =>
    match Coroutine.release m fib with
    | Except.ok _ => CoroutineMgr.destructor m rest
    | Except.error e => Except.error e

/-- `Coroutine::uninit` (coroutine.hpp:316-322): the assertion of line 319, then
`delete data->major_fiber`. -/
def Coroutine.uninit (m : Machine L σ) : Except Err (Machine L σ) :=
  if m.current ≠ none then Except.error Err.assert_major
  else
    match CoroutineMgr.destructor m m._fiber_list with
    | Except.ok _ => Except.ok { m with _fiber_list := [] }
    | Except.error e => Except.error e

end Handles

end Spark

namespace Spark

section FromDefs

variable {L σ : Type}

/-- Every context of `m` is still there in `m1` with the same recorded resumer
`_fiber_come_from`. -/
def SameFrom (m m1 : Machine L σ) : Prop :=
  ∀ (f : Fid) (c : CoroutineImpl L σ), m.fibers[f]? = some c →
    ∃ c1 : CoroutineImpl L σ, m1.fibers[f]? = some c1 ∧
      c1._fiber_come_from = c._fiber_come_from

/-- What one step from `m` to `m1` may do to the recorded resumers: each context of `m`
keeps its own, unless the step was a `resume()` by the fiber running in `m` that evaluated
the condition of that context to true and switched into it; then the record is that
fiber. -/
def FromStep (m m1 : Machine L σ) : Prop :=
  ∀ (f : Fid) (c : CoroutineImpl L σ), m.fibers[f]? = some c →
    ∃ c1 : CoroutineImpl L σ, m1.fibers[f]? = some c1 ∧
      (c1._fiber_come_from = c._fiber_come_from ∨
        (m1.current = some f ∧ m.current ≠ some f ∧
          c1._fiber_come_from = some m.current ∧
          ∃ t : List Event,
            m1.trace = t ++ [Event.cond f true, Event.switch m.current (some f)]))

end FromDefs

end Spark

namespace Demo

open Spark

/-- The globals of simple.cpp (lines 10-11), and as ghost output the console lines of the
consumer: each printed value together with the contents of `g_vecTask` when it was printed. -/
structure Globals where
  g_shutdown : Bool
  g_vecTask : List Nat
  consumed : List (Nat × List Nat)
  deriving DecidableEq, Repr

/-- Control states of simple.cpp: the statements of `main` (by line), the entry of each task
and the points just after each `Coroutine::yield()` (by line; the producer keeps its local `i`). -/
inductive Pc where
  | main_59
  | main_60
  | main_62
  | main_63
  | main_65
  | do_producer
  | do_producer_25 (i : Nat)
  | do_consumer
  | do_consumer_39
  | do_consumer_47
  deriving DecidableEq, Repr

/-- The handle variable `consumer` of `main`. -/
def consumer : Hid := 0

/-- The handle variable `producer` of `main`. -/
def producer : Hid := 1

/-- The `for` loop of `do_producer` (simple.cpp:19-28) from its test with local `i`. -/
def producer_loop (i : Nat) (g : Globals) : Globals × Call Pc Globals :=
  if i ≤ 100 then
    ({ g with g_vecTask := g.g_vecTask ++ [i] }, Call.yield (Pc.do_producer_25 i))
  else ({ g with g_shutdown := true }, Call.ret)

/-- The `while` loop of `do_consumer` (simple.cpp:34-48) from its test. -/
def consumer_loop (g : Globals) : Globals × Call Pc Globals :=
  if g.g_shutdown then (g, Call.ret)
  else if g.g_vecTask.length = 0 then (g, Call.yield Pc.do_consumer_39)
  else
    ({ g with
       consumed := g.consumed ++ [(g.g_vecTask.getLast?.getD 0, g.g_vecTask)]
       g_vecTask := g.g_vecTask.dropLast },
     Call.yield Pc.do_consumer_47)

/-- The user code of simple.cpp. -/
def prog : Pc → Globals → Globals × Call Pc Globals
  | Pc.main_59, g => (g, Call.go consumer Pc.do_consumer Pc.main_60)
  | Pc.main_60, g => (g, Call.go producer Pc.do_producer Pc.main_62)
  | Pc.main_62, g => (g, Call.manage consumer Pc.main_63)
  | Pc.main_63, g => (g, Call.manage producer Pc.main_65)
  | Pc.main_65, g => if g.g_shutdown then (g, Call.ret) else (g, Call.yield Pc.main_65)
  | Pc.do_producer, g => producer_loop 1 { g with g_shutdown := false }
  | Pc.do_producer_25 i, g => producer_loop (i + 1) g
  | Pc.do_consumer, g => consumer_loop g
  | Pc.do_consumer_39, g => consumer_loop g
  | Pc.do_consumer_47, g => consumer_loop g

/-- The process at the start of `main`, after `Coroutine::init()`. -/
def start : Machine Pc Globals :=
  Machine.init Pc.main_59 { g_shutdown := false, g_vecTask := [], consumed := [] }

/-- The end of `main` (simple.cpp:57-70) once `return 0` is reached: the handle variables
`producer` and `consumer` go out of scope, then the deleter of `auto_uinitialize` calls
`Coroutine::uninit()`. -/
def teardown (m : Machine Pc Globals) : Except Err (Machine Pc Globals) :=
  match Coroutine.release m (m.handles producer) with
  | Except.error e => Except.error e
  | Except.ok _ =>
    match Coroutine.release m (m.handles consumer) with
    | Except.error e => Except.error e
    | Except.ok _ => Coroutine.uninit m

end Demo

namespace Example

open Spark

/-- A thread with the contexts `cs`, the handle variables `hs` (all others empty), an empty
registry and the major fiber in `main` at control state `0`; `cur` is the running fiber.
Control states and user memory are numbers. -/
def thread (cs : List (CoroutineImpl Nat Nat)) (hs : List Coroutine) (cur : Option Fid) :
    Machine Nat Nat :=
  { mem := 0, fibers := cs, handles := fun j => hs.getD j { _impl := none }, _fiber_list := [],
    current := cur, major_stack := [Frame.user 0], trace := [] }

/-- A context that the major fiber resumed and that is suspended at control state `7` with
the resume-condition `p`. -/
def parked (p : Nat → Nat × Bool) : CoroutineImpl Nat Nat :=
  { _task := 0, _resume_condition := p, _status := Status.Supended,
    _fiber_come_from := some none, stack := [Frame.user 7] }

/-- A predicate with a side effect: it counts its calls in the user memory and returns true
from the third call on. -/
def third_time (s : Nat) : Nat × Bool := (s + 1, decide (2 ≤ s))

/-- User code that yields at the control states below `3` and returns at `3`. -/
def three_yields (pc : Nat) (s : Nat) : Nat × Call Nat Nat :=
  (s, if pc < 3 then Call.yield (pc + 1) else Call.ret)

/-- User code whose `main` awaits the handle variable `0`; every other control state
returns. -/
def awaits (pc : Nat) (s : Nat) : Nat × Call Nat Nat :=
  (s, if pc = 0 then Call.await 0 1 else Call.ret)

/-- User code for `await_all`: `main` (control states `0` to `4`) binds three coroutines to the
handle variables `0`, `1`, `2` and awaits them all. The first task (from `10`) finishes
after one `yield()`, the second (from `20`) after three, the third (from `30`) raises after
two. -/
def three_tasks (pc : Nat) (s : Nat) : Nat × Call Nat Nat :=
  (s,
    match pc with
    | 0 => Call.go 0 10 1
    | 1 => Call.go 1 20 2
    | 2 => Call.go 2 30 3
    | 3 => Call.await_all [0, 1, 2] 4
    | 10 => Call.yield 11
    | 20 => Call.yield 21
    | 21 => Call.yield 22
    | 22 => Call.yield 23
    | 30 => Call.yield 31
    | 31 => Call.yield 32
    | 32 => Call.raise
    | _ => Call.ret)

/-- A thread at the start of a scheduling pass over three managed coroutines: one suspended by
`yield_until(third_time)`, one fresh with task `0`, and one that has finished. -/
def registry_of_three : Machine Nat Nat :=
  { mem := 0,
    fibers := [parked third_time, CoroutineImpl.mk_task 0,
      { _task := 5, _resume_condition := always_true, _status := Status.Finished,
        _fiber_come_from := some none, stack := [] }],
    handles := fun _ => { _impl := none },
    _fiber_list := [{ _impl := some 0 }, { _impl := some 1 }, { _impl := some 2 }],
    current := none, major_stack := [Frame.mgr_yield 0, Frame.user 9], trace := [] }

/-- A predicate that holds while the user memory is `1`. -/
def is_one (s : Nat) : Nat × Bool := (s, decide (s = 1))

/-- A thread whose only context is running; an earlier `yield_until(is_one)` stored the
predicate `is_one` in it, which held when the context was resumed and does not hold now
that the user memory is `0`. -/
def running_after_until : Machine Nat Nat :=
  thread [parked is_one] [{ _impl := some 0 }] (some 0)

/-- A thread in which context `1` is running and context `0`, which the major fiber resumed
earlier, is suspended. -/
def nested : Machine Nat Nat :=
  thread [parked always_true, parked always_true] [{ _impl := some 0 }, { _impl := some 1 }]
    (some 1)

/-- A predicate with a side effect on the user memory, a number whose last digit counts
the runs of a task and whose tens count the evaluations of the predicate: it holds once
the task has run twice. -/
def ran_twice (s : Nat) : Nat × Bool := (s + 10, decide (2 ≤ s % 10))

/-- User code for the root's `yield_until`: `main` (control states `0` to `2`) binds a
coroutine to the handle variable `0`, hands it to the registry and calls
`yield_until(ran_twice)`; the task (control state `10`) adds one to the user memory and
yields, for ever. -/
def root_until (pc : Nat) (s : Nat) : Nat × Call Nat Nat :=
  match pc with
  | 0 => (s, Call.go 0 10 1)
  | 1 => (s, Call.manage 0 2)
  | 2 => (s, Call.yield_until ran_twice 3)
  | 10 => (s + 1, Call.yield 10)
  | _ => (s, Call.ret)

/-- A thread in `CoroutineMgr::yield_until(third_time)` with an empty registry. -/
def until_third_time : Machine Nat Nat :=
  { mem := 0, fibers := [], handles := fun _ => { _impl := none }, _fiber_list := [],
    current := none, major_stack := [Frame.mgr_yield_until third_time, Frame.user 9],
    trace := [] }

/-- User code with two coroutines awaiting one target: `main` (control states `0` to `7`)
binds the target to the handle variable `0` and two awaiters to `1` and `2`, hands the
awaiters to the registry and calls `yield()` twice. The target (from `10`) finishes after
one `yield()`; each awaiter (from `20`) calls `await` on the handle variable `0`. -/
def two_awaiters (pc : Nat) (s : Nat) : Nat × Call Nat Nat :=
  (s,
    match pc with
    | 0 => Call.go 0 10 1
    | 1 => Call.go 1 20 2
    | 2 => Call.go 2 20 3
    | 3 => Call.manage 1 4
    | 4 => Call.manage 2 5
    | 5 => Call.yield 6
    | 6 => Call.yield 7
    | 10 => Call.yield 11
    | 20 => Call.await 0 21
    | _ => Call.ret)

/-- User code in which a member of `await_all` rebinds the handle variable of another
member: `main` (control states `0` to `3`) binds two coroutines to the handle variables
`0` and `1` and awaits both. The first task (from `10`) returns at once. The second (from
`20`) hands the handle variable `0` to the registry, binds a new coroutine (task `30`) to
it and returns. -/
def rebinds (pc : Nat) (s : Nat) : Nat × Call Nat Nat :=
  (s,
    match pc with
    | 0 => Call.go 0 10 1
    | 1 => Call.go 1 20 2
    | 2 => Call.await_all [0, 1] 3
    | 20 => Call.manage 0 21
    | 21 => Call.go 0 30 22
    | _ => Call.ret)

/-- User code in which the target of `await` gives away the handle it is awaited through:
`main` (control states `0` to `2`) binds a coroutine to the handle variable `0` and
awaits it. The task (from `10`) hands the handle variable `0` to the registry and
returns. -/
def gives_away (pc : Nat) (s : Nat) : Nat × Call Nat Nat :=
  (s,
    match pc with
    | 0 => Call.go 0 10 1
    | 1 => Call.await 0 2
    | 10 => Call.manage 0 11
    | _ => Call.ret)

/-- User code in which a task resumes the coroutine that resumed it: `main` (control states
`0` to `3`) binds two coroutines to the handle variables `0` and `1` and resumes the
first. The first task (from `10`) resumes the second and returns. The second task (from
`20`) resumes the first, which is waiting for it, and then raises. -/
def resumes_resumer (pc : Nat) (s : Nat) : Nat × Call Nat Nat :=
  (s,
    match pc with
    | 0 => Call.go 0 10 1
    | 1 => Call.go 1 20 2
    | 2 => Call.resume 0 3
    | 10 => Call.resume 1 11
    | 20 => Call.resume 0 21
    | 21 => Call.raise
    | _ => Call.ret)

/-- User code of a task that binds a coroutine to the handle variable `5` and then
raises. -/
def binds_then_raises (pc : Nat) (s : Nat) : Nat × Call Nat Nat :=
  (s, if pc = 0 then Call.go 5 9 1 else Call.raise)

/-- User code whose `main` awaits the handle variable `0`; the task behind it (from `5`)
binds a coroutine to the handle variable `7` and returns. -/
def awaits_worker (pc : Nat) (s : Nat) : Nat × Call Nat Nat :=
  (s, if pc = 0 then Call.await 0 1 else if pc = 5 then Call.go 7 9 6 else Call.ret)

/-- User code in which the target of `await` resumes its awaiter: `main` (control states `0`
to `3`) binds two coroutines to the handle variables `0` and `1` and resumes the first.
The first task (from `10`) awaits the second. The second task (from `20`) resumes the
first, which is waiting for it, and then returns. -/
def target_resumes_awaiter (pc : Nat) (s : Nat) : Nat × Call Nat Nat :=
  (s,
    match pc with
    | 0 => Call.go 0 10 1
    | 1 => Call.go 1 20 2
    | 2 => Call.resume 0 3
    | 10 => Call.await 1 11
    | 20 => Call.resume 0 21
    | _ => Call.ret)

/-- The thread `thread [mk_task 0] [] none` after the major fiber has resumed the
context `0`. -/
def worker_running : Machine Nat Nat :=
  { mem := 0,
    fibers := [{ _task := 0, _resume_condition := always_true, _status := Status.Supended,
                 _fiber_come_from := some none, stack := [Frame.user 0] }],
    handles := fun _ => { _impl := none }, _fiber_list := [], current := some 0,
    major_stack := [Frame.user 0],
    trace := [Event.cond 0 true, Event.switch none (some 0)] }

/-- The thread `worker_running` after one step of `binds_then_raises`. -/
def worker_bound : Machine Nat Nat :=
  { mem := 0,
    fibers := [{ _task := 0, _resume_condition := always_true, _status := Status.Supended,
                 _fiber_come_from := some none, stack := [Frame.user 1] },
               CoroutineImpl.mk_task 9],
    handles := fun j => if j = 5 then { _impl := some 1 } else { _impl := none },
    _fiber_list := [], current := some 0, major_stack := [Frame.user 0],
    trace := [Event.cond 0 true, Event.switch none (some 0)] }

/-- The thread `thread [mk_task 5] [handle 0] none` two steps after `main` has called
`await` on the handle variable `0`: the target is running. -/
def awaited_running : Machine Nat Nat :=
  { mem := 0,
    fibers := [{ _task := 5, _resume_condition := always_true, _status := Status.Supended,
                 _fiber_come_from := some none, stack := [Frame.user 5] }],
    handles := fun j => [{ _impl := some 0 }].getD j { _impl := none },
    _fiber_list := [], current := some 0,
    major_stack := [Frame.await_424 0, Frame.user 1],
    trace := [Event.cond 0 true, Event.switch none (some 0)] }

/-- The thread `awaited_running` after one step of `awaits_worker`. -/
def awaited_bound : Machine Nat Nat :=
  { mem := 0,
    fibers := [{ _task := 5, _resume_condition := always_true, _status := Status.Supended,
                 _fiber_come_from := some none, stack := [Frame.user 6] },
               CoroutineImpl.mk_task 9],
    handles := fun j =>
      if j = 7 then { _impl := some 1 } else [{ _impl := some 0 }].getD j { _impl := none },
    _fiber_list := [], current := some 0,
    major_stack := [Frame.await_424 0, Frame.user 1],
    trace := [Event.cond 0 true, Event.switch none (some 0)] }

/-- A context whose task has returned. -/
def finished : CoroutineImpl Nat Nat :=
  { _task := 5, _resume_condition := always_true, _status := Status.Finished,
    _fiber_come_from := some none, stack := [] }

/-- A thread in `main` whose handle variable `0` holds a finished context and whose handle
variable `1` holds a suspended one. -/
def two_handles : Machine Nat Nat :=
  thread [finished, parked always_true] [{ _impl := some 0 }, { _impl := some 1 }] none

/-- User code that raises at once. -/
def raises (_ : Nat) (s : Nat) : Nat × Call Nat Nat := (s, Call.raise)

end Example

namespace Spark

section Basics

variable {L σ : Type}

theorem updFiber_fibers (m : Machine L σ) (f : Fid) (g : CoroutineImpl L σ → CoroutineImpl L σ)
    (k : Fid) :
    (updFiber m f g).fibers[k]? = if k = f then (m.fibers[f]?).map g else m.fibers[k]? := by
  unfold updFiber
  cases h : m.fibers[f]? with
  | none =>
    by_cases hk : k = f
    · subst hk; simp [h]
    · simp [hk]
  | some c =>
    by_cases hk : k = f
    · subst hk
      have hlt : k < m.fibers.length := by
        rcases List.getElem?_eq_some.mp h with ⟨hlt, _⟩
        exact hlt
      simp [List.getElem?_set, hlt]
    · have hk2 : ¬ f = k := fun e => hk e.symm
      simp [List.getElem?_set, hk, hk2]

@[simp] theorem updFiber_length (m : Machine L σ) (f : Fid)
    (g : CoroutineImpl L σ → CoroutineImpl L σ) :
    (updFiber m f g).fibers.length = m.fibers.length := by
  unfold updFiber; cases m.fibers[f]? <;> simp

@[simp] theorem updFiber_current (m : Machine L σ) (f : Fid)
    (g : CoroutineImpl L σ → CoroutineImpl L σ) : (updFiber m f g).current = m.current := by
  unfold updFiber; cases m.fibers[f]? <;> rfl

@[simp] theorem updFiber_mem (m : Machine L σ) (f : Fid)
    (g : CoroutineImpl L σ → CoroutineImpl L σ) : (updFiber m f g).mem = m.mem := by
  unfold updFiber; cases m.fibers[f]? <;> rfl

@[simp] theorem updFiber_handles (m : Machine L σ) (f : Fid)
    (g : CoroutineImpl L σ → CoroutineImpl L σ) : (updFiber m f g).handles = m.handles := by
  unfold updFiber; cases m.fibers[f]? <;> rfl

@[simp] theorem updFiber_fiber_list (m : Machine L σ) (f : Fid)
    (g : CoroutineImpl L σ → CoroutineImpl L σ) :
    (updFiber m f g)._fiber_list = m._fiber_list := by
  unfold updFiber; cases m.fibers[f]? <;> rfl

@[simp] theorem updFiber_major_stack (m : Machine L σ) (f : Fid)
    (g : CoroutineImpl L σ → CoroutineImpl L σ) :
    (updFiber m f g).major_stack = m.major_stack := by
  unfold updFiber; cases m.fibers[f]? <;> rfl

@[simp] theorem updFiber_trace (m : Machine L σ) (f : Fid)
    (g : CoroutineImpl L σ → CoroutineImpl L σ) : (updFiber m f g).trace = m.trace := by
  unfold updFiber; cases m.fibers[f]? <;> rfl

theorem setStack_fibers (m : Machine L σ) (s : List (Frame L σ)) (k : Fid) :
    (m.setStack s).fibers[k]? =
      if m.current = some k then (m.fibers[k]?).map (fun c => { c with stack := s })
      else m.fibers[k]? := by
  unfold Machine.setStack
  cases h : m.current with
  | none => simp
  | some f =>
    simp only [updFiber_fibers]
    by_cases hk : k = f
    · subst hk; simp
    · have hk2 : ¬ f = k := fun e => hk e.symm
      simp [hk, hk2]

@[simp] theorem setStack_length (m : Machine L σ) (s : List (Frame L σ)) :
    (m.setStack s).fibers.length = m.fibers.length := by
  unfold Machine.setStack; cases m.current <;> simp

@[simp] theorem setStack_current (m : Machine L σ) (s : List (Frame L σ)) :
    (m.setStack s).current = m.current := by
  unfold Machine.setStack; cases h : m.current <;> simp [h]

@[simp] theorem setStack_mem (m : Machine L σ) (s : List (Frame L σ)) :
    (m.setStack s).mem = m.mem := by
  unfold Machine.setStack; cases m.current <;> simp

@[simp] theorem setStack_handles (m : Machine L σ) (s : List (Frame L σ)) :
    (m.setStack s).handles = m.handles := by
  unfold Machine.setStack; cases m.current <;> simp

@[simp] theorem setStack_fiber_list (m : Machine L σ) (s : List (Frame L σ)) :
    (m.setStack s)._fiber_list = m._fiber_list := by
  unfold Machine.setStack; cases m.current <;> simp

@[simp] theorem setStack_trace (m : Machine L σ) (s : List (Frame L σ)) :
    (m.setStack s).trace = m.trace := by
  unfold Machine.setStack; cases m.current <;> simp

theorem setStack_major_stack (m : Machine L σ) (s : List (Frame L σ)) :
    (m.setStack s).major_stack = if m.current = none then s else m.major_stack := by
  unfold Machine.setStack; cases m.current <;> simp

/-- What a successful `CoroutineImpl::resume` did: either the condition was false and only the
user memory and the log changed, or it was true and the target became the running fiber. -/
theorem resume_ok {m m1 : Machine L σ} {this : Fid}
    (h : CoroutineImpl.resume m this = Except.ok m1) :
    ∃ c, m.fibers[this]? = some c ∧ m.current ≠ some this ∧ c._status = Status.Supended ∧
      (((c._resume_condition m.mem).2 = false ∧
          m1 = { m with mem := (c._resume_condition m.mem).1,
                        trace := m.trace ++ [Event.cond this false] }) ∨
       ((c._resume_condition m.mem).2 = true ∧
          m1 = { mem := (c._resume_condition m.mem).1,
                 fibers := (updFiber m this
                   (fun c => { c with _fiber_come_from := some m.current })).fibers,
                 handles := m.handles, _fiber_list := m._fiber_list, current := some this,
                 major_stack := m.major_stack,
                 trace := m.trace ++ [Event.cond this true, Event.switch m.current (some this)] }))
    := by
  unfold CoroutineImpl.resume at h
  cases hc : m.fibers[this]? with
  | none => simp [hc] at h
  | some c =>
    simp only [hc] at h
    by_cases h1 : m.current = some this
    · simp [h1] at h
    · by_cases h2 : c._status = Status.Supended
      · by_cases h3 : (c._resume_condition m.mem).2 = true
        · simp [h1, h2, h3] at h
          refine ⟨c, rfl, h1, h2, Or.inr ⟨h3, ?_⟩⟩
          rw [← h]
          simp [updFiber, hc]
        · have h3f : (c._resume_condition m.mem).2 = false := by simpa using h3
          simp [h1, h2, h3f] at h
          exact ⟨c, rfl, h1, h2, Or.inl ⟨h3f, by rw [← h]⟩⟩
      · simp [h1, h2] at h

/-- What a successful `CoroutineImpl::yield_until` did. -/
theorem yield_until_ok {m m1 : Machine L σ} {this : Fid} {condition : σ → σ × Bool}
    (h : CoroutineImpl.yield_until m this condition = Except.ok m1) :
    ∃ c src, m.current = some this ∧ m.fibers[this]? = some c ∧
      c._fiber_come_from = some src ∧
      m1 = { mem := m.mem,
             fibers := (updFiber m this
               (fun c => { c with _resume_condition := condition })).fibers,
             handles := m.handles, _fiber_list := m._fiber_list, current := src,
             major_stack := m.major_stack,
             trace := m.trace ++ [Event.switch (some this) src] } := by
  unfold CoroutineImpl.yield_until at h
  by_cases h1 : m.current = some this
  · cases hc : m.fibers[this]? with
    | none => simp [h1, hc] at h
    | some c =>
      cases hs : c._fiber_come_from with
      | none => simp [h1, hc, hs] at h
      | some src =>
        simp [h1, hc, hs] at h
        exact ⟨c, src, h1, rfl, hs, h.symm⟩
  · simp [h1] at h

/-- `CoroutineImpl::yield` does what `yield_until(always_true)` does: its own assertion is
the first assertion of `yield_until`. -/
theorem yield_eq (m : Machine L σ) (this : Fid) :
    CoroutineImpl.yield m this = CoroutineImpl.yield_until m this always_true := by
  unfold CoroutineImpl.yield CoroutineImpl.yield_until
  by_cases h : m.current = some this <;> simp [h]

theorem do_fiber_work_eq (m : Machine L σ) (this : Fid) (st : Status) :
    CoroutineImpl.do_fiber_work m this st =
      CoroutineImpl.yield_until
        ((updFiber m this (fun c => { c with _status := st })).setStack []) this always_true := by
  unfold CoroutineImpl.do_fiber_work
  rw [yield_eq]

end Basics

end Spark

namespace Spark

section StatusLemmas

variable {L σ : Type}

theorem status_ok {m : Machine L σ} {fib : Coroutine} {s : Status}
    (h : Coroutine.status m fib = Except.ok s) :
    ∃ (t : Fid) (c : CoroutineImpl L σ), fib._impl = some t ∧ m.current ≠ some t ∧
      m.fibers[t]? = some c ∧ c._status = s := by
  unfold Coroutine.status at h
  cases ht : fib._impl with
  | none => simp [ht] at h
  | some t =>
    simp only [ht] at h
    unfold CoroutineImpl.get_status at h
    by_cases hcur : m.current = some t
    · simp [hcur] at h
    · simp only [hcur, if_false] at h
      cases hc : m.fibers[t]? with
      | none => simp [hc] at h
      | some c =>
        simp only [hc] at h
        injection h with h
        exact ⟨t, c, rfl, hcur, hc, h⟩

theorem status_eq {m : Machine L σ} {fib : Coroutine} {t : Fid} {c : CoroutineImpl L σ}
    (ht : fib._impl = some t) (hcur : m.current ≠ some t) (hc : m.fibers[t]? = some c) :
    Coroutine.status m fib = Except.ok c._status := by
  unfold Coroutine.status CoroutineImpl.get_status
  simp [ht, hcur, hc]

theorem setStack_fibers_other (m : Machine L σ) (s : List (Frame L σ)) {t : Fid}
    (hcur : m.current ≠ some t) : (m.setStack s).fibers[t]? = m.fibers[t]? := by
  rw [setStack_fibers]; simp [hcur]

end StatusLemmas

end Spark

namespace Spark

section Generic

variable {L σ : Type}

@[simp] theorem stack_setMem (m : Machine L σ) (μ : σ) :
    ({ m with mem := μ } : Machine L σ).stack = m.stack := rfl

@[simp] theorem stack_setTrace (m : Machine L σ) (τ : List Event) :
    ({ m with trace := τ } : Machine L σ).stack = m.stack := rfl

@[simp] theorem stack_setFiberList (m : Machine L σ) (l : List Coroutine) :
    ({ m with _fiber_list := l } : Machine L σ).stack = m.stack := rfl

@[simp] theorem stack_manage (m : Machine L σ) (h : Hid) :
    (CoroutineMgr.manage m h).stack = m.stack := rfl

theorem stack_go (m : Machine L σ) (h : Hid) (task : L) (hs : m.stack ≠ []) :
    (Coroutine.go m h task).stack = m.stack := by
  unfold Coroutine.go
  cases (m.handles h)._impl with
  | some _ => rfl
  | none =>
    unfold Machine.stack at hs ⊢
    cases hc : m.current with
    | none => simp
    | some f =>
      simp only [hc] at hs ⊢
      cases hf : m.fibers[f]? with
      | none => simp [hf] at hs
      | some c =>
        have hlt : f < m.fibers.length := (List.getElem?_eq_some.mp hf).1
        have : (m.fibers ++ [CoroutineImpl.mk_task task])[f]? = some c := by
          rw [List.getElem?_append_left hlt]; exact hf
        simp only [this]

theorem stack_go_ne_nil (m : Machine L σ) (h : Hid) (task : L) (hs : m.stack ≠ []) :
    (Coroutine.go m h task).stack ≠ [] := by
  rw [stack_go m h task hs]; exact hs

@[simp] theorem go_current (m : Machine L σ) (h : Hid) (task : L) :
    (Coroutine.go m h task).current = m.current := by
  unfold Coroutine.go; cases (m.handles h)._impl <;> rfl

theorem stack_setStack (m : Machine L σ) (s : List (Frame L σ)) (hs : m.stack ≠ []) :
    (m.setStack s).stack = s := by
  unfold Machine.stack at hs ⊢
  cases hc : m.current with
  | none => simp [setStack_major_stack, hc]
  | some f =>
    simp only [hc, setStack_current] at hs ⊢
    cases hf : m.fibers[f]? with
    | none => simp [hf] at hs
    | some c => simp [setStack_fibers, hc, hf]

theorem mem_tail {α : Type} {a : α} {l : List α} (h : a ∈ l.tail) : a ∈ l := by
  cases l with
  | nil => simp at h
  | cons b l => exact List.mem_cons_of_mem b h

theorem isPass_of_isMgr {F : Frame L σ} (h : F.isMgr = false) : F.isPass = false := by
  cases F <;> simp_all [Frame.isMgr, Frame.isPass]

theorem passIdx_of_isMgr {F : Frame L σ} (h : F.isMgr = false) (l : List (Frame L σ)) :
    passIdx (F :: l) = none := by
  cases F <;> simp_all [Frame.isMgr, passIdx]

theorem stackOK_replace {m : Machine L σ} {top : Frame L σ} {rest : List (Frame L σ)}
    (hs : m.stack = top :: rest) (F : Frame L σ) (hF : F.isMgr = false) :
    StackOK m (F :: rest) := by
  refine ⟨?_, ?_, Or.inr (Or.inl (passIdx_of_isMgr hF _))⟩
  · intro h fr hfr; exact h fr (by simpa [hs] using hfr)
  · intro _ h fr hfr
    rcases List.mem_cons.mp hfr with rfl | hfr
    · exact hF
    · exact h fr (by rw [hs]; exact List.mem_cons_of_mem _ hfr)

theorem stackOK_push {m : Machine L σ} {top : Frame L σ} {rest : List (Frame L σ)}
    (hs : m.stack = top :: rest) (F G : Frame L σ) (hF : F.isMgr = false)
    (hG : G.isMgr = false) : StackOK m (F :: G :: rest) := by
  refine ⟨?_, ?_, Or.inr (Or.inl (passIdx_of_isMgr hF _))⟩
  · intro h fr hfr
    rcases List.mem_cons.mp (by simpa using hfr) with rfl | hfr
    · exact isPass_of_isMgr hG
    · exact h fr (by simpa [hs] using hfr)
  · intro _ h fr hfr
    rcases List.mem_cons.mp hfr with rfl | hfr
    · exact hF
    · rcases List.mem_cons.mp hfr with rfl | hfr
      · exact hG
      · exact h fr (by rw [hs]; exact List.mem_cons_of_mem _ hfr)

theorem stackOK_push_pass {m : Machine L σ} {top : Frame L σ} {rest : List (Frame L σ)}
    (hs : m.stack = top :: rest) (hcur : m.current = none) (G : Frame L σ)
    (hG : G.isPass = false) : StackOK m (Frame.mgr_yield 0 :: G :: rest) := by
  refine ⟨?_, ?_, Or.inr (Or.inr (Or.inl rfl))⟩
  · intro h fr hfr
    rcases List.mem_cons.mp (by simpa using hfr) with rfl | hfr
    · exact hG
    · exact h fr (by simpa [hs] using hfr)
  · intro h; exact absurd hcur h

theorem stackOK_push_until {m : Machine L σ} {top : Frame L σ} {rest : List (Frame L σ)}
    (hs : m.stack = top :: rest) (hcur : m.current = none) (c : σ → σ × Bool)
    (G : Frame L σ) (hG : G.isPass = false) :
    StackOK m (Frame.mgr_yield_until c :: G :: rest) := by
  refine ⟨?_, ?_, Or.inr (Or.inl rfl)⟩
  · intro h fr hfr
    rcases List.mem_cons.mp (by simpa using hfr) with rfl | hfr
    · exact hG
    · exact h fr (by simpa [hs] using hfr)
  · intro h; exact absurd hcur h

theorem stackOK_pop {m : Machine L σ} {top : Frame L σ} {rest : List (Frame L σ)}
    (hs : m.stack = top :: rest) : StackOK m rest := by
  refine ⟨?_, ?_, Or.inl (by rw [hs]; rfl)⟩
  · intro h fr hfr; exact h fr (by rw [hs]; exact mem_tail hfr)
  · intro _ h fr hfr; exact h fr (by rw [hs]; exact List.mem_cons_of_mem _ hfr)

theorem stackOK_nil {m : Machine L σ} (hcur : m.current = none) : StackOK m [] := by
  refine ⟨?_, ?_, Or.inr (Or.inl rfl)⟩
  · intro _ fr hfr; simp at hfr
  · intro h; exact absurd hcur h

theorem stackOK_of_mgr_top {m : Machine L σ} {top : Frame L σ} {rest : List (Frame L σ)}
    (hs : m.stack = top :: rest) (htop : top.isMgr = true) (F : Frame L σ)
    (hidx : passIdx (F :: rest) = some 0 ∨ passIdx (F :: rest) = passIdx m.stack ∨
      ∃ (i : Nat) (f : Fid) (c : CoroutineImpl L σ), passIdx m.stack = some i ∧
        passIdx (F :: rest) = some (i + 1) ∧ m._fiber_list[i]? = some { _impl := some f } ∧
        m.fibers[f]? = some c ∧ c._status = Status.Supended) :
    StackOK m (F :: rest) := by
  refine ⟨?_, ?_, Or.inr (Or.inr hidx)⟩
  · intro h fr hfr; exact h fr (by simpa [hs] using hfr)
  · intro _ h
    have := h top (by rw [hs]; exact List.mem_cons_self _ _)
    rw [htop] at this; cases this

theorem stackOK_181 {m : Machine L σ} {i : Nat} {rest : List (Frame L σ)}
    (hs : m.stack = Frame.mgr_yield i :: rest) : StackOK m (Frame.mgr_yield_181 i :: rest) :=
  stackOK_of_mgr_top hs rfl _ (Or.inr (Or.inl (by rw [hs]; rfl)))

theorem stackOK_erased {m : Machine L σ} {i : Nat} {rest : List (Frame L σ)}
    (hs : m.stack = Frame.mgr_yield_181 i :: rest) : StackOK m (Frame.mgr_yield i :: rest) :=
  stackOK_of_mgr_top hs rfl _ (Or.inr (Or.inl (by rw [hs]; rfl)))

theorem stackOK_next {m : Machine L σ} {i : Nat} {rest : List (Frame L σ)} {f : Fid}
    {c : CoroutineImpl L σ} (hs : m.stack = Frame.mgr_yield_181 i :: rest)
    (hl : m._fiber_list[i]? = some { _impl := some f }) (hc : m.fibers[f]? = some c)
    (hst : c._status = Status.Supended) : StackOK m (Frame.mgr_yield (i + 1) :: rest) :=
  stackOK_of_mgr_top hs rfl _ (Or.inr (Or.inr ⟨i, f, c, by rw [hs]; rfl, rfl, hl, hc, hst⟩))

theorem stackOK_loop {m : Machine L σ} {c : σ → σ × Bool} {rest : List (Frame L σ)}
    (hs : m.stack = Frame.mgr_yield_until c :: rest) :
    StackOK m (Frame.mgr_yield 0 :: Frame.mgr_yield_until c :: rest) := by
  refine ⟨?_, ?_, Or.inr (Or.inr (Or.inl rfl))⟩
  · intro h fr hfr
    rcases List.mem_cons.mp (by simpa using hfr) with rfl | hfr
    · rfl
    · exact h fr (by simpa [hs] using hfr)
  · intro _ h
    have := h _ (by rw [hs]; exact List.mem_cons_self _ _)
    simp [Frame.isMgr] at this

theorem coroutine_eta {fib : Coroutine} {t : Fid} (h : fib._impl = some t) :
    fib = { _impl := some t } := by
  cases fib; simp at h; simp [h]

/-- Every successful step is a sequence of the primitive state changes below, first those that
keep the running fiber (`I`), then at most one switch (`J`). A property that each of them
carries over is carried over by `step`. -/
theorem step_cases (prog : L → σ → σ × Call L σ) (I J : Machine L σ → Prop)
    (hfin : ∀ m : Machine L σ, I m → J m)
    (hmem : ∀ (m : Machine L σ) μ, I m → I { m with mem := μ })
    (hsleep : ∀ (m : Machine L σ), I m → m.current = none →
      I { m with trace := m.trace ++ [Event.sleep] })
    (hstack : ∀ (m : Machine L σ) s, I m → m.stack ≠ [] → StackOK m s → I (m.setStack s))
    (herase : ∀ (m : Machine L σ) i rest, I m → m.stack = Frame.mgr_yield_181 i :: rest →
      I { m with _fiber_list := m._fiber_list.eraseIdx i })
    (hmanage : ∀ (m : Machine L σ) h, I m → I (CoroutineMgr.manage m h))
    (hgo : ∀ (m : Machine L σ) h task, I m → I (Coroutine.go m h task))
    (hresume : ∀ (m m1 : Machine L σ) this, I m → Accessible m this →
      CoroutineImpl.resume m this = Except.ok m1 → J m1)
    (hyield : ∀ (m m1 : Machine L σ) this c, I m →
      CoroutineImpl.yield_until m this c = Except.ok m1 → J m1)
    (hwork : ∀ (m m1 : Machine L σ) this st, I m → m.stack ≠ [] → m.current = some this →
      CoroutineImpl.do_fiber_work m this st = Except.ok m1 → J m1)
    {m m1 : Machine L σ} (hI : I m) (h : step prog m = Except.ok m1) : J m1 := by
  have hres : ∀ (m m1 : Machine L σ) (hd : Hid), I m →
      Coroutine.resume m (m.handles hd) = Except.ok m1 → J m1 := by
    intro m m1 hd hI h
    unfold Coroutine.resume at h
    cases hf : (m.handles hd)._impl with
    | none => simp [hf] at h
    | some t => simp only [hf] at h; exact hresume _ _ _ hI (Or.inl ⟨hd, hf⟩) h
  have hys : ∀ (m m1 : Machine L σ), I m → yield_or_sleep m = Except.ok m1 → J m1 := by
    intro m m1 hI h
    unfold yield_or_sleep at h
    split at h
    · rw [yield_eq] at h
      exact hyield _ _ _ _ hI h
    · rename_i hnone
      injection h with h; subst h; exact hfin _ (hsleep _ hI hnone)
  unfold step at h
  cases hs : m.stack with
  | nil => simp [hs] at h
  | cons top rest =>
    have hne : m.stack ≠ [] := by simp [hs]
    simp only [hs] at h
    cases top with
    | user pc =>
      simp only at h
      have hI0 := hmem m (prog pc m.mem).1 hI
      have hs0 : ({ m with mem := (prog pc m.mem).1 } : Machine L σ).stack =
          Frame.user pc :: rest := hs
      revert h
      generalize ({ m with mem := (prog pc m.mem).1 } : Machine L σ) = m0 at hI0 hs0
      have hne0 : m0.stack ≠ [] := by simp [hs0]
      cases (prog pc m.mem).2 with
      | ret =>
        intro h; unfold call at h
        cases hc : m0.current with
        | none =>
          simp only [hc] at h; injection h with h; subst h
          exact hfin _ (hstack _ _ hI0 hne0 (stackOK_nil hc))
        | some t => simp only [hc] at h; exact hwork _ _ _ _ hI0 hne0 hc h
      | raise =>
        intro h; unfold call at h
        cases hc : m0.current with
        | none => simp [hc] at h
        | some t => simp only [hc] at h; exact hwork _ _ _ _ hI0 hne0 hc h
      | yield k =>
        intro h; unfold call at h
        cases hc : m0.current with
        | none =>
          simp only [hc] at h; injection h with h; subst h
          exact hfin _ (hstack _ _ hI0 hne0 (stackOK_push_pass hs0 hc _ rfl))
        | some t =>
          simp only [hc] at h
          rw [yield_eq] at h
          exact hyield _ _ _ _ (hstack _ _ hI0 hne0 (stackOK_replace hs0 (Frame.user k) rfl)) h
      | yield_until c k =>
        intro h; unfold call at h
        cases hc : m0.current with
        | none =>
          simp only [hc] at h; injection h with h; subst h
          exact hfin _ (hstack _ _ hI0 hne0 (stackOK_push_until hs0 hc _ _ rfl))
        | some t =>
          simp only [hc] at h
          exact hyield _ _ _ _ (hstack _ _ hI0 hne0 (stackOK_replace hs0 (Frame.user k) rfl)) h
      | resume hd k =>
        intro h; unfold call at h
        have := hres (m0.setStack (Frame.user k :: rest)) m1 hd
          (hstack _ _ hI0 hne0 (stackOK_replace hs0 _ rfl))
        rw [setStack_handles] at this
        exact this h
      | status hd k =>
        intro h; unfold call at h
        cases hst : Coroutine.status m0 (m0.handles hd) with
        | error e => simp [hst] at h
        | ok s =>
          simp only [hst] at h; injection h with h; subst h
          exact hfin _ (hstack _ _ hI0 hne0 (stackOK_replace hs0 _ rfl))
      | await hd k =>
        intro h; unfold call at h
        injection h with h; subst h
        exact hfin _ (hstack _ _ hI0 hne0 (stackOK_push hs0 _ _ rfl rfl))
      | await_all hds k =>
        intro h; unfold call at h
        injection h with h; subst h
        exact hfin _ (hstack _ _ hI0 hne0 (stackOK_push hs0 _ _ rfl rfl))
      | manage hd k =>
        intro h; unfold call at h
        injection h with h; subst h
        exact hfin _ (hstack _ _ (hmanage _ _ hI0) (by simpa using hne0)
          (stackOK_replace (m := CoroutineMgr.manage m0 hd) hs0 _ rfl))
      | go hd task k =>
        intro h; unfold call at h
        injection h with h; subst h
        exact hfin _ (hstack _ _ (hgo _ _ _ hI0) (stack_go_ne_nil _ _ _ hne0)
          (stackOK_replace (m := Coroutine.go m0 hd task)
            ((stack_go m0 hd task hne0).trans hs0) _ rfl))
    | mgr_yield i =>
      simp only at h
      cases hl : m._fiber_list[i]? with
      | none =>
        simp only [hl] at h; injection h with h; subst h
        exact hfin _ (hstack _ _ hI hne (stackOK_pop hs))
      | some fib =>
        simp only [hl] at h
        cases hst : Coroutine.status m fib with
        | error e => simp [hst] at h
        | ok s =>
          simp only [hst] at h
          by_cases hsu : s = Status.Supended
          · simp only [hsu, if_true] at h
            obtain ⟨t, c, ht, _, _, _⟩ := status_ok hst
            unfold Coroutine.resume at h
            simp only [ht] at h
            refine hresume _ _ _ (hstack _ _ hI hne (stackOK_181 hs)) (Or.inr ⟨i, rest, ?_, ?_⟩) h
            · exact stack_setStack _ _ hne
            · rw [setStack_fiber_list, hl, coroutine_eta ht]
          · simp only [hsu, if_false] at h
            injection h with h; subst h
            exact hfin _ (hstack _ _ hI hne (stackOK_181 hs))
    | mgr_yield_181 i =>
      simp only at h
      cases hl : m._fiber_list[i]? with
      | none => simp [hl] at h
      | some fib =>
        simp only [hl] at h
        cases hst : Coroutine.status m fib with
        | error e => simp [hst] at h
        | ok s =>
          simp only [hst] at h
          by_cases hsu : s = Status.Supended
          · simp only [hsu, ne_eq, not_true_eq_false, if_false] at h
            injection h with h; subst h
            obtain ⟨t, c, ht, _, hc, hcs⟩ := status_ok hst
            exact hfin _ (hstack _ _ hI hne
              (stackOK_next hs (by rw [hl, coroutine_eta ht]) hc (hcs.trans hsu)))
          · simp only [ne_eq, hsu, not_false_eq_true, if_true] at h
            injection h with h; subst h
            exact hfin _ (hstack _ _ (herase _ _ _ hI hs) (by simpa using hne)
              (stackOK_erased (m := { m with _fiber_list := m._fiber_list.eraseIdx i }) hs))
    | mgr_yield_until c =>
      simp only at h
      by_cases hb : (c m.mem).2 = true
      · simp only [hb, if_true] at h
        injection h with h; subst h
        exact hfin _ (hstack _ _ (hmem _ _ hI) (by simpa using hne)
          (stackOK_pop (m := { m with mem := (c m.mem).1 }) hs))
      · simp only [hb, if_false] at h
        injection h with h; subst h
        exact hfin _ (hstack _ _ (hmem _ _ hI) (by simpa using hne)
          (stackOK_loop (m := { m with mem := (c m.mem).1 }) hs))
    | await_421 hd =>
      simp only at h
      by_cases hself : m.current = (m.handles hd)._impl
      · simp [hself] at h
      · simp only [hself, if_false] at h
        cases hst : Coroutine.status m (m.handles hd) with
        | error e => simp [hst] at h
        | ok s =>
          simp only [hst] at h
          by_cases hsu : s = Status.Supended
          · simp only [hsu, if_true] at h
            have := hres (m.setStack (Frame.await_424 hd :: rest)) m1 hd
              (hstack _ _ hI hne (stackOK_replace hs _ rfl))
            rw [setStack_handles] at this
            exact this h
          · simp only [hsu, if_false] at h
            injection h with h; subst h
            exact hfin _ (hstack _ _ hI hne (stackOK_replace hs _ rfl))
    | await_424 hd =>
      simp only at h
      cases hst : Coroutine.status m (m.handles hd) with
      | error e => simp [hst] at h
      | ok s =>
        simp only [hst] at h
        by_cases hsu : s = Status.Supended
        · simp only [hsu, if_true] at h
          exact hys _ _ (hstack _ _ hI hne (stackOK_replace hs (Frame.await_431 hd) rfl)) h
        · simp only [hsu, if_false] at h
          injection h with h; subst h
          exact hfin _ (hstack _ _ hI hne (stackOK_pop hs))
    | await_431 hd =>
      simp only at h
      have := hres (m.setStack (Frame.await_424 hd :: rest)) m1 hd
        (hstack _ _ hI hne (stackOK_replace hs _ rfl))
      rw [setStack_handles] at this
      exact this h
    | await_all_345 hds all_done =>
      simp only at h
      cases all_done with
      | true =>
        simp only [if_true] at h; injection h with h; subst h
        exact hfin _ (hstack _ _ hI hne (stackOK_pop hs))
      | false =>
        simp only [Bool.false_eq_true, if_false] at h
        injection h with h; subst h
        exact hfin _ (hstack _ _ hI hne (stackOK_replace hs _ rfl))
    | await_all_349 hds i all_done =>
      simp only at h
      cases hi : hds[i]? with
      | none =>
        simp only [hi] at h
        cases all_done with
        | true =>
          simp only [if_true] at h; injection h with h; subst h
          exact hfin _ (hstack _ _ hI hne (stackOK_replace hs _ rfl))
        | false =>
          simp only [Bool.false_eq_true, if_false] at h
          exact hys _ _ (hstack _ _ hI hne
            (stackOK_replace hs (Frame.await_all_345 hds false) rfl)) h
      | some hd =>
        simp only [hi] at h
        by_cases hself : m.current = (m.handles hd)._impl
        · simp [hself] at h
        · simp only [hself, if_false] at h
          cases hst : Coroutine.status m (m.handles hd) with
          | error e => simp [hst] at h
          | ok s =>
            simp only [hst] at h
            by_cases hsu : s = Status.Supended
            · simp only [hsu, if_true] at h
              have := hres (m.setStack (Frame.await_all_358 hds i all_done :: rest)) m1 hd
                (hstack _ _ hI hne (stackOK_replace hs _ rfl))
              rw [setStack_handles] at this
              exact this h
            · simp only [hsu, if_false] at h
              injection h with h; subst h
              exact hfin _ (hstack _ _ hI hne (stackOK_replace hs _ rfl))
    | await_all_358 hds i all_done =>
      simp only at h
      cases hi : hds[i]? with
      | none => simp [hi] at h
      | some hd =>
        simp only [hi] at h
        cases hst : Coroutine.status m (m.handles hd) with
        | error e => simp [hst] at h
        | ok s =>
          simp only [hst] at h
          injection h with h; subst h
          exact hfin _ (hstack _ _ hI hne (stackOK_replace hs _ rfl))

/-- The special case of `step_cases` for a property kept by every primitive state change. -/
theorem step_preserves (prog : L → σ → σ × Call L σ) (I : Machine L σ → Prop)
    (hmem : ∀ (m : Machine L σ) μ, I m → I { m with mem := μ })
    (hsleep : ∀ (m : Machine L σ), I m → I { m with trace := m.trace ++ [Event.sleep] })
    (hstack : ∀ (m : Machine L σ) s, I m → m.stack ≠ [] → I (m.setStack s))
    (herase : ∀ (m : Machine L σ) i, I m →
      I { m with _fiber_list := m._fiber_list.eraseIdx i })
    (hmanage : ∀ (m : Machine L σ) h, I m → I (CoroutineMgr.manage m h))
    (hgo : ∀ (m : Machine L σ) h task, I m → I (Coroutine.go m h task))
    (hresume : ∀ (m m1 : Machine L σ) this, I m → CoroutineImpl.resume m this = Except.ok m1 →
      I m1)
    (hyield : ∀ (m m1 : Machine L σ) this c, I m →
      CoroutineImpl.yield_until m this c = Except.ok m1 → I m1)
    (hwork : ∀ (m m1 : Machine L σ) this st, I m → m.stack ≠ [] → m.current = some this →
      CoroutineImpl.do_fiber_work m this st = Except.ok m1 → I m1)
    {m m1 : Machine L σ} (hI : I m) (h : step prog m = Except.ok m1) : I m1 :=
  step_cases prog I I (fun _ h => h) hmem (fun m h _ => hsleep m h)
    (fun m s h1 h2 _ => hstack m s h1 h2)
    (fun m i _ h1 _ => herase m i h1) hmanage hgo (fun m m1 t h1 _ h2 => hresume m m1 t h1 h2)
    hyield hwork hI h

end Generic

end Spark

namespace Spark

section Lifecycle

variable {L σ : Type}

theorem Kept.refl (m : Machine L σ) : Kept m m := fun _ c h _ => ⟨c, h, rfl⟩

theorem Kept.trans {m m1 m2 : Machine L σ} (h1 : Kept m m1) (h2 : Kept m1 m2) : Kept m m2 := by
  intro f c hc hs
  obtain ⟨c1, hc1, hs1⟩ := h1 f c hc hs
  obtain ⟨c2, hc2, hs2⟩ := h2 f c1 hc1 (by rw [hs1]; exact hs)
  exact ⟨c2, hc2, by rw [hs2, hs1]⟩

theorem LifeInv.init (entry : L) (mem : σ) : LifeInv (Machine.init entry mem) := by
  constructor <;> simp [Machine.init]

theorem LifeInv.cur_supended {m : Machine L σ} (hI : LifeInv m) (hne : m.stack ≠ []) {f : Fid}
    (hc : m.current = some f) : ∃ c, m.fibers[f]? = some c ∧ c._status = Status.Supended := by
  obtain ⟨c, hf, _⟩ := hI.cur_from f hc
  refine ⟨c, hf, ?_⟩
  by_contra hs
  have := hI.term_stack f c hf hs
  apply hne
  simp [Machine.stack, hc, hf, this]

theorem life_setStack {m : Machine L σ} (s : List (Frame L σ)) (hI : LifeInv m)
    (hne : m.stack ≠ []) : LifeInv (m.setStack s) ∧ Kept m (m.setStack s) := by
  refine ⟨⟨?_, ?_, ?_, ?_⟩, ?_⟩
  · intro f c hf hs
    rw [setStack_fibers] at hf
    by_cases hc : m.current = some f
    · obtain ⟨c0, hf0, hs0⟩ := hI.cur_supended hne hc
      simp only [hc, if_true, hf0, Option.map_some'] at hf
      injection hf with hf; subst hf
      exact absurd hs0 hs
    · simp only [hc, if_false] at hf
      exact hI.term_stack f c hf hs
  · intro f c hf hs
    rw [setStack_fibers] at hf
    by_cases hc : m.current = some f
    · simp only [hc, if_true, Option.map_eq_some'] at hf
      obtain ⟨c0, hf0, rfl⟩ := hf
      exact hI.fresh_susp f c0 hf0 hs
    · simp only [hc, if_false] at hf
      exact hI.fresh_susp f c hf hs
  · intro f hc
    rw [setStack_current] at hc
    obtain ⟨c, hf, hcf⟩ := hI.cur_from f hc
    exact ⟨{ c with stack := s }, by simp [setStack_fibers, hc, hf], hcf⟩
  · intro f c g hf hg
    have hfrom : ∃ c0, m.fibers[f]? = some c0 ∧ c0._fiber_come_from = some (some g) := by
      rw [setStack_fibers] at hf
      by_cases hc : m.current = some f
      · simp only [hc, if_true, Option.map_eq_some'] at hf
        obtain ⟨c0, hf0, rfl⟩ := hf
        exact ⟨c0, hf0, hg⟩
      · simp only [hc, if_false] at hf
        exact ⟨c, hf, hg⟩
    obtain ⟨c0, hf0, hg0⟩ := hfrom
    obtain ⟨d, hd, hdf⟩ := hI.from_from f c0 g hf0 hg0
    by_cases hc : m.current = some g
    · exact ⟨{ d with stack := s }, by simp [setStack_fibers, hc, hd], hdf⟩
    · exact ⟨d, by simp [setStack_fibers, hc, hd], hdf⟩
  · intro f c hf hs
    by_cases hc : m.current = some f
    · obtain ⟨c0, hf0, hs0⟩ := hI.cur_supended hne hc
      rw [hf0] at hf; injection hf with hf; subst hf
      exact absurd hs0 hs
    · exact ⟨c, by simp [setStack_fibers, hc, hf], rfl⟩

theorem life_go {m : Machine L σ} (h : Hid) (task : L) (hI : LifeInv m) :
    LifeInv (Coroutine.go m h task) ∧ Kept m (Coroutine.go m h task) := by
  unfold Coroutine.go
  cases (m.handles h)._impl with
  | some _ => exact ⟨hI, Kept.refl m⟩
  | none =>
    have hold : ∀ (f : Fid) (c : CoroutineImpl L σ), m.fibers[f]? = some c →
        (m.fibers ++ [(CoroutineImpl.mk_task task : CoroutineImpl L σ)])[f]? = some c := by
      intro f c hf
      rw [List.getElem?_append_left (List.getElem?_eq_some.mp hf).1]; exact hf
    have hnew : ∀ (f : Fid) (c : CoroutineImpl L σ), (m.fibers ++ [(CoroutineImpl.mk_task task : CoroutineImpl L σ)])[f]? =
        some c → m.fibers[f]? = some c ∨ c = CoroutineImpl.mk_task task := by
      intro f c hf
      by_cases hlt : f < m.fibers.length
      · rw [List.getElem?_append_left hlt] at hf; exact Or.inl hf
      · rw [List.getElem?_append_right (Nat.le_of_not_lt hlt)] at hf
        right
        cases hk : f - m.fibers.length with
        | zero => rw [hk] at hf; simpa using hf.symm
        | succ k => rw [hk] at hf; simp at hf
    refine ⟨⟨?_, ?_, ?_, ?_⟩, ?_⟩
    · intro f c hf hs
      rcases hnew f c hf with h0 | h0
      · exact hI.term_stack f c h0 hs
      · subst h0; simp [CoroutineImpl.mk_task] at hs
    · intro f c hf hs
      rcases hnew f c hf with h0 | h0
      · exact hI.fresh_susp f c h0 hs
      · subst h0; rfl
    · intro f hc
      obtain ⟨c, hf, hcf⟩ := hI.cur_from f hc
      exact ⟨c, hold f c hf, hcf⟩
    · intro f c g hf hg
      rcases hnew f c hf with h0 | h0
      · obtain ⟨d, hd, hdf⟩ := hI.from_from f c g h0 hg
        exact ⟨d, hold g d hd, hdf⟩
      · subst h0; simp [CoroutineImpl.mk_task] at hg
    · intro f c hf hs
      exact ⟨c, hold f c hf, rfl⟩

theorem life_resume {m m1 : Machine L σ} {this : Fid} (hI : LifeInv m)
    (h : CoroutineImpl.resume m this = Except.ok m1) : LifeInv m1 ∧ Kept m m1 := by
  obtain ⟨c, hc, hcur, hsus, hcase⟩ := resume_ok h
  rcases hcase with ⟨_, rfl⟩ | ⟨_, rfl⟩
  · exact ⟨⟨hI.term_stack, hI.fresh_susp, hI.cur_from, hI.from_from⟩, Kept.refl m⟩
  · have hget : ∀ (f : Fid) (d : CoroutineImpl L σ), (updFiber m this
          (fun c => { c with _fiber_come_from := some m.current })).fibers[f]? = some d →
        ∃ d0 : CoroutineImpl L σ, m.fibers[f]? = some d0 ∧ d._status = d0._status ∧ d.stack = d0.stack ∧
          ((f = this ∧ d._fiber_come_from = some m.current) ∨
            (f ≠ this ∧ d._fiber_come_from = d0._fiber_come_from)) := by
      intro f d hd
      rw [updFiber_fibers] at hd
      by_cases hf : f = this
      · subst hf
        simp only [if_true, hc, Option.map_some'] at hd
        injection hd with hd; subst hd
        exact ⟨c, hc, rfl, rfl, Or.inl ⟨rfl, rfl⟩⟩
      · simp only [hf, if_false] at hd
        exact ⟨d, hd, rfl, rfl, Or.inr ⟨hf, rfl⟩⟩
    have hput : ∀ (f : Fid) (d0 : CoroutineImpl L σ), m.fibers[f]? = some d0 → d0._fiber_come_from ≠ none →
        ∃ d : CoroutineImpl L σ, (updFiber m this
          (fun c => { c with _fiber_come_from := some m.current })).fibers[f]? = some d ∧
          d._fiber_come_from ≠ none ∧ d._status = d0._status := by
      intro f d0 hd0 hne
      rw [updFiber_fibers]
      by_cases hf : f = this
      · subst hf
        exact ⟨{ d0 with _fiber_come_from := some m.current }, by simp [hd0], by simp, rfl⟩
      · exact ⟨d0, by simp [hf, hd0], hne, rfl⟩
    refine ⟨⟨?_, ?_, ?_, ?_⟩, ?_⟩
    · intro f d hd hs
      obtain ⟨d0, hd0, hst, hstk, _⟩ := hget f d hd
      rw [hstk]; exact hI.term_stack f d0 hd0 (by rw [← hst]; exact hs)
    · intro f d hd hs
      obtain ⟨d0, hd0, hst, _, hcf⟩ := hget f d hd
      rcases hcf with ⟨_, hcf⟩ | ⟨_, hcf⟩
      · rw [hcf] at hs; cases hs
      · rw [hst]; exact hI.fresh_susp f d0 hd0 (by rw [← hcf]; exact hs)
    · intro f hf
      simp only [Option.some.injEq] at hf
      subst hf
      exact ⟨{ c with _fiber_come_from := some m.current }, by simp [updFiber_fibers, hc],
        by simp⟩
    · intro f d g hd hg
      obtain ⟨d0, hd0, _, _, hcf⟩ := hget f d hd
      rcases hcf with ⟨_, hcf⟩ | ⟨_, hcf⟩
      · rw [hcf] at hg
        injection hg with hg
        obtain ⟨e, he, hef⟩ := hI.cur_from g hg
        obtain ⟨e1, he1, hne1, _⟩ := hput g e he hef
        exact ⟨e1, he1, hne1⟩
      · obtain ⟨e, he, hef⟩ := hI.from_from f d0 g hd0 (by rw [← hcf]; exact hg)
        obtain ⟨e1, he1, hne1, _⟩ := hput g e he hef
        exact ⟨e1, he1, hne1⟩
    · intro f d0 hd0 hs
      rw [updFiber_fibers]
      by_cases hf : f = this
      · subst hf
        exact ⟨{ d0 with _fiber_come_from := some m.current }, by simp [hd0], rfl⟩
      · exact ⟨d0, by simp [hf, hd0], rfl⟩

theorem life_yield_until {m m1 : Machine L σ} {this : Fid} {condition : σ → σ × Bool}
    (hI : LifeInv m) (h : CoroutineImpl.yield_until m this condition = Except.ok m1) :
    LifeInv m1 ∧ Kept m m1 := by
  obtain ⟨c, src, hcur, hc, hsrc, rfl⟩ := yield_until_ok h
  have hget : ∀ (f : Fid) (d : CoroutineImpl L σ), (updFiber m this
        (fun c => { c with _resume_condition := condition })).fibers[f]? = some d →
      ∃ d0 : CoroutineImpl L σ, m.fibers[f]? = some d0 ∧ d._status = d0._status ∧ d.stack = d0.stack ∧
        d._fiber_come_from = d0._fiber_come_from := by
    intro f d hd
    rw [updFiber_fibers] at hd
    by_cases hf : f = this
    · subst hf
      simp only [if_true, hc, Option.map_some'] at hd
      injection hd with hd; subst hd
      exact ⟨c, hc, rfl, rfl, rfl⟩
    · simp only [hf, if_false] at hd
      exact ⟨d, hd, rfl, rfl, rfl⟩
  have hput : ∀ (f : Fid) (d0 : CoroutineImpl L σ), m.fibers[f]? = some d0 →
      ∃ d : CoroutineImpl L σ, (updFiber m this
        (fun c => { c with _resume_condition := condition })).fibers[f]? = some d ∧
        d._fiber_come_from = d0._fiber_come_from ∧ d._status = d0._status := by
    intro f d0 hd0
    rw [updFiber_fibers]
    by_cases hf : f = this
    · subst hf
      exact ⟨{ d0 with _resume_condition := condition }, by simp [hd0], rfl, rfl⟩
    · exact ⟨d0, by simp [hf, hd0], rfl, rfl⟩
  refine ⟨⟨?_, ?_, ?_, ?_⟩, ?_⟩
  · intro f d hd hs
    obtain ⟨d0, hd0, hst, hstk, _⟩ := hget f d hd
    rw [hstk]; exact hI.term_stack f d0 hd0 (by rw [← hst]; exact hs)
  · intro f d hd hs
    obtain ⟨d0, hd0, hst, _, hcf⟩ := hget f d hd
    rw [hst]; exact hI.fresh_susp f d0 hd0 (by rw [← hcf]; exact hs)
  · intro f hf
    simp only at hf
    subst hf
    obtain ⟨e, he, hef⟩ := hI.from_from this c f hc hsrc
    obtain ⟨e1, he1, hcf1, _⟩ := hput f e he
    exact ⟨e1, he1, by rw [hcf1]; exact hef⟩
  · intro f d g hd hg
    obtain ⟨d0, hd0, _, _, hcf⟩ := hget f d hd
    obtain ⟨e, he, hef⟩ := hI.from_from f d0 g hd0 (by rw [← hcf]; exact hg)
    obtain ⟨e1, he1, hcf1, _⟩ := hput g e he
    exact ⟨e1, he1, by rw [hcf1]; exact hef⟩
  · intro f d0 hd0 hs
    obtain ⟨d, hd, _, hst⟩ := hput f d0 hd0
    exact ⟨d, hd, hst⟩

end Lifecycle

end Spark

namespace Spark

section Lifecycle2

variable {L σ : Type}

theorem finish_fibers {m : Machine L σ} {this : Fid} {c : CoroutineImpl L σ} (st : Status)
    (hcur : m.current = some this) (hc : m.fibers[this]? = some c) (k : Fid) :
    ((updFiber m this (fun c => { c with _status := st })).setStack []).fibers[k]? =
      if k = this then some { c with _status := st, stack := [] } else m.fibers[k]? := by
  rw [setStack_fibers, updFiber_current, updFiber_fibers]
  by_cases hk : k = this
  · subst hk; simp [hcur, hc]
  · have : ¬ m.current = some k := by
      rw [hcur]; intro e; injection e with e; exact hk e.symm
    simp [hk, this]

theorem life_finish {m : Machine L σ} {this : Fid} (st : Status) (hI : LifeInv m)
    (hne : m.stack ≠ []) (hcur : m.current = some this) :
    LifeInv ((updFiber m this (fun c => { c with _status := st })).setStack []) ∧
      Kept m ((updFiber m this (fun c => { c with _status := st })).setStack []) := by
  obtain ⟨c, hc, hsus⟩ := hI.cur_supended hne hcur
  obtain ⟨c9, hc9, hcf⟩ := hI.cur_from this hcur
  rw [hc] at hc9; injection hc9 with hc9; subst hc9
  have hget : ∀ (f : Fid) (d : CoroutineImpl L σ),
      ((updFiber m this (fun c => { c with _status := st })).setStack []).fibers[f]? = some d →
      (f = this ∧ d = { c with _status := st, stack := [] }) ∨
        (f ≠ this ∧ m.fibers[f]? = some d) := by
    intro f d hd
    rw [finish_fibers st hcur hc] at hd
    by_cases hf : f = this
    · simp only [hf, if_true] at hd
      injection hd with hd
      exact Or.inl ⟨hf, hd.symm⟩
    · simp only [hf, if_false] at hd
      exact Or.inr ⟨hf, hd⟩
  have hput : ∀ (f : Fid) (d0 : CoroutineImpl L σ), m.fibers[f]? = some d0 →
      ∃ d : CoroutineImpl L σ,
        ((updFiber m this (fun c => { c with _status := st })).setStack []).fibers[f]? =
          some d ∧ d._fiber_come_from = d0._fiber_come_from ∧
          (f ≠ this → d._status = d0._status) := by
    intro f d0 hd0
    rw [finish_fibers st hcur hc]
    by_cases hf : f = this
    · subst hf
      rw [hc] at hd0; injection hd0 with hd0; subst hd0
      exact ⟨{ c with _status := st, stack := [] }, by simp, rfl, fun h => absurd rfl h⟩
    · exact ⟨d0, by simp [hf, hd0], rfl, fun _ => rfl⟩
  refine ⟨⟨?_, ?_, ?_, ?_⟩, ?_⟩
  · intro f d hd hs
    rcases hget f d hd with ⟨_, rfl⟩ | ⟨_, h0⟩
    · rfl
    · exact hI.term_stack f d h0 hs
  · intro f d hd hs
    rcases hget f d hd with ⟨_, rfl⟩ | ⟨_, h0⟩
    · exact absurd hs hcf
    · exact hI.fresh_susp f d h0 hs
  · intro f hf
    rw [setStack_current, updFiber_current] at hf
    obtain ⟨e, he, hef⟩ := hI.cur_from f hf
    obtain ⟨e1, he1, hcf1, _⟩ := hput f e he
    exact ⟨e1, he1, by rw [hcf1]; exact hef⟩
  · intro f d g hd hg
    have h0 : ∃ d0 : CoroutineImpl L σ, m.fibers[f]? = some d0 ∧
        d0._fiber_come_from = some (some g) := by
      rcases hget f d hd with ⟨hf, rfl⟩ | ⟨_, h0⟩
      · subst hf; exact ⟨c, hc, hg⟩
      · exact ⟨d, h0, hg⟩
    obtain ⟨d0, hd0, hg0⟩ := h0
    obtain ⟨e, he, hef⟩ := hI.from_from f d0 g hd0 hg0
    obtain ⟨e1, he1, hcf1, _⟩ := hput g e he
    exact ⟨e1, he1, by rw [hcf1]; exact hef⟩
  · intro f d0 hd0 hs
    obtain ⟨d, hd, _, hst⟩ := hput f d0 hd0
    refine ⟨d, hd, hst ?_⟩
    intro hf; subst hf
    rw [hc] at hd0; injection hd0 with hd0; subst hd0
    exact hs hsus

theorem life_do_fiber_work {m m1 : Machine L σ} {this : Fid} {st : Status} (hI : LifeInv m)
    (hne : m.stack ≠ []) (hcur : m.current = some this)
    (h : CoroutineImpl.do_fiber_work m this st = Except.ok m1) : LifeInv m1 ∧ Kept m m1 := by
  obtain ⟨h1, h2⟩ := life_finish st hI hne hcur
  unfold CoroutineImpl.do_fiber_work at h
  rw [yield_eq] at h
  obtain ⟨h3, h4⟩ := life_yield_until h1 h
  exact ⟨h3, h2.trans h4⟩

/-- One step keeps `LifeInv` and never changes the status of a context that has ended. -/
theorem life_step (prog : L → σ → σ × Call L σ) {m0 m m1 : Machine L σ}
    (hI : LifeInv m ∧ Kept m0 m) (h : step prog m = Except.ok m1) :
    LifeInv m1 ∧ Kept m0 m1 := by
  refine step_preserves prog (fun x => LifeInv x ∧ Kept m0 x) ?_ ?_ ?_ ?_ ?_ ?_ ?_ ?_ ?_ hI h
  · intro m μ hI
    exact ⟨⟨hI.1.term_stack, hI.1.fresh_susp, hI.1.cur_from, hI.1.from_from⟩, hI.2⟩
  · intro m hI
    exact ⟨⟨hI.1.term_stack, hI.1.fresh_susp, hI.1.cur_from, hI.1.from_from⟩, hI.2⟩
  · intro m s hI hne
    obtain ⟨h1, h2⟩ := life_setStack s hI.1 hne
    exact ⟨h1, hI.2.trans h2⟩
  · intro m i hI
    exact ⟨⟨hI.1.term_stack, hI.1.fresh_susp, hI.1.cur_from, hI.1.from_from⟩, hI.2⟩
  · intro m h hI
    exact ⟨⟨hI.1.term_stack, hI.1.fresh_susp, hI.1.cur_from, hI.1.from_from⟩, hI.2⟩
  · intro m h task hI
    obtain ⟨h1, h2⟩ := life_go h task hI.1
    exact ⟨h1, hI.2.trans h2⟩
  · intro m m1 this hI h
    obtain ⟨h1, h2⟩ := life_resume hI.1 h
    exact ⟨h1, hI.2.trans h2⟩
  · intro m m1 this c hI h
    obtain ⟨h1, h2⟩ := life_yield_until hI.1 h
    exact ⟨h1, hI.2.trans h2⟩
  · intro m m1 this st hI hne hcur h
    obtain ⟨h1, h2⟩ := life_do_fiber_work hI.1 hne hcur h
    exact ⟨h1, hI.2.trans h2⟩

theorem life_run (prog : L → σ → σ × Call L σ) {m0 : Machine L σ} :
    ∀ (n : Nat) {m m1 : Machine L σ}, LifeInv m ∧ Kept m0 m → run prog n m = Except.ok m1 →
      LifeInv m1 ∧ Kept m0 m1 := by
  intro n
  induction n with
  | zero =>
    intro m m1 hI h
    simp only [run] at h
    injection h with h; subst h; exact hI
  | succ n ih =>
    intro m m1 hI h
    simp only [run] at h
    cases hs : step prog m with
    | error e => simp [hs] at h
    | ok m2 =>
      simp only [hs] at h
      exact ih (life_step prog hI hs) h

end Lifecycle2

end Spark

namespace Spark

section Forward

variable {L σ : Type}

/-- `CoroutineImpl::resume` when the condition is false: only the user memory and the log
change. -/
theorem resume_gated (m : Machine L σ) (this : Fid) {c : CoroutineImpl L σ}
    (hc : m.fibers[this]? = some c) (hcur : m.current ≠ some this)
    (hs : c._status = Status.Supended) (hp : (c._resume_condition m.mem).2 = false) :
    CoroutineImpl.resume m this =
      Except.ok { m with mem := (c._resume_condition m.mem).1,
                         trace := m.trace ++ [Event.cond this false] } := by
  unfold CoroutineImpl.resume
  simp [hc, hcur, hs, hp]

/-- `CoroutineImpl::resume` when the condition is true: the caller is recorded and the target
becomes the running fiber, on the stack it was left with. -/
theorem resume_switch (m : Machine L σ) (this : Fid) {c : CoroutineImpl L σ}
    (hc : m.fibers[this]? = some c) (hcur : m.current ≠ some this)
    (hs : c._status = Status.Supended) (hp : (c._resume_condition m.mem).2 = true) :
    ∃ m1 : Machine L σ, CoroutineImpl.resume m this = Except.ok m1 ∧
      m1.current = some this ∧ m1.mem = (c._resume_condition m.mem).1 ∧
      m1.handles = m.handles ∧ m1._fiber_list = m._fiber_list ∧
      m1.major_stack = m.major_stack ∧
      m1.trace = m.trace ++ [Event.cond this true, Event.switch m.current (some this)] ∧
      m1.stack = c.stack ∧
      ∀ k : Fid, m1.fibers[k]? =
        if k = this then some { c with _fiber_come_from := some m.current }
        else m.fibers[k]? := by
  refine ⟨{ mem := (c._resume_condition m.mem).1,
            fibers := (updFiber m this
              (fun c => { c with _fiber_come_from := some m.current })).fibers,
            handles := m.handles, _fiber_list := m._fiber_list, current := some this,
            major_stack := m.major_stack,
            trace := m.trace ++ [Event.cond this true, Event.switch m.current (some this)] },
    ?_, rfl, rfl, rfl, rfl, rfl, rfl, ?_, ?_⟩
  · unfold CoroutineImpl.resume
    simp [hc, hcur, hs, hp, updFiber]
  · simp [Machine.stack, updFiber_fibers, hc]
  · intro k
    simp only [updFiber_fibers, hc, Option.map_some']

/-- `CoroutineImpl::yield_until` by the running context: the condition is stored and the
recorded resumer becomes the running fiber. -/
theorem yield_until_switch (m : Machine L σ) (this : Fid) {c : CoroutineImpl L σ}
    {r : Option Fid} (condition : σ → σ × Bool)
    (hcur : m.current = some this) (hc : m.fibers[this]? = some c)
    (hsrc : c._fiber_come_from = some r) :
    ∃ m1 : Machine L σ, CoroutineImpl.yield_until m this condition = Except.ok m1 ∧
      m1.current = r ∧ m1.mem = m.mem ∧ m1.handles = m.handles ∧
      m1._fiber_list = m._fiber_list ∧ m1.major_stack = m.major_stack ∧
      m1.trace = m.trace ++ [Event.switch (some this) r] ∧
      ∀ k : Fid, m1.fibers[k]? =
        if k = this then some { c with _resume_condition := condition } else m.fibers[k]? := by
  refine ⟨{ mem := m.mem,
            fibers := (updFiber m this
              (fun c => { c with _resume_condition := condition })).fibers,
            handles := m.handles, _fiber_list := m._fiber_list, current := r,
            major_stack := m.major_stack,
            trace := m.trace ++ [Event.switch (some this) r] },
    ?_, rfl, rfl, rfl, rfl, rfl, rfl, ?_⟩
  · unfold CoroutineImpl.yield_until
    simp [hcur, hc, hsrc, updFiber]
  · intro k
    simp only [updFiber_fibers, hc, Option.map_some']

/-- The end of `do_fiber_work` in a context that was resumed from `r`: the status is stored,
nothing is left on the stack, and `r` becomes the running fiber. -/
theorem do_fiber_work_switch (m : Machine L σ) (this : Fid) {c : CoroutineImpl L σ}
    {r : Option Fid} (st : Status)
    (hcur : m.current = some this) (hc : m.fibers[this]? = some c)
    (hsrc : c._fiber_come_from = some r) :
    ∃ m1 : Machine L σ, CoroutineImpl.do_fiber_work m this st = Except.ok m1 ∧
      m1.current = r ∧ m1.mem = m.mem ∧ m1.handles = m.handles ∧
      m1._fiber_list = m._fiber_list ∧ m1.major_stack = m.major_stack ∧
      m1.trace = m.trace ++ [Event.switch (some this) r] ∧
      ∀ k : Fid, m1.fibers[k]? =
        if k = this then
          some { c with _status := st, stack := [], _resume_condition := always_true }
        else m.fibers[k]? := by
  have hcur1 : ((updFiber m this (fun c => { c with _status := st })).setStack []).current =
      some this := by simp [hcur]
  have hc1 := finish_fibers st hcur hc this
  simp only [if_true] at hc1
  obtain ⟨m1, h1, h2, h3, h4, h5, h6, h7, h8⟩ :=
    yield_until_switch _ this always_true hcur1 hc1 hsrc
  refine ⟨m1, ?_, h2, ?_, ?_, ?_, ?_, ?_, ?_⟩
  · unfold CoroutineImpl.do_fiber_work; rw [yield_eq]; exact h1
  · simp [h3]
  · simp [h4]
  · simp [h5]
  · simp [h6, setStack_major_stack, hcur]
  · simp [h7]
  · intro k
    rw [h8 k]
    by_cases hk : k = this
    · simp [hk]
    · simp only [hk, if_false]
      rw [finish_fibers st hcur hc k]
      simp [hk]

theorem step_user (prog : L → σ → σ × Call L σ) {m : Machine L σ} {pc : L}
    {rest : List (Frame L σ)} (hstk : m.stack = Frame.user pc :: rest) :
    step prog m = call { m with mem := (prog pc m.mem).1 } rest (prog pc m.mem).2 := by
  unfold step
  simp only [hstk]

theorem call_ret_fiber {m : Machine L σ} {this : Fid} (rest : List (Frame L σ))
    (hcur : m.current = some this) :
    call m rest Call.ret = CoroutineImpl.do_fiber_work m this Status.Finished := by
  unfold call
  simp only [hcur]

theorem call_raise_fiber {m : Machine L σ} {this : Fid} (rest : List (Frame L σ))
    (hcur : m.current = some this) :
    call m rest Call.raise = CoroutineImpl.do_fiber_work m this Status.Excepted := by
  unfold call
  simp only [hcur]

theorem call_yield_fiber {m : Machine L σ} {this : Fid} (rest : List (Frame L σ)) (k : L)
    (hcur : m.current = some this) :
    call m rest (Call.yield k) =
      CoroutineImpl.yield (m.setStack (Frame.user k :: rest)) this := by
  unfold call
  simp only [hcur]

theorem call_yield_until_fiber {m : Machine L σ} {this : Fid} (rest : List (Frame L σ))
    (p : σ → σ × Bool) (k : L) (hcur : m.current = some this) :
    call m rest (Call.yield_until p k) =
      CoroutineImpl.yield_until (m.setStack (Frame.user k :: rest)) this p := by
  unfold call
  simp only [hcur]

end Forward

end Spark

namespace Spark

section Claims

variable {L σ : Type}

theorem run_reach_life (prog : L → σ → σ × Call L σ) {entry : L} {mem0 : σ} {n : Nat}
    {m : Machine L σ} (h : run prog n (Machine.init entry mem0) = Except.ok m) : LifeInv m :=
  (life_run prog n ⟨LifeInv.init entry mem0, Kept.refl _⟩ h).1

/-- C1. Status lifecycle. A context built from a task closure starts `Supended` and was never
switched into; in every state the thread reaches from `init`, a context that was never
switched into is `Supended`; when the running context's task closure returns the step succeeds
and leaves it `Finished`, when it raises the step succeeds and leaves it `Excepted`; and
whatever the thread does afterwards (any number of steps: resume, yield, yield_until, the
root's pass, await, await_all, manage, go), a context that is `Finished` or `Excepted` keeps
that status. -/
theorem status_lifecycle (prog : L → σ → σ × Call L σ) (entry : L) (mem0 : σ) (n : Nat)
    (m : Machine L σ) (hreach : run prog n (Machine.init entry mem0) = Except.ok m) :
    (∀ task : L, (CoroutineImpl.mk_task task : CoroutineImpl L σ)._status = Status.Supended ∧
      (CoroutineImpl.mk_task task : CoroutineImpl L σ)._fiber_come_from = none) ∧
    (∀ (f : Fid) (c : CoroutineImpl L σ), m.fibers[f]? = some c →
      c._fiber_come_from = none → c._status = Status.Supended) ∧
    (∀ (this : Fid) (pc : L) (rest : List (Frame L σ)), m.current = some this →
      m.stack = Frame.user pc :: rest →
      ((prog pc m.mem).2 = Call.ret →
        ∃ (m1 : Machine L σ) (c1 : CoroutineImpl L σ), step prog m = Except.ok m1 ∧
          m1.fibers[this]? = some c1 ∧ c1._status = Status.Finished) ∧
      ((prog pc m.mem).2 = Call.raise →
        ∃ (m1 : Machine L σ) (c1 : CoroutineImpl L σ), step prog m = Except.ok m1 ∧
          m1.fibers[this]? = some c1 ∧ c1._status = Status.Excepted)) ∧
    (∀ (k : Nat) (m2 : Machine L σ), run prog k m = Except.ok m2 →
      ∀ (f : Fid) (c : CoroutineImpl L σ), m.fibers[f]? = some c →
        c._status ≠ Status.Supended →
        ∃ c2 : CoroutineImpl L σ, m2.fibers[f]? = some c2 ∧ c2._status = c._status) := by
  have hI : LifeInv m := run_reach_life prog hreach
  refine ⟨fun task => ⟨rfl, rfl⟩, hI.fresh_susp, ?_, ?_⟩
  · intro this pc rest hcur hstk
    obtain ⟨c, hc, hcf⟩ := hI.cur_from this hcur
    obtain ⟨src, hsrc⟩ := Option.ne_none_iff_exists'.mp hcf
    have key : ∀ st : Status, ∃ (m1 : Machine L σ) (c1 : CoroutineImpl L σ),
        CoroutineImpl.do_fiber_work { m with mem := (prog pc m.mem).1 } this st =
          Except.ok m1 ∧ m1.fibers[this]? = some c1 ∧ c1._status = st := by
      intro st
      obtain ⟨m1, h1, _, _, _, _, _, _, h8⟩ :=
        do_fiber_work_switch { m with mem := (prog pc m.mem).1 } this st hcur hc hsrc
      exact ⟨m1, { c with _status := st, stack := [], _resume_condition := always_true }, h1,
        by rw [h8 this]; simp, rfl⟩
    constructor
    · intro hret
      obtain ⟨m1, c1, h1, h2, h3⟩ := key Status.Finished
      refine ⟨m1, c1, ?_, h2, h3⟩
      rw [step_user prog hstk, hret,
        call_ret_fiber (m := { m with mem := (prog pc m.mem).1 }) rest hcur]
      exact h1
    · intro hraise
      obtain ⟨m1, c1, h1, h2, h3⟩ := key Status.Excepted
      refine ⟨m1, c1, ?_, h2, h3⟩
      rw [step_user prog hstk, hraise,
        call_raise_fiber (m := { m with mem := (prog pc m.mem).1 }) rest hcur]
      exact h1
  · intro k m2 hrun
    exact (life_run prog k ⟨hI, Kept.refl m⟩ hrun).2

/-- C2. `resume()` on a handle whose context is `Finished` or `Excepted` never returns a next
state: it stops at a failed assertion, at the one on the status unless the caller is that
context itself; so there is no switch and the task is not run again. The same holds when user
code issues the call: the step fails. -/
theorem resume_terminal_rejected (m : Machine L σ) (fib : Coroutine) (this : Fid)
    (c : CoroutineImpl L σ) (himpl : fib._impl = some this) (hc : m.fibers[this]? = some c)
    (hs : c._status ≠ Status.Supended) :
    (∀ m1 : Machine L σ, Coroutine.resume m fib ≠ Except.ok m1) ∧
    (m.current ≠ some this → Coroutine.resume m fib = Except.error Err.assert_supended) ∧
    (∀ (prog : L → σ → σ × Call L σ) (pc : L) (rest : List (Frame L σ)) (h : Hid) (k : L),
      m.stack = Frame.user pc :: rest → (prog pc m.mem).2 = Call.resume h k →
      m.handles h = fib → ∀ m1 : Machine L σ, step prog m ≠ Except.ok m1) := by
  have gen : ∀ (x : Machine L σ) (d : CoroutineImpl L σ), x.fibers[this]? = some d →
      d._status ≠ Status.Supended → ∀ m1 : Machine L σ, Coroutine.resume x fib ≠ Except.ok m1 := by
    intro x d hd hds m1 h
    unfold Coroutine.resume at h
    simp only [himpl] at h
    obtain ⟨d1, hd1, _, hsus, _⟩ := resume_ok h
    rw [hd] at hd1; injection hd1 with hd1; subst hd1
    exact hds hsus
  refine ⟨gen m c hc hs, ?_, ?_⟩
  · intro hcur
    unfold Coroutine.resume CoroutineImpl.resume
    simp [himpl, hc, hcur, hs]
  · intro prog pc rest h k hstk hcall hh m1 hstep
    unfold step at hstep
    simp only [hstk, hcall, call] at hstep
    rw [hh] at hstep
    by_cases hcur : m.current = some this
    · refine gen _ { c with stack := Frame.user k :: rest } ?_ hs m1 hstep
      simp [setStack_fibers, hcur, hc]
    · refine gen _ c ?_ hs m1 hstep
      simp [setStack_fibers, hcur, hc]

end Claims

end Spark

namespace Spark

section Claims2

variable {L σ : Type}

theorem resume_times_gated (this : Fid) (p : σ → σ × Bool) :
    ∀ (k : Nat) (m : Machine L σ) (c : CoroutineImpl L σ), m.fibers[this]? = some c →
      m.current ≠ some this → c._status = Status.Supended → c._resume_condition = p →
      (∀ j, j < k → (p (mem_after p j m.mem)).2 = false) →
      resume_times this k m =
        Except.ok { m with mem := mem_after p k m.mem,
                           trace := m.trace ++ List.replicate k (Event.cond this false) } := by
  intro k
  induction k with
  | zero =>
    intro m c _ _ _ _ _
    simp [resume_times, mem_after]
  | succ k ih =>
    intro m c hc hcur hs hp hfalse
    have h0 : (c._resume_condition m.mem).2 = false := by
      rw [hp]; exact hfalse 0 (Nat.succ_pos k)
    simp only [resume_times, resume_gated m this hc hcur hs h0]
    have hih := ih { m with mem := (c._resume_condition m.mem).1,
                            trace := m.trace ++ [Event.cond this false] } c hc hcur hs hp
      (by
        intro j hj
        have := hfalse (j + 1) (Nat.succ_lt_succ hj)
        simpa [mem_after, hp] using this)
    rw [hih]
    simp [mem_after, hp, List.replicate_succ]

/-- C3. Condition-gated resume. Let a `Supended` context be suspended by `yield_until(p)` and
not touched since. Then `k` consecutive `resume()` attempts during which `p()` returns false
change nothing but the user memory, which is threaded through exactly `k` evaluations of `p`,
and the log, which gains exactly `k` evaluations of the condition and no switch: the running
fiber, the status, the stack and the recorded resumer of the context are as before. If the
next evaluation of `p()` returns true, that attempt records the caller and switches into the
context on the stack it had right after that `yield_until`. -/
theorem resume_condition_gate (m0 m1 m : Machine L σ) (this : Fid) (c0 : CoroutineImpl L σ)
    (p : σ → σ × Bool) (k : Nat)
    (hy : CoroutineImpl.yield_until m0 this p = Except.ok m1)
    (hc0 : m0.fibers[this]? = some c0) (hs : c0._status = Status.Supended)
    (hm : m.fibers[this]? = m1.fibers[this]?) (hcur : m.current ≠ some this)
    (hfalse : ∀ j, j < k → (p (mem_after p j m.mem)).2 = false) :
    resume_times this k m =
        Except.ok { m with mem := mem_after p k m.mem,
                           trace := m.trace ++ List.replicate k (Event.cond this false) } ∧
      ((p (mem_after p k m.mem)).2 = true →
        ∃ m2 : Machine L σ, resume_times this (k + 1) m = Except.ok m2 ∧
          m2.current = some this ∧ m2.stack = c0.stack ∧
          m2.fibers[this]? = some { c0 with _resume_condition := p,
                                            _fiber_come_from := some m.current } ∧
          m2.mem = (p (mem_after p k m.mem)).1 ∧
          m2.trace = m.trace ++ List.replicate k (Event.cond this false) ++
            [Event.cond this true, Event.switch m.current (some this)]) := by
  obtain ⟨c, r, hcur0, hc, hr, rfl⟩ := yield_until_ok hy
  rw [hc0] at hc; injection hc with hc; subst hc
  have hc1 : m.fibers[this]? = some { c0 with _resume_condition := p } := by
    rw [hm]; simp [updFiber_fibers, hc0]
  have hk := resume_times_gated this p k m _ hc1 hcur hs rfl hfalse
  refine ⟨hk, ?_⟩
  intro htrue
  have hsplit : ∀ (n : Nat) (x y : Machine L σ), resume_times this n x = Except.ok y →
      resume_times this (n + 1) x = CoroutineImpl.resume y this := by
    intro n
    induction n with
    | zero =>
      intro x y h
      simp only [resume_times] at h
      injection h with h; subst h
      simp only [resume_times]
      cases CoroutineImpl.resume x this <;> rfl
    | succ n ih =>
      intro x y h
      simp only [resume_times] at h ⊢
      cases hx : CoroutineImpl.resume x this with
      | error e => simp [hx] at h
      | ok x1 =>
        simp only [hx] at h ⊢
        have := ih x1 y h
        simp only [resume_times] at this
        exact this
  rw [hsplit k m _ hk]
  obtain ⟨m2, h1, h2, h3, _, _, _, h7, h8, h9⟩ :=
    resume_switch { m with mem := mem_after p k m.mem,
                           trace := m.trace ++ List.replicate k (Event.cond this false) } this
      hc1 hcur hs htrue
  refine ⟨m2, h1, h2, h8, ?_, h3, ?_⟩
  · rw [h9 this]; simp
  · exact h7

end Claims2

end Spark

namespace Spark

section Claims3

variable {L σ : Type}

theorem stack_congr {m m1 : Machine L σ} (hcur : m1.current = m.current)
    (hmaj : m1.major_stack = m.major_stack)
    (hfib : ∀ f : Fid, m.current = some f → m1.fibers[f]? = m.fibers[f]?) :
    m1.stack = m.stack := by
  unfold Machine.stack
  rw [hcur]
  cases h : m.current with
  | none => simpa using hmaj
  | some f => simp only [hfib f h]

/-- A `resume()` that switches into a context whose task then ends (returns for
`st = Finished`, raises for `st = Excepted`) without another library call: control is back in
the caller, on the caller's stack, and the status is stored. -/
theorem resume_round_end (prog : L → σ → σ × Call L σ) (m : Machine L σ) (this : Fid)
    {c : CoroutineImpl L σ} {pc : L} {rest : List (Frame L σ)} (st : Status)
    (hc : m.fibers[this]? = some c) (hcur : m.current ≠ some this)
    (hs : c._status = Status.Supended) (hp : (c._resume_condition m.mem).2 = true)
    (hstk : c.stack = Frame.user pc :: rest)
    (hcall : ((prog pc (c._resume_condition m.mem).1).2 = Call.ret ∧ st = Status.Finished) ∨
      ((prog pc (c._resume_condition m.mem).1).2 = Call.raise ∧ st = Status.Excepted)) :
    ∃ m2 : Machine L σ, resume_round prog this m = Except.ok m2 ∧ m2.current = m.current ∧
      m2.stack = m.stack ∧
      m2.fibers[this]? = some { c with _fiber_come_from := some m.current, _status := st,
                                       stack := [], _resume_condition := always_true } ∧
      m2.trace = m.trace ++ [Event.cond this true, Event.switch m.current (some this),
        Event.switch (some this) m.current] ∧
      m2.handles = m.handles ∧ m2._fiber_list = m._fiber_list := by
  obtain ⟨m1, h1, h2, h3, h4, h5, h6, h7, h8, h9⟩ := resume_switch m this hc hcur hs hp
  obtain ⟨m2, g1, g2, g3, g4, g5, g6, g7, g8⟩ :=
    do_fiber_work_switch ({ m1 with mem := (prog pc m1.mem).1 } : Machine L σ) this
      (r := m.current) (c := { c with _fiber_come_from := some m.current }) st
      h2 (by simp [h9 this]) rfl
  refine ⟨m2, ?_, g2, ?_, ?_, ?_, ?_, ?_⟩
  · unfold resume_round
    simp only [h1]
    rw [step_user prog (h8.trans hstk)]
    rcases hcall with ⟨hcall, rfl⟩ | ⟨hcall, rfl⟩
    · have hcall1 : (prog pc m1.mem).2 = Call.ret := by rw [h3]; exact hcall
      rw [hcall1, call_ret_fiber (m := { m1 with mem := (prog pc m1.mem).1 }) rest h2]
      exact g1
    · have hcall1 : (prog pc m1.mem).2 = Call.raise := by rw [h3]; exact hcall
      rw [hcall1, call_raise_fiber (m := { m1 with mem := (prog pc m1.mem).1 }) rest h2]
      exact g1
  · apply stack_congr g2
    · rw [g6]; exact h6
    · intro f hf
      have hne : f ≠ this := by
        intro e; subst e; exact hcur hf
      rw [g8 f]; simp only [hne, if_false]
      rw [h9 f]; simp [hne]
  · rw [g8 this]; simp
  · rw [g7]; simp [h7]
  · rw [g4]; exact h4
  · rw [g5]; exact h5

end Claims3

end Spark

namespace Spark

section Claims4

variable {L σ : Type}

/-- Two facts about `Coroutine::await`. A step that starts inside it (at any of its three
return points) and ends with the same fiber running on the caller's stack below the `await`
frame, that is, `await` has returned, leaves the target's status `Finished` or `Excepted`.
And when user code calls `await` on a handle whose context is fresh and whose task ends
at once, four steps later the caller is back in its own code right after the call. -/
theorem await_steps (prog : L → σ → σ × Call L σ) (m : Machine L σ) (h : Hid) :
    (∀ (top : Frame L σ) (rest : List (Frame L σ)) (m1 : Machine L σ),
      m.stack = top :: rest →
      (top = Frame.await_421 h ∨ top = Frame.await_424 h ∨ top = Frame.await_431 h) →
      step prog m = Except.ok m1 → m1.current = m.current → m1.stack = rest →
      ∃ (t : Fid) (c : CoroutineImpl L σ), (m1.handles h)._impl = some t ∧
        m1.fibers[t]? = some c ∧ c._status ≠ Status.Supended) ∧
    (∀ (pc k task : L) (rest : List (Frame L σ)) (t : Fid) (st : Status),
      m.stack = Frame.user pc :: rest → (prog pc m.mem).2 = Call.await h k →
      (m.handles h)._impl = some t → m.fibers[t]? = some (CoroutineImpl.mk_task task) →
      m.current ≠ some t →
      ((∀ s : σ, (prog task s).2 = Call.ret) ∧ st = Status.Finished ∨
        (∀ s : σ, (prog task s).2 = Call.raise) ∧ st = Status.Excepted) →
      ∃ (m4 : Machine L σ) (c4 : CoroutineImpl L σ), run prog 4 m = Except.ok m4 ∧
        m4.current = m.current ∧ m4.stack = Frame.user k :: rest ∧
        m4.fibers[t]? = some c4 ∧ c4._status = st ∧
        m4.trace = m.trace ++ [Event.cond t true, Event.switch m.current (some t),
          Event.switch (some t) m.current]) := by
  constructor
  · intro top rest m1 hstk htop hstep hcur1 hstk1
    have hne : m.stack ≠ [] := by rw [hstk]; simp
    have hcons : ∀ (fr : Frame L σ), fr :: rest ≠ rest := fun fr => List.cons_ne_self fr rest
    have hres : ∀ (x : Machine L σ) (fib : Coroutine), x.current = m.current →
        Coroutine.resume x fib = Except.ok m1 → x.stack = m1.stack := by
      intro x fib hx hr
      unfold Coroutine.resume at hr
      cases hf : fib._impl with
      | none => simp [hf] at hr
      | some t =>
        simp only [hf] at hr
        obtain ⟨c, hc, hcur, hs, hcase⟩ := resume_ok hr
        rcases hcase with ⟨_, rfl⟩ | ⟨_, rfl⟩
        · rfl
        · exfalso
          simp only at hcur1
          rw [← hx] at hcur1
          exact hcur hcur1.symm
    unfold step at hstep
    rcases htop with rfl | rfl | rfl
    · simp only [hstk] at hstep
      by_cases hself : m.current = (m.handles h)._impl
      · simp [hself] at hstep
      · simp only [hself, if_false] at hstep
        cases hst : Coroutine.status m (m.handles h) with
        | error e => simp [hst] at hstep
        | ok s =>
          simp only [hst] at hstep
          by_cases hsu : s = Status.Supended
          · simp only [hsu, if_true] at hstep
            have := hres _ _ (by simp) hstep
            rw [stack_setStack _ _ hne, hstk1] at this
            exact absurd this (hcons _)
          · simp only [hsu, if_false] at hstep
            injection hstep with hstep; subst hstep
            rw [stack_setStack _ _ hne] at hstk1
            exact absurd hstk1 (hcons _)
    · simp only [hstk] at hstep
      cases hst : Coroutine.status m (m.handles h) with
      | error e => simp [hst] at hstep
      | ok s =>
        simp only [hst] at hstep
        by_cases hsu : s = Status.Supended
        · simp only [hsu, if_true] at hstep
          exfalso
          unfold yield_or_sleep at hstep
          split at hstep
          · rename_i this hthis
            rw [yield_eq] at hstep
            obtain ⟨c, r, hc1, hc2, hc3, rfl⟩ := yield_until_ok hstep
            -- the caller yielded to `r`; had `r` been the caller, its stack would still
            -- hold the `await` frame
            have hcur1 : r = m.current := hcur1
            rw [setStack_current] at hc1
            have hcs : c.stack = Frame.await_431 h :: rest := by
              rw [setStack_fibers] at hc2
              simp only [hc1, if_true, Option.map_eq_some'] at hc2
              obtain ⟨d0, _, rfl⟩ := hc2
              rfl
            unfold Machine.stack at hstk1
            simp only [hcur1, hc1, updFiber_fibers, if_true, hc2, Option.map_some', hcs]
              at hstk1
            exact absurd hstk1 (hcons _)
          · injection hstep with hstep; subst hstep
            have : (m.setStack (Frame.await_431 h :: rest)).stack = rest := hstk1
            rw [stack_setStack _ _ hne] at this
            exact absurd this (hcons _)
        · simp only [hsu, if_false] at hstep
          injection hstep with hstep; subst hstep
          obtain ⟨t, c, ht, hcur, hc, hs⟩ := status_ok hst
          refine ⟨t, c, by simpa using ht, ?_, by rw [hs]; exact hsu⟩
          rw [setStack_fibers_other _ _ hcur]; exact hc
    · simp only [hstk] at hstep
      have := hres _ _ (by simp) hstep
      rw [stack_setStack _ _ hne, hstk1] at this
      exact absurd this (hcons _)
  · intro pc k task rest t st hstk hcall ht hc hcur htask
    have hne : m.stack ≠ [] := by rw [hstk]; simp
    -- step 1: the call pushes the frame of `await`
    have hne0 : ({ m with mem := (prog pc m.mem).1 } : Machine L σ).stack ≠ [] := hne
    have s1 : step prog m = Except.ok (({ m with mem := (prog pc m.mem).1 } :
        Machine L σ).setStack (Frame.await_421 h :: Frame.user k :: rest)) := by
      rw [step_user prog hstk, hcall]; rfl
    generalize hm1 : (({ m with mem := (prog pc m.mem).1 } : Machine L σ).setStack
      (Frame.await_421 h :: Frame.user k :: rest)) = m1 at s1
    have e1 : m1.stack = Frame.await_421 h :: Frame.user k :: rest := by
      rw [← hm1]; exact stack_setStack _ _ hne0
    have c1 : m1.current = m.current := by rw [← hm1]; simp
    have f1 : m1.fibers[t]? = some (CoroutineImpl.mk_task task) := by
      rw [← hm1, setStack_fibers_other _ _ (by simpa using hcur)]; exact hc
    have t1 : (m1.handles h)._impl = some t := by rw [← hm1]; simpa using ht
    have tr1 : m1.trace = m.trace := by rw [← hm1]; simp
    have hcur1 : m1.current ≠ some t := by rw [c1]; exact hcur
    -- steps 2 and 3: `resume`, then the task ends
    have hne1 : m1.stack ≠ [] := by rw [e1]; simp
    generalize hm2 : m1.setStack (Frame.await_424 h :: Frame.user k :: rest) = m2
    have e2 : m2.stack = Frame.await_424 h :: Frame.user k :: rest := by
      rw [← hm2]; exact stack_setStack _ _ hne1
    have c2 : m2.current = m.current := by rw [← hm2]; simp [c1]
    have f2 : m2.fibers[t]? = some (CoroutineImpl.mk_task task) := by
      rw [← hm2, setStack_fibers_other _ _ hcur1]; exact f1
    have s2 : step prog m1 = CoroutineImpl.resume m2 t := by
      unfold step
      simp only [e1]
      have hself : ¬ m1.current = (m1.handles h)._impl := by rw [t1]; exact hcur1
      simp only [hself, if_false, status_eq t1 hcur1 f1]
      simp only [CoroutineImpl.mk_task, if_true, hm2]
      unfold Coroutine.resume
      simp only [t1]
    have hcur2 : m2.current ≠ some t := by rw [c2]; exact hcur
    obtain ⟨m3, r1, r2, r3, r4, r5, r6, _⟩ :=
      resume_round_end prog m2 t (c := CoroutineImpl.mk_task task) st f2 hcur2
        rfl rfl rfl
        (by
          rcases htask with ⟨hq, rfl⟩ | ⟨hq, rfl⟩
          · exact Or.inl ⟨hq _, rfl⟩
          · exact Or.inr ⟨hq _, rfl⟩)
    unfold resume_round at r1
    cases hr : CoroutineImpl.resume m2 t with
    | error e => simp [hr] at r1
    | ok m2b =>
      simp only [hr] at r1
      -- step 4: the loop test of `await` fails and `await` returns
      have hst3 : st ≠ Status.Supended := by
        rcases htask with ⟨_, rfl⟩ | ⟨_, rfl⟩ <;> decide
      have hcur3 : m3.current ≠ some t := by rw [r2, c2]; exact hcur
      have t3 : (m3.handles h)._impl = some t := by
        rw [r6, ← hm2]; simpa using t1
      have s4 : step prog m3 = Except.ok (m3.setStack (Frame.user k :: rest)) := by
        unfold step
        simp only [r3, e2, status_eq t3 hcur3 r4]
        simp [hst3]
      have hne3 : m3.stack ≠ [] := by rw [r3, e2]; simp
      have f4 := (setStack_fibers_other m3 (Frame.user k :: rest) hcur3).trans r4
      refine ⟨m3.setStack (Frame.user k :: rest), _, ?_, ?_, stack_setStack _ _ hne3, f4, rfl,
        ?_⟩
      · simp only [run, s1, s2, hr, r1, s4]
      · simp [r2, c2]
      · simp only [setStack_trace, r5, c2]
        rw [← hm2]; simp [tr1]

end Claims4

end Spark

namespace Demo

open Spark

set_option maxRecDepth 100000 in
/-- C9. The producer/consumer program of simple.cpp, with the consumer managed before the
producer and `main` calling `yield()` while the completion flag is unset: after 813 steps (the
four statements that create and manage the two coroutines, 101 scheduling passes, and the
loop test that fails) `main` has returned, so the root loop exits after finitely many passes;
at that point the flag is set, the shared sequence is empty, the values the consumer processed
are exactly 1, 2, ..., 100, each once, and each of them was the last element of the shared
sequence when it was taken. -/
theorem producer_consumer :
    ∃ m : Machine Pc Globals, run prog 813 start = Except.ok m ∧
      m.current = none ∧ m.major_stack = [] ∧ m.mem.g_shutdown = true ∧
      m.mem.g_vecTask = [] ∧ m.mem.consumed.map Prod.fst = List.range' 1 100 ∧
      ∀ e ∈ m.mem.consumed, e.2.getLast? = some e.1 := by
  have h : (match run prog 813 start with
      | Except.ok m =>
        decide (m.current = none ∧ m.major_stack.length = 0 ∧ m.mem.g_shutdown = true ∧
          m.mem.g_vecTask = [] ∧ m.mem.consumed.map Prod.fst = List.range' 1 100 ∧
          ∀ e ∈ m.mem.consumed, e.2.getLast? = some e.1)
      | Except.error _ => false) = true := by decide
  cases hr : run prog 813 start with
  | error e => rw [hr] at h; cases h
  | ok m =>
    rw [hr] at h
    simp only [decide_eq_true_eq] at h
    obtain ⟨h1, h2, h3, h4, h5, h6⟩ := h
    exact ⟨m, rfl, h1, List.length_eq_zero.mp h2, h3, h4, h5, h6⟩

end Demo

namespace Spark

section Ownership

variable {L σ : Type}

theorem onChain_cur {m : Machine L σ} {g : Fid} (h : OnChain m g) :
    ∃ f : Fid, m.current = some f := by
  induction h with
  | cur hc => exact ⟨_, hc⟩
  | next _ _ _ ih => exact ih

/-- If the running fiber of `m1` satisfies `P` and `P` is closed under the resumer links of
`m1`, every context on the chain of `m1` satisfies `P`. -/
theorem onChain_sub {m1 : Machine L σ} (P : Fid → Prop)
    (hcur : ∀ f : Fid, m1.current = some f → P f)
    (hstep : ∀ (f : Fid) (c1 : CoroutineImpl L σ) (g : Fid), m1.fibers[f]? = some c1 →
      c1._fiber_come_from = some (some g) → P f → P g)
    {g : Fid} (h : OnChain m1 g) : P g := by
  induction h with
  | cur hc => exact hcur _ hc
  | next _ hf hg ih => exact hstep _ _ _ hf hg ih

/-- The chain does not grow when the running fiber stays and no resumer link is added. -/
theorem onChain_of_links {m m1 : Machine L σ} {g : Fid} (h : OnChain m1 g)
    (hcur : m1.current = m.current)
    (hlink : ∀ (f : Fid) (c1 : CoroutineImpl L σ) (g : Fid), m1.fibers[f]? = some c1 →
      c1._fiber_come_from = some (some g) →
      ∃ c : CoroutineImpl L σ, m.fibers[f]? = some c ∧ c._fiber_come_from = some (some g)) :
    OnChain m g := by
  refine onChain_sub (OnChain m) ?_ ?_ h
  · intro f hf; exact OnChain.cur (hcur ▸ hf)
  · intro f c1 g hf hg hP
    obtain ⟨c, hc, hcg⟩ := hlink f c1 g hf hg
    exact OnChain.next hP hc hcg

theorem onChain_same {m m1 : Machine L σ} {g : Fid} (h : OnChain m1 g)
    (hcur : m1.current = m.current) (hfib : m1.fibers = m.fibers) : OnChain m g :=
  onChain_of_links h hcur (fun f c1 g hf hg => ⟨c1, by rw [← hfib]; exact hf, hg⟩)

theorem passIdx_none_of_not_pass {l : List (Frame L σ)} (h : ∀ fr ∈ l, fr.isPass = false) :
    passIdx l = none := by
  cases l with
  | nil => rfl
  | cons a l =>
    have := h a (List.mem_cons_self _ _)
    cases a <;> simp_all [passIdx, Frame.isPass]

theorem own_init (entry : L) (mem : σ) : Own (Machine.init entry mem) := by
  constructor <;> simp [Machine.init, passIdx]

theorem own_mem {m : Machine L σ} (μ : σ) (h : Own m) : Own { m with mem := μ } := by
  refine ⟨h.fiber_frames, h.major_tail, h.list_distinct, h.handle_list, h.handle_inj,
    h.handle_lt, h.list_lt, ?_⟩
  intro i hi j hj
  obtain ⟨f, c, h1, h2, h3, h4⟩ := h.kept i hi j hj
  exact ⟨f, c, h1, h2, h3, fun hc => h4 (onChain_same hc rfl rfl)⟩

theorem own_sleep {m : Machine L σ} (h : Own m) :
    Own { m with trace := m.trace ++ [Event.sleep] } := by
  refine ⟨h.fiber_frames, h.major_tail, h.list_distinct, h.handle_list, h.handle_inj,
    h.handle_lt, h.list_lt, ?_⟩
  intro i hi j hj
  obtain ⟨f, c, h1, h2, h3, h4⟩ := h.kept i hi j hj
  exact ⟨f, c, h1, h2, h3, fun hc => h4 (onChain_same hc rfl rfl)⟩

/-- A frame of `CoroutineMgr` on top of the running stack: the major fiber is running. -/
theorem Own.major_of_mgr {m : Machine L σ} (h : Own m) {top : Frame L σ}
    {rest : List (Frame L σ)} (hs : m.stack = top :: rest) (htop : top.isMgr = true) :
    m.current = none ∧ m.major_stack = top :: rest := by
  cases hc : m.current with
  | none =>
    refine ⟨rfl, ?_⟩
    simpa [Machine.stack, hc] using hs
  | some f =>
    exfalso
    unfold Machine.stack at hs
    simp only [hc] at hs
    cases hf : m.fibers[f]? with
    | none => simp [hf] at hs
    | some c =>
      simp only [hf] at hs
      have := h.fiber_frames f c hf top (by rw [hs]; exact List.mem_cons_self _ _)
      rw [htop] at this; cases this

theorem own_erase {m : Machine L σ} {i : Nat} {rest : List (Frame L σ)} (h : Own m)
    (hs : m.stack = Frame.mgr_yield_181 i :: rest) :
    Own { m with _fiber_list := m._fiber_list.eraseIdx i } := by
  obtain ⟨hcur, hmaj⟩ := h.major_of_mgr hs rfl
  have hsub : (m._fiber_list.eraseIdx i).Sublist m._fiber_list := List.eraseIdx_sublist _ _
  refine ⟨h.fiber_frames, h.major_tail, h.list_distinct.sublist hsub, ?_, h.handle_inj,
    h.handle_lt, ?_, ?_⟩
  · intro hd f hf e he
    exact h.handle_list hd f hf e (hsub.subset he)
  · intro e he f hf
    exact h.list_lt e (hsub.subset he) f hf
  · intro i1 hi j hj
    have hi1 : i1 = i := by
      simp only [hmaj, passIdx] at hi
      injection hi with hi; exact hi.symm
    subst hi1
    obtain ⟨f, c, h1, h2, h3, h4⟩ := h.kept i1 (by rw [hmaj]; rfl) j hj
    refine ⟨f, c, ?_, h2, h3, fun hc => h4 (onChain_same hc rfl rfl)⟩
    simp only
    rw [List.getElem?_eraseIdx]
    simp [hj, h1]

theorem own_manage {m : Machine L σ} (hd : Hid) (h : Own m) : Own (CoroutineMgr.manage m hd) := by
  unfold CoroutineMgr.manage
  refine ⟨h.fiber_frames, h.major_tail, ?_, ?_, ?_, ?_, ?_, ?_⟩
  · simp only
    rw [List.pairwise_append]
    refine ⟨h.list_distinct, List.pairwise_singleton _ _, ?_⟩
    intro a ha b hb f hf
    rw [List.mem_singleton] at hb
    subst hb
    intro hb
    exact h.handle_list hd f hb a ha hf
  · intro h1 f hf e he
    simp only at hf he
    by_cases hh : h1 = hd
    · simp [hh] at hf
    · simp only [hh, if_false] at hf
      rcases List.mem_append.mp he with he | he
      · exact h.handle_list h1 f hf e he
      · rw [List.mem_singleton] at he
        subst he
        intro he
        exact hh (h.handle_inj h1 hd f hf he)
  · intro h1 h2 f hf1 hf2
    simp only at hf1 hf2
    by_cases hh1 : h1 = hd
    · simp [hh1] at hf1
    · by_cases hh2 : h2 = hd
      · simp [hh2] at hf2
      · simp only [hh1, hh2, if_false] at hf1 hf2
        exact h.handle_inj h1 h2 f hf1 hf2
  · intro h1 f hf
    simp only at hf
    by_cases hh : h1 = hd
    · simp [hh] at hf
    · simp only [hh, if_false] at hf
      exact h.handle_lt h1 f hf
  · intro e he f hf
    simp only at he
    rcases List.mem_append.mp he with he | he
    · exact h.list_lt e he f hf
    · rw [List.mem_singleton] at he
      subst he
      exact h.handle_lt hd f hf
  · intro i hi j hj
    obtain ⟨f, c, h1, h2, h3, h4⟩ := h.kept i hi j hj
    refine ⟨f, c, ?_, h2, h3, fun hc => h4 (onChain_same hc rfl rfl)⟩
    simp only
    rw [List.getElem?_append_left (List.getElem?_eq_some.mp h1).1]
    exact h1

theorem go_fibers_old {m : Machine L σ} (hd : Hid) (task : L) {f : Fid}
    {c : CoroutineImpl L σ} (hf : m.fibers[f]? = some c) :
    (Coroutine.go m hd task).fibers[f]? = some c := by
  unfold Coroutine.go
  cases (m.handles hd)._impl with
  | some _ => exact hf
  | none =>
    simp only
    rw [List.getElem?_append_left (List.getElem?_eq_some.mp hf).1]; exact hf

theorem go_fibers_new {m : Machine L σ} (hd : Hid) (task : L) {f : Fid}
    {c : CoroutineImpl L σ} (hf : (Coroutine.go m hd task).fibers[f]? = some c) :
    m.fibers[f]? = some c ∨ c = CoroutineImpl.mk_task task := by
  unfold Coroutine.go at hf
  cases hh : (m.handles hd)._impl with
  | some _ => rw [hh] at hf; exact Or.inl hf
  | none =>
    rw [hh] at hf
    simp only at hf
    by_cases hlt : f < m.fibers.length
    · rw [List.getElem?_append_left hlt] at hf; exact Or.inl hf
    · rw [List.getElem?_append_right (Nat.le_of_not_lt hlt)] at hf
      right
      cases hk : f - m.fibers.length with
      | zero => rw [hk] at hf; simpa using hf.symm
      | succ k => rw [hk] at hf; simp at hf

theorem own_go {m : Machine L σ} (hd : Hid) (task : L) (h : Own m) :
    Own (Coroutine.go m hd task) := by
  have hkept : ∀ i : Nat, passIdx m.major_stack = some i → ∀ j : Nat, j < i →
      ∃ (f : Fid) (c : CoroutineImpl L σ), m._fiber_list[j]? = some { _impl := some f } ∧
        (Coroutine.go m hd task).fibers[f]? = some c ∧ c._status = Status.Supended ∧
        ¬ OnChain (Coroutine.go m hd task) f := by
    intro i hi j hj
    obtain ⟨f, c, h1, h2, h3, h4⟩ := h.kept i hi j hj
    refine ⟨f, c, h1, go_fibers_old hd task h2, h3, fun hc => h4 ?_⟩
    refine onChain_of_links hc (go_current m hd task) ?_
    intro f c1 g hf hg
    rcases go_fibers_new hd task hf with h0 | h0
    · exact ⟨c1, h0, hg⟩
    · subst h0; simp [CoroutineImpl.mk_task] at hg
  have hframes : ∀ (f : Fid) (c : CoroutineImpl L σ),
      (Coroutine.go m hd task).fibers[f]? = some c → ∀ fr ∈ c.stack, fr.isMgr = false := by
    intro f c hf fr hfr
    rcases go_fibers_new hd task hf with h0 | h0
    · exact h.fiber_frames f c h0 fr hfr
    · subst h0
      simp only [CoroutineImpl.mk_task, List.mem_singleton] at hfr
      subst hfr; rfl
  unfold Coroutine.go at hkept hframes ⊢
  cases hh : (m.handles hd)._impl with
  | some _ => exact h
  | none =>
    simp only [hh] at hkept hframes ⊢
    refine ⟨hframes, h.major_tail, h.list_distinct, ?_, ?_, ?_, ?_, hkept⟩
    · intro h1 f hf e he
      simp only at hf he
      by_cases hh1 : h1 = hd
      · simp only [hh1, if_true, Option.some.injEq] at hf
        subst hf
        intro hef
        exact Nat.lt_irrefl _ (h.list_lt e he _ hef)
      · simp only [hh1, if_false] at hf
        exact h.handle_list h1 f hf e he
    · intro h1 h2 f hf1 hf2
      simp only at hf1 hf2
      by_cases hh1 : h1 = hd
      · by_cases hh2 : h2 = hd
        · rw [hh1, hh2]
        · simp only [hh1, if_true, Option.some.injEq, hh2, if_false] at hf1 hf2
          subst hf1
          exact absurd (h.handle_lt h2 _ hf2) (Nat.lt_irrefl _)
      · by_cases hh2 : h2 = hd
        · simp only [hh2, if_true, Option.some.injEq, hh1, if_false] at hf1 hf2
          subst hf2
          exact absurd (h.handle_lt h1 _ hf1) (Nat.lt_irrefl _)
        · simp only [hh1, hh2, if_false] at hf1 hf2
          exact h.handle_inj h1 h2 f hf1 hf2
    · intro h1 f hf
      simp only at hf
      simp only [List.length_append, List.length_singleton]
      by_cases hh1 : h1 = hd
      · simp only [hh1, if_true, Option.some.injEq] at hf
        rw [← hf]; exact Nat.lt_succ_self _
      · simp only [hh1, if_false] at hf
        exact Nat.lt_succ_of_lt (h.handle_lt h1 f hf)
    · intro e he f hf
      simp only [List.length_append, List.length_singleton]
      exact Nat.lt_succ_of_lt (h.list_lt e he f hf)

end Ownership

end Spark

namespace Spark

section Ownership2

variable {L σ : Type}

theorem setStack_view {m : Machine L σ} {s : List (Frame L σ)} {g : Fid}
    {c1 : CoroutineImpl L σ} (h : (m.setStack s).fibers[g]? = some c1) :
    ∃ c : CoroutineImpl L σ, m.fibers[g]? = some c ∧
      c1._fiber_come_from = c._fiber_come_from ∧ c1._status = c._status ∧
      ((m.current ≠ some g ∧ c1 = c) ∨ (m.current = some g ∧ c1.stack = s)) := by
  rw [setStack_fibers] at h
  by_cases hc : m.current = some g
  · simp only [hc, if_true, Option.map_eq_some'] at h
    obtain ⟨c, hc0, rfl⟩ := h
    exact ⟨c, hc0, rfl, rfl, Or.inr ⟨hc, rfl⟩⟩
  · simp only [hc, if_false] at h
    exact ⟨c1, h, rfl, rfl, Or.inl ⟨hc, rfl⟩⟩

theorem pairwise_index {l : List Coroutine}
    (h : l.Pairwise (fun a b => ∀ f : Fid, a._impl = some f → b._impl ≠ some f))
    {i j : Nat} {f : Fid} (hij : j < i) (hj : l[j]? = some { _impl := some f })
    (hi : l[i]? = some { _impl := some f }) : False := by
  obtain ⟨hjl, hje⟩ := List.getElem?_eq_some.mp hj
  obtain ⟨hil, hie⟩ := List.getElem?_eq_some.mp hi
  have := (List.pairwise_iff_getElem.mp h) j i hjl hil hij f (by rw [hje])
  exact this (by rw [hie])

theorem own_setStack {m : Machine L σ} (s : List (Frame L σ)) (h : Own m)
    (_ : m.stack ≠ []) (hok : StackOK m s) : Own (m.setStack s) := by
  cases hcur : m.current with
  | none =>
    have hstk : m.stack = m.major_stack := by simp [Machine.stack, hcur]
    have hmaj : (m.setStack s).major_stack = s := by simp [setStack_major_stack, hcur]
    have hfib : ∀ g : Fid, (m.setStack s).fibers[g]? = m.fibers[g]? := by
      intro g; rw [setStack_fibers]; simp [hcur]
    refine ⟨?_, ?_, ?_, ?_, ?_, ?_, ?_, ?_⟩
    · intro f c hf; rw [hfib] at hf; exact h.fiber_frames f c hf
    · rw [hmaj]; exact hok.tail_ok (by rw [hstk]; exact h.major_tail)
    · simpa using h.list_distinct
    · simpa using h.handle_list
    · simpa using h.handle_inj
    · simpa using h.handle_lt
    · simpa using h.list_lt
    · intro i hi j hj
      rw [hmaj] at hi
      have hno : ∀ g : Fid, ¬ OnChain (m.setStack s) g := by
        intro g hg
        obtain ⟨f, hf⟩ := onChain_cur hg
        rw [setStack_current, hcur] at hf; cases hf
      have hold : ∀ i0 : Nat, passIdx m.major_stack = some i0 → j < i0 →
          ∃ (f : Fid) (c : CoroutineImpl L σ),
            (m.setStack s)._fiber_list[j]? = some { _impl := some f } ∧
            (m.setStack s).fibers[f]? = some c ∧ c._status = Status.Supended ∧
            ¬ OnChain (m.setStack s) f := by
        intro i0 hi0 hj0
        obtain ⟨f, c, h1, h2, h3, _⟩ := h.kept i0 hi0 j hj0
        exact ⟨f, c, by simpa using h1, by rw [hfib]; exact h2, h3, hno f⟩
      rcases hok.idx_ok with h0 | h0 | h0 | h0 | ⟨i0, f, c, h1, h2, h3, h4, h5⟩
      · rw [h0, hstk, passIdx_none_of_not_pass h.major_tail] at hi; cases hi
      · rw [h0] at hi; cases hi
      · rw [h0] at hi; injection hi with hi; omega
      · rw [h0, hstk] at hi; exact hold i hi hj
      · rw [h2] at hi; injection hi with hi
        rw [hstk] at h1
        by_cases hlt : j < i0
        · exact hold i0 h1 hlt
        · have hji : j = i0 := by omega
          subst hji
          exact ⟨f, c, by simpa using h3, by rw [hfib]; exact h4, h5, hno f⟩
  | some t =>
    have hmaj : (m.setStack s).major_stack = m.major_stack := by
      simp [setStack_major_stack, hcur]
    refine ⟨?_, ?_, ?_, ?_, ?_, ?_, ?_, ?_⟩
    · intro f c1 hf
      obtain ⟨c, hc, _, _, hcase⟩ := setStack_view hf
      rcases hcase with ⟨_, rfl⟩ | ⟨hcf, hst⟩
      · exact h.fiber_frames f c1 hc
      · rw [hst]
        refine hok.fiber_ok (by rw [hcur]; simp) ?_
        have : m.stack = c.stack := by simp [Machine.stack, hcf, hc]
        rw [this]; exact h.fiber_frames f c hc
    · rw [hmaj]; exact h.major_tail
    · simpa using h.list_distinct
    · simpa using h.handle_list
    · simpa using h.handle_inj
    · simpa using h.handle_lt
    · simpa using h.list_lt
    · intro i hi j hj
      rw [hmaj] at hi
      obtain ⟨f, c, h1, h2, h3, h4⟩ := h.kept i hi j hj
      have hft : m.current ≠ some f := fun e => h4 (OnChain.cur e)
      refine ⟨f, c, by simpa using h1, by rw [setStack_fibers_other _ _ hft]; exact h2, h3, ?_⟩
      intro hc
      refine h4 (onChain_of_links hc (setStack_current m s) ?_)
      intro g c1 g1 hg hg1
      obtain ⟨c0, hc0, hcf, _, _⟩ := setStack_view hg
      exact ⟨c0, hc0, by rw [← hcf]; exact hg1⟩

theorem own_resume {m m1 : Machine L σ} {this : Fid} (h : Own m) (hacc : Accessible m this)
    (hr : CoroutineImpl.resume m this = Except.ok m1) : Own m1 := by
  obtain ⟨c, hc, hcur, hsus, hcase⟩ := resume_ok hr
  rcases hcase with ⟨_, rfl⟩ | ⟨_, rfl⟩
  · refine ⟨h.fiber_frames, h.major_tail, h.list_distinct, h.handle_list, h.handle_inj,
      h.handle_lt, h.list_lt, ?_⟩
    intro i hi j hj
    obtain ⟨f, c, h1, h2, h3, h4⟩ := h.kept i hi j hj
    exact ⟨f, c, h1, h2, h3, fun hc => h4 (onChain_same hc rfl rfl)⟩
  · have hget : ∀ (f : Fid) (d : CoroutineImpl L σ), (updFiber m this
          (fun c => { c with _fiber_come_from := some m.current })).fibers[f]? = some d →
        ∃ d0 : CoroutineImpl L σ, m.fibers[f]? = some d0 ∧ d._status = d0._status ∧
          d.stack = d0.stack ∧
          ((f = this ∧ d._fiber_come_from = some m.current) ∨ (f ≠ this ∧ d = d0)) := by
      intro f d hd
      rw [updFiber_fibers] at hd
      by_cases hf : f = this
      · subst hf
        simp only [if_true, hc, Option.map_some'] at hd
        injection hd with hd; subst hd
        exact ⟨c, hc, rfl, rfl, Or.inl ⟨rfl, rfl⟩⟩
      · simp only [hf, if_false] at hd
        exact ⟨d, hd, rfl, rfl, Or.inr ⟨hf, rfl⟩⟩
    refine ⟨?_, h.major_tail, h.list_distinct, h.handle_list, h.handle_inj, ?_, ?_, ?_⟩
    · intro f d hd
      obtain ⟨d0, hd0, _, hstk, _⟩ := hget f d hd
      rw [hstk]; exact h.fiber_frames f d0 hd0
    · intro hd f hf
      simp only [updFiber_length]
      exact h.handle_lt hd f hf
    · intro e he f hf
      simp only [updFiber_length]
      exact h.list_lt e he f hf
    · intro i hi j hj
      obtain ⟨f, d, h1, h2, h3, h4⟩ := h.kept i hi j hj
      have hne : f ≠ this := by
        rintro rfl
        rcases hacc with ⟨hd, hhd⟩ | ⟨i1, rest, hs, hl⟩
        · exact h.handle_list hd f hhd _ (List.mem_iff_getElem?.mpr ⟨j, h1⟩) rfl
        · obtain ⟨_, hmaj⟩ := h.major_of_mgr hs rfl
          have : i1 = i := by
            have hi' : passIdx m.major_stack = some i := hi
            rw [hmaj] at hi'
            simp only [passIdx] at hi'
            injection hi' with hi'
          subst this
          exact pairwise_index h.list_distinct hj h1 hl
      refine ⟨f, d, h1, ?_, h3, ?_⟩
      · simp only [updFiber_fibers, hne, if_false]; exact h2
      · intro hon
        have key : f = this ∨ OnChain m f := by
          refine onChain_sub (fun g => g = this ∨ OnChain m g) ?_ ?_ hon
          · intro g hg
            simp only [Option.some.injEq] at hg
            exact Or.inl hg.symm
          · intro g c1 g1 hg hg1 hP
            obtain ⟨d0, hd0, _, _, hcf⟩ := hget g c1 hg
            rcases hcf with ⟨_, hcf⟩ | ⟨_, rfl⟩
            · rw [hcf] at hg1
              injection hg1 with hg1
              exact Or.inr (OnChain.cur hg1)
            · rcases hP with hP | hP
              · subst hP
                rename_i hx
                exact absurd rfl hx
              · exact Or.inr (OnChain.next hP hd0 hg1)
        rcases key with k | k
        · exact hne k
        · exact h4 k

theorem own_yield_until {m m1 : Machine L σ} {this : Fid} {condition : σ → σ × Bool}
    (h : Own m) (hy : CoroutineImpl.yield_until m this condition = Except.ok m1) : Own m1 := by
  obtain ⟨c, r, hcur, hc, hr, rfl⟩ := yield_until_ok hy
  have hget : ∀ (f : Fid) (d : CoroutineImpl L σ), (updFiber m this
        (fun c => { c with _resume_condition := condition })).fibers[f]? = some d →
      ∃ d0 : CoroutineImpl L σ, m.fibers[f]? = some d0 ∧ d._status = d0._status ∧
        d.stack = d0.stack ∧ d._fiber_come_from = d0._fiber_come_from := by
    intro f d hd
    rw [updFiber_fibers] at hd
    by_cases hf : f = this
    · subst hf
      simp only [if_true, hc, Option.map_some'] at hd
      injection hd with hd; subst hd
      exact ⟨c, hc, rfl, rfl, rfl⟩
    · simp only [hf, if_false] at hd
      exact ⟨d, hd, rfl, rfl, rfl⟩
  refine ⟨?_, h.major_tail, h.list_distinct, h.handle_list, h.handle_inj, ?_, ?_, ?_⟩
  · intro f d hd
    obtain ⟨d0, hd0, _, hstk, _⟩ := hget f d hd
    rw [hstk]; exact h.fiber_frames f d0 hd0
  · intro hd f hf
    simp only [updFiber_length]
    exact h.handle_lt hd f hf
  · intro e he f hf
    simp only [updFiber_length]
    exact h.list_lt e he f hf
  · intro i hi j hj
    obtain ⟨f, d, h1, h2, h3, h4⟩ := h.kept i hi j hj
    have hne : f ≠ this := by
      rintro rfl; exact h4 (OnChain.cur hcur)
    refine ⟨f, d, h1, ?_, h3, ?_⟩
    · simp only [updFiber_fibers, hne, if_false]; exact h2
    · intro hon
      refine h4 (onChain_sub (OnChain m) ?_ ?_ hon)
      · intro g hg
        simp only at hg
        subst hg
        exact OnChain.next (OnChain.cur hcur) hc hr
      · intro g c1 g1 hg hg1 hP
        obtain ⟨d0, hd0, _, _, hcf⟩ := hget g c1 hg
        exact OnChain.next hP hd0 (by rw [← hcf]; exact hg1)

theorem own_finish {m : Machine L σ} {this : Fid} (st : Status) (h : Own m)
    (hne : m.stack ≠ []) (hcur : m.current = some this) :
    Own ((updFiber m this (fun c => { c with _status := st })).setStack []) := by
  have hc : ∃ c : CoroutineImpl L σ, m.fibers[this]? = some c := by
    cases hf : m.fibers[this]? with
    | none => simp [Machine.stack, hcur, hf] at hne
    | some c => exact ⟨c, rfl⟩
  obtain ⟨c, hc⟩ := hc
  have hmaj : ((updFiber m this (fun c => { c with _status := st })).setStack []).major_stack =
      m.major_stack := by simp [setStack_major_stack, hcur]
  have hget : ∀ (f : Fid) (d : CoroutineImpl L σ),
      ((updFiber m this (fun c => { c with _status := st })).setStack []).fibers[f]? = some d →
      (f = this ∧ d = { c with _status := st, stack := [] }) ∨
        (f ≠ this ∧ m.fibers[f]? = some d) := by
    intro f d hd
    rw [finish_fibers st hcur hc] at hd
    by_cases hf : f = this
    · simp only [hf, if_true] at hd
      injection hd with hd
      exact Or.inl ⟨hf, hd.symm⟩
    · simp only [hf, if_false] at hd
      exact Or.inr ⟨hf, hd⟩
  refine ⟨?_, ?_, ?_, ?_, ?_, ?_, ?_, ?_⟩
  · intro f d hd
    rcases hget f d hd with ⟨_, rfl⟩ | ⟨_, h0⟩
    · intro fr hfr; simp at hfr
    · exact h.fiber_frames f d h0
  · rw [hmaj]; exact h.major_tail
  · simpa using h.list_distinct
  · simpa using h.handle_list
  · simpa using h.handle_inj
  · simpa using h.handle_lt
  · simpa using h.list_lt
  · intro i hi j hj
    rw [hmaj] at hi
    obtain ⟨f, d, h1, h2, h3, h4⟩ := h.kept i hi j hj
    have hft : f ≠ this := by
      rintro rfl; exact h4 (OnChain.cur hcur)
    refine ⟨f, d, by simpa using h1, ?_, h3, ?_⟩
    · rw [finish_fibers st hcur hc]; simp only [hft, if_false]; exact h2
    · intro hon
      refine h4 (onChain_of_links hon (by simp) ?_)
      intro g c1 g1 hg hg1
      rcases hget g c1 hg with ⟨hg0, rfl⟩ | ⟨_, h0⟩
      · subst hg0; exact ⟨c, hc, hg1⟩
      · exact ⟨c1, h0, hg1⟩

theorem own_do_fiber_work {m m1 : Machine L σ} {this : Fid} {st : Status} (h : Own m)
    (hne : m.stack ≠ []) (hcur : m.current = some this)
    (hw : CoroutineImpl.do_fiber_work m this st = Except.ok m1) : Own m1 :=
  own_yield_until (own_finish st h hne hcur) ((do_fiber_work_eq m this st).symm.trans hw)

/-- One step keeps the ownership facts. -/
theorem own_step (prog : L → σ → σ × Call L σ) {m m1 : Machine L σ} (h : Own m)
    (hs : step prog m = Except.ok m1) : Own m1 :=
  step_cases prog Own Own (fun _ h => h) (fun _ μ h => own_mem μ h) (fun _ h _ => own_sleep h)
    (fun _ s h hne hok => own_setStack s h hne hok) (fun _ _ _ h hs => own_erase h hs)
    (fun _ hd h => own_manage hd h) (fun _ hd task h => own_go hd task h)
    (fun _ _ _ h hacc hr => own_resume h hacc hr) (fun _ _ _ _ h hy => own_yield_until h hy)
    (fun _ _ _ _ h hne hcur hw => own_do_fiber_work h hne hcur hw) h hs

theorem own_run (prog : L → σ → σ × Call L σ) :
    ∀ (n : Nat) {m m1 : Machine L σ}, Own m → run prog n m = Except.ok m1 → Own m1 := by
  intro n
  induction n with
  | zero =>
    intro m m1 hI h
    simp only [run] at h
    injection h with h; subst h; exact hI
  | succ n ih =>
    intro m m1 hI h
    simp only [run] at h
    cases hs : step prog m with
    | error e => simp [hs] at h
    | ok m2 =>
      simp only [hs] at h
      exact ih (own_step prog hI hs) h

end Ownership2

end Spark

namespace Spark

section Claims6

variable {L σ : Type}

theorem run_reach_own (prog : L → σ → σ × Call L σ) {entry : L} {mem0 : σ} {n : Nat}
    {m : Machine L σ} (h : run prog n (Machine.init entry mem0) = Except.ok m) : Own m :=
  own_run prog n (own_init entry mem0) h

/-- C5. Registry discipline. In every state the thread reaches from `init`: while the root's
`yield()` runs with its iterator at `i`, every registry entry before `i` holds a `Supended`
context; and when the iterator is at the end of the registry the next step returns from the
pass, leaving the registry as it is, and then every entry of the registry holds a `Supended`
context, so no `Finished` or `Excepted` entry remains, whether it was so when the pass started
or became so when it was resumed during the pass. -/
theorem registry_discipline (prog : L → σ → σ × Call L σ) (entry : L) (mem0 : σ) (n : Nat)
    (m : Machine L σ) (hreach : run prog n (Machine.init entry mem0) = Except.ok m) :
    (∀ (i j : Nat), passIdx m.major_stack = some i → j < i →
      ∃ (f : Fid) (c : CoroutineImpl L σ), m._fiber_list[j]? = some { _impl := some f } ∧
        m.fibers[f]? = some c ∧ c._status = Status.Supended) ∧
    (∀ (i : Nat) (rest : List (Frame L σ)), m.current = none →
      m.major_stack = Frame.mgr_yield i :: rest → m._fiber_list[i]? = none →
      ∃ m1 : Machine L σ, step prog m = Except.ok m1 ∧ m1.current = none ∧
        m1.major_stack = rest ∧ m1._fiber_list = m._fiber_list ∧
        ∀ e ∈ m1._fiber_list, ∃ (f : Fid) (c : CoroutineImpl L σ), e._impl = some f ∧
          m1.fibers[f]? = some c ∧ c._status = Status.Supended) := by
  have hown : Own m := run_reach_own prog hreach
  constructor
  · intro i j hi hj
    obtain ⟨f, c, h1, h2, h3, _⟩ := hown.kept i hi j hj
    exact ⟨f, c, h1, h2, h3⟩
  · intro i rest hcur hmaj hend
    have hstk : m.stack = Frame.mgr_yield i :: rest := by simp [Machine.stack, hcur, hmaj]
    refine ⟨m.setStack rest, ?_, by simp [hcur], by simp [setStack_major_stack, hcur],
      by simp, ?_⟩
    · unfold step
      simp only [hstk, hend]
    · intro e he
      rw [setStack_fiber_list] at he
      obtain ⟨j, hj⟩ := List.mem_iff_getElem?.mp he
      have hlt : j < m._fiber_list.length := (List.getElem?_eq_some.mp hj).1
      have hle : m._fiber_list.length ≤ i := by
        by_contra hcon
        have : i < m._fiber_list.length := Nat.lt_of_not_le hcon
        rw [List.getElem?_eq_getElem this] at hend
        cases hend
      obtain ⟨f, c, h1, h2, h3, _⟩ := hown.kept i (by rw [hmaj]; rfl) j (by omega)
      rw [hj] at h1
      injection h1 with h1
      subst h1
      refine ⟨f, c, rfl, ?_, h3⟩
      rw [setStack_fibers]; simp [hcur, h2]

end Claims6

end Spark

namespace Demo

open Spark

set_option maxRecDepth 100000 in
theorem last_pass_end : ∃ (m : Machine Pc Globals) (i : Nat) (rest : List (Frame Pc Globals)),
    run prog 811 start = Except.ok m ∧ m.current = none ∧
      m.major_stack = Frame.mgr_yield i :: rest ∧ m._fiber_list[i]? = none ∧
      m._fiber_list = [{ _impl := some 0 }] := by
  have h : (match run prog 811 start with
      | Except.ok m =>
        decide (m.current = none) &&
          (match m.major_stack with
            | Frame.mgr_yield i :: _ => decide (m._fiber_list[i]? = none)
            | _ => false) &&
          decide (m._fiber_list = [{ _impl := some 0 }])
      | Except.error _ => false) = true := by decide
  cases hr : run prog 811 start with
  | error e => rw [hr] at h; cases h
  | ok m =>
    rw [hr] at h
    simp only [Bool.and_eq_true, decide_eq_true_eq] at h
    obtain ⟨⟨h1, h2⟩, h3⟩ := h
    cases hs : m.major_stack with
    | nil => rw [hs] at h2; cases h2
    | cons top rest =>
      rw [hs] at h2
      cases top with
      | mgr_yield i => exact ⟨m, i, rest, rfl, h1, hs, by simpa using h2, h3⟩
      | _ => cases h2

end Demo

namespace Spark

/-- Witness of C5: the end of the last scheduling pass of the demonstration program, in which
the producer finished: the registry is left with the consumer only, which is `Supended`. -/
theorem registry_discipline_witness :
    ∃ (m m1 : Machine Demo.Pc Demo.Globals), run Demo.prog 811 Demo.start = Except.ok m ∧
      step Demo.prog m = Except.ok m1 ∧ m1._fiber_list = [{ _impl := some 0 }] ∧
      ∀ e ∈ m1._fiber_list, ∃ (f : Fid) (c : CoroutineImpl Demo.Pc Demo.Globals),
        e._impl = some f ∧ m1.fibers[f]? = some c ∧ c._status = Status.Supended := by
  obtain ⟨m, i, rest, hm, hcur, hmaj, hend, hl⟩ := Demo.last_pass_end
  obtain ⟨m1, h1, _, _, h4, h5⟩ :=
    (registry_discipline Demo.prog Demo.Pc.main_59 _ 811 m hm).2 i rest hcur hmaj hend
  exact ⟨m, m1, hm, h1, h4.trans hl, h5⟩

end Spark

namespace Spark

section AwaitAll

variable {L σ : Type}

theorem stack_eq_stackOf (m : Machine L σ) : m.stack = m.stackOf m.current := by
  unfold Machine.stack Machine.stackOf
  cases m.current <;> rfl

theorem stackOf_setStack_self (m : Machine L σ) (s : List (Frame L σ)) (hne : m.stack ≠ []) :
    (m.setStack s).stackOf m.current = s := by
  have := stack_setStack m s hne
  rw [stack_eq_stackOf, setStack_current] at this
  exact this

theorem stackOf_setStack_other (m : Machine L σ) (s : List (Frame L σ)) {c : Option Fid}
    (hc : c ≠ m.current) : (m.setStack s).stackOf c = m.stackOf c := by
  unfold Machine.stackOf
  cases c with
  | none =>
    simp only [setStack_major_stack]
    have : ¬ m.current = none := fun e => hc e.symm
    simp [this]
  | some f =>
    have : m.current ≠ some f := fun e => hc e.symm
    simp only [setStack_fibers_other m s this]

theorem stackOf_congr (m m1 : Machine L σ) (hmaj : m1.major_stack = m.major_stack)
    (hfib : ∀ (f : Fid) (c : CoroutineImpl L σ), m.fibers[f]? = some c →
      ∃ c1 : CoroutineImpl L σ, m1.fibers[f]? = some c1 ∧ c1.stack = c.stack)
    {c : Option Fid} (hne : m.stackOf c ≠ []) : m1.stackOf c = m.stackOf c := by
  unfold Machine.stackOf at hne ⊢
  cases c with
  | none => exact hmaj
  | some f =>
    simp only at hne ⊢
    cases hf : m.fibers[f]? with
    | none => simp [hf] at hne
    | some c0 =>
      obtain ⟨c1, h1, h2⟩ := hfib f c0 hf
      simp only [h1, h2]

theorem resume_stackOf {m m1 : Machine L σ} {this : Fid}
    (h : CoroutineImpl.resume m this = Except.ok m1) {c : Option Fid}
    (hne : m.stackOf c ≠ []) : m1.stackOf c = m.stackOf c := by
  obtain ⟨c0, hc0, _, _, hcase⟩ := resume_ok h
  rcases hcase with ⟨_, rfl⟩ | ⟨_, rfl⟩
  · rfl
  · refine stackOf_congr m _ ?_ ?_ hne
    · rfl
    intro f d hd
    simp only [updFiber_fibers]
    by_cases hf : f = this
    · subst hf
      exact ⟨{ d with _fiber_come_from := some m.current },
        by simp only [if_true, hd, Option.map_some'], rfl⟩
    · exact ⟨d, by simp only [hf, if_false, hd], rfl⟩

theorem yield_until_stackOf {m m1 : Machine L σ} {this : Fid} {p : σ → σ × Bool}
    (h : CoroutineImpl.yield_until m this p = Except.ok m1) {c : Option Fid}
    (hne : m.stackOf c ≠ []) : m1.stackOf c = m.stackOf c := by
  obtain ⟨c0, r, _, hc0, _, rfl⟩ := yield_until_ok h
  refine stackOf_congr m _ ?_ ?_ hne
  · rfl
  intro f d hd
  simp only [updFiber_fibers]
  by_cases hf : f = this
  · subst hf
    exact ⟨{ d with _resume_condition := p },
      by simp only [if_true, hd, Option.map_some'], rfl⟩
  · exact ⟨d, by simp only [hf, if_false, hd], rfl⟩

/-- A step leaves the stack of every fiber other than the running one as it is. -/
theorem step_other_stack (prog : L → σ → σ × Call L σ) {m m1 : Machine L σ}
    (h : step prog m = Except.ok m1) {c : Option Fid} (hc : c ≠ m.current)
    (hne : m.stackOf c ≠ []) : m1.stackOf c = m.stackOf c := by
  refine step_cases prog
    (fun x => x.current = m.current ∧ x.stackOf c = m.stackOf c)
    (fun x => x.stackOf c = m.stackOf c) (fun _ h => h.2) ?_ ?_ ?_ ?_ ?_ ?_ ?_ ?_ ?_
    ⟨rfl, rfl⟩ h
  · intro x μ hx; exact hx
  · intro x hx _; exact hx
  · intro x s hx _ _
    refine ⟨by simp [hx.1], ?_⟩
    rw [stackOf_setStack_other x s (by rw [hx.1]; exact hc)]; exact hx.2
  · intro x i rest hx _; exact hx
  · intro x hd hx; exact hx
  · intro x hd task hx
    refine ⟨by simp [hx.1], ?_⟩
    rw [← hx.2]
    refine stackOf_congr x _ ?_ ?_ (by rw [hx.2]; exact hne)
    · unfold Coroutine.go; cases (x.handles hd)._impl <;> rfl
    · intro f d hd0; exact ⟨d, go_fibers_old hd task hd0, rfl⟩
  · intro x x1 this hx _ hr
    rw [resume_stackOf hr (by rw [hx.2]; exact hne)]; exact hx.2
  · intro x x1 this p hx hy
    rw [yield_until_stackOf hy (by rw [hx.2]; exact hne)]; exact hx.2
  · intro x x1 this st hx hsne hcur hw
    have hcx : c ≠ x.current := by rw [hx.1]; exact hc
    have h1 : ((updFiber x this (fun c => { c with _status := st })).setStack []).stackOf c =
        m.stackOf c := by
      rw [stackOf_setStack_other _ _ (by simpa using hcx), ← hx.2]
      refine stackOf_congr x _ (by simp) ?_ (by rw [hx.2]; exact hne)
      intro f d hd
      simp only [updFiber_fibers]
      by_cases hf : f = this
      · subst hf
        exact ⟨{ d with _status := st }, by simp only [if_true, hd, Option.map_some'], rfl⟩
      · exact ⟨d, by simp only [hf, if_false, hd], rfl⟩
    unfold CoroutineImpl.do_fiber_work at hw
    rw [yield_eq] at hw
    rw [yield_until_stackOf hw (by rw [h1]; exact hne)]; exact h1

end AwaitAll

end Spark

namespace Spark

section AwaitAll2

variable {L σ : Type}

theorem ended_step (prog : L → σ → σ × Call L σ) {m m1 : Machine L σ} (hI : LifeInv m)
    (hs : step prog m = Except.ok m1) {h : Hid} (hh : m1.handles h = m.handles h)
    (he : Ended m h) : Ended m1 h := by
  obtain ⟨f, c, h1, h2, h3⟩ := he
  obtain ⟨c1, hc1, hst⟩ := (life_step prog ⟨hI, Kept.refl m⟩ hs).2 f c h2 h3
  exact ⟨f, c1, by rw [hh]; exact h1, hc1, by rw [hst]; exact h3⟩

theorem awaitAllInv_mono {m m1 : Machine L σ} {S : Hid → Prop} {hs : List Hid}
    (hmono : ∀ h ∈ hs, S h → Ended m h → Ended m1 h) {F : Frame L σ}
    (hF : AwaitAllInv m S hs F) : AwaitAllInv m1 S hs F := by
  cases F with
  | await_all_345 hs1 d =>
    exact ⟨hF.1, fun hd h hh hS => hmono h hh hS (hF.2 hd h hh hS)⟩
  | await_all_349 hs1 i d =>
    exact ⟨hF.1, fun hd j h hj hjh hS =>
      hmono h (List.getElem?_mem hjh) hS (hF.2 hd j h hj hjh hS)⟩
  | await_all_358 hs1 i d =>
    exact ⟨hF.1, fun hd j h hj hjh hS =>
      hmono h (List.getElem?_mem hjh) hS (hF.2 hd j h hj hjh hS)⟩
  | _ => exact hF.elim

theorem ended_of_status {m : Machine L σ} {h : Hid} {s : Status}
    (hst : Coroutine.status m (m.handles h) = Except.ok s) (hs : s ≠ Status.Supended) :
    Ended m h := by
  obtain ⟨t, c, ht, _, hc, hcs⟩ := status_ok hst
  exact ⟨t, c, ht, hc, by rw [hcs]; exact hs⟩

theorem stackOf_resume_handle {m m1 : Machine L σ} {fib : Coroutine}
    (h : Coroutine.resume m fib = Except.ok m1) {c : Option Fid} (hne : m.stackOf c ≠ []) :
    m1.stackOf c = m.stackOf c := by
  unfold Coroutine.resume at h
  cases hf : fib._impl with
  | none => simp [hf] at h
  | some t => simp only [hf] at h; exact resume_stackOf h hne

theorem stackOf_yield_or_sleep {m m1 : Machine L σ} (h : yield_or_sleep m = Except.ok m1)
    {c : Option Fid} (hne : m.stackOf c ≠ []) : m1.stackOf c = m.stackOf c := by
  unfold yield_or_sleep at h
  split at h
  · rw [yield_eq] at h
    exact yield_until_stackOf h hne
  · injection h with h; subst h; rfl

/-- One step keeps the meaning of `all_done` in a call `await_all(hs)` of the fiber `c` on the
stack `rest`, for the members `S` whose handle variables are not changed; the call returns
only with those members ended, and they stay so. -/
theorem await_all_step (prog : L → σ → σ × Call L σ) {m m1 : Machine L σ} (S : Hid → Prop)
    (hs : List Hid) (rest : List (Frame L σ)) (c : Option Fid) (hI : LifeInv m)
    (hstep : step prog m = Except.ok m1)
    (hstable : ∀ h ∈ hs, S h → m1.handles h = m.handles h)
    (hinv : (∃ F : Frame L σ, m.stackOf c = F :: rest ∧ AwaitAllInv m S hs F) ∨
      (∀ h ∈ hs, S h → Ended m h)) :
    (∃ F : Frame L σ, m1.stackOf c = F :: rest ∧ AwaitAllInv m1 S hs F) ∨
      (∀ h ∈ hs, S h → Ended m1 h) := by
  have hmono : ∀ h ∈ hs, S h → Ended m h → Ended m1 h :=
    fun h hh hS he => ended_step prog hI hstep (hstable h hh hS) he
  rcases hinv with ⟨F, hF, hQ⟩ | hall
  swap
  · exact Or.inr (fun h hh hS => hmono h hh hS (hall h hh hS))
  by_cases hc : c = m.current
  swap
  · left
    refine ⟨F, ?_, awaitAllInv_mono hmono hQ⟩
    rw [step_other_stack prog hstep hc (by rw [hF]; simp)]; exact hF
  subst hc
  have hstk : m.stack = F :: rest := by rw [stack_eq_stackOf]; exact hF
  have hne : m.stack ≠ [] := by rw [hstk]; simp
  have hset : ∀ S : List (Frame L σ), (m.setStack S).stackOf m.current = S :=
    fun S => stackOf_setStack_self m S hne
  suffices hsuff : (∃ F1 : Frame L σ, m1.stackOf m.current = F1 :: rest ∧
      AwaitAllInv m S hs F1) ∨ (∀ h ∈ hs, S h → Ended m h) by
    rcases hsuff with ⟨F1, h1, h2⟩ | h2
    · exact Or.inl ⟨F1, h1, awaitAllInv_mono hmono h2⟩
    · exact Or.inr (fun h hh hS => hmono h hh hS (h2 h hh hS))
  unfold step at hstep
  simp only [hstk] at hstep
  cases F with
  | await_all_345 hs1 d =>
    obtain ⟨rfl, hd⟩ := hQ
    cases d with
    | true => exact Or.inr (hd rfl)
    | false =>
      simp only [Bool.false_eq_true, if_false] at hstep
      injection hstep with hstep; subst hstep
      exact Or.inl ⟨_, hset _, rfl, fun _ j h hj _ _ => absurd hj (Nat.not_lt_zero j)⟩
  | await_all_349 hs1 i d =>
    obtain ⟨rfl, hd⟩ := hQ
    simp only at hstep
    cases hi : hs1[i]? with
    | none =>
      simp only [hi] at hstep
      have hlen : hs1.length ≤ i := by
        by_contra hcon
        rw [List.getElem?_eq_getElem (Nat.lt_of_not_le hcon)] at hi
        cases hi
      cases d with
      | true =>
        simp only [if_true] at hstep
        injection hstep with hstep; subst hstep
        refine Or.inl ⟨_, hset _, rfl, fun _ h hh hS => ?_⟩
        obtain ⟨j, hj⟩ := List.mem_iff_getElem?.mp hh
        exact hd rfl j h (Nat.lt_of_lt_of_le (List.getElem?_eq_some.mp hj).1 hlen) hj hS
      | false =>
        simp only [Bool.false_eq_true, if_false] at hstep
        refine Or.inl ⟨Frame.await_all_345 hs1 false, ?_, rfl, fun h => by cases h⟩
        rw [stackOf_yield_or_sleep hstep (by rw [hset]; simp)]; exact hset _
    | some h =>
      simp only [hi] at hstep
      by_cases hself : m.current = (m.handles h)._impl
      · simp [hself] at hstep
      · simp only [hself, if_false] at hstep
        cases hst : Coroutine.status m (m.handles h) with
        | error e => simp [hst] at hstep
        | ok s =>
          simp only [hst] at hstep
          by_cases hsu : s = Status.Supended
          · simp only [hsu, if_true] at hstep
            refine Or.inl ⟨Frame.await_all_358 hs1 i d, ?_, rfl, hd⟩
            rw [stackOf_resume_handle hstep (by rw [hset]; simp)]; exact hset _
          · simp only [hsu, if_false] at hstep
            injection hstep with hstep; subst hstep
            refine Or.inl ⟨_, hset _, rfl, fun hdt j h1 hj hj1 hS1 => ?_⟩
            by_cases hji : j < i
            · exact hd hdt j h1 hji hj1 hS1
            · have : j = i := by omega
              subst this
              rw [hi] at hj1; injection hj1 with hj1; subst hj1
              exact ended_of_status hst hsu
  | await_all_358 hs1 i d =>
    obtain ⟨rfl, hd⟩ := hQ
    simp only at hstep
    cases hi : hs1[i]? with
    | none => simp [hi] at hstep
    | some h =>
      simp only [hi] at hstep
      cases hst : Coroutine.status m (m.handles h) with
      | error e => simp [hst] at hstep
      | ok s =>
        simp only [hst] at hstep
        injection hstep with hstep; subst hstep
        refine Or.inl ⟨_, hset _, rfl, fun hdt j h1 hj hj1 hS1 => ?_⟩
        by_cases hsu : s = Status.Supended
        · simp [hsu] at hdt
        · simp only [hsu, if_false] at hdt
          by_cases hji : j < i
          · exact hd hdt j h1 hji hj1 hS1
          · have : j = i := by omega
            subst this
            rw [hi] at hj1; injection hj1 with hj1; subst hj1
            exact ended_of_status hst hsu
  | _ => exact hQ.elim

end AwaitAll2

end Spark

namespace Spark

section Claims8

variable {L σ : Type}

theorem run_add (prog : L → σ → σ × Call L σ) :
    ∀ (a b : Nat) (m : Machine L σ), run prog (a + b) m =
      match run prog a m with
      | Except.ok m1 => run prog b m1
      | Except.error e => Except.error e := by
  intro a
  induction a with
  | zero => intro b m; simp [run]
  | succ a ih =>
    intro b m
    rw [Nat.succ_add]
    simp only [run]
    cases step prog m with
    | error e => rfl
    | ok m1 => exact ih b m1

theorem await_all_run (prog : L → σ → σ × Call L σ) (S : Hid → Prop) (hs : List Hid)
    (rest : List (Frame L σ)) (c : Option Fid) :
    ∀ (n : Nat) (m mn : Machine L σ), LifeInv m →
      ((∃ F : Frame L σ, m.stackOf c = F :: rest ∧ AwaitAllInv m S hs F) ∨
        (∀ h ∈ hs, S h → Ended m h)) →
      run prog n m = Except.ok mn →
      (∀ (k : Nat) (mk : Machine L σ), k ≤ n → run prog k m = Except.ok mk →
        ∀ h ∈ hs, S h → mk.handles h = m.handles h) →
      (∃ F : Frame L σ, mn.stackOf c = F :: rest ∧ AwaitAllInv mn S hs F) ∨
        (∀ h ∈ hs, S h → Ended mn h) := by
  intro n
  induction n with
  | zero =>
    intro m mn _ hinv hrun _
    simp only [run] at hrun
    injection hrun with hrun; subst hrun; exact hinv
  | succ n ih =>
    intro m mn hI hinv hrun hst
    simp only [run] at hrun
    cases hstep : step prog m with
    | error e => simp [hstep] at hrun
    | ok m1 =>
      simp only [hstep] at hrun
      have h1 : ∀ h ∈ hs, S h → m1.handles h = m.handles h :=
        hst 1 m1 (Nat.succ_le_succ (Nat.zero_le n)) (by simp [run, hstep])
      refine ih m1 mn (life_step prog ⟨hI, Kept.refl m⟩ hstep).1
        (await_all_step prog S hs rest c hI hstep h1 hinv) hrun ?_
      intro k mk hk hrk h hh hS
      rw [h1 h hh hS]
      refine hst (k + 1) mk (Nat.succ_le_succ hk) ?_ h hh hS
      simp only [run, hstep]; exact hrk

/-- C8, as amended. `await_all(targets)`. First part, for a call `await_all(hs)` issued in a
state the thread reaches from `init`: once the caller is back on the stack below the call,
every member whose handle variable was not emptied or rebound while the call was in
progress is `Finished` or `Excepted`. Second part, in any state inside the `for` loop at member `i`: a
member that has ended is passed over with no `resume()`, no switch and no effect but moving
the iterator; a `Supended` member gets exactly one `resume()`; and after that `resume()` the
loop moves to member `i + 1` without another attempt. -/
theorem await_all_terminal (prog : L → σ → σ × Call L σ) (hs : List Hid) :
    (∀ (entry : L) (mem0 : σ) (n0 n : Nat) (m0 mn : Machine L σ)
      (rest : List (Frame L σ)),
      run prog n0 (Machine.init entry mem0) = Except.ok m0 →
      m0.stack = Frame.await_all_345 hs false :: rest →
      run prog n m0 = Except.ok mn →
      mn.stackOf m0.current = rest →
      ∀ h ∈ hs,
        (∀ (k : Nat) (mk : Machine L σ), k ≤ n → run prog k m0 = Except.ok mk →
          mk.handles h = m0.handles h) →
        Ended mn h) ∧
    (∀ (m : Machine L σ) (rest : List (Frame L σ)) (i : Nat) (d : Bool) (h : Hid),
      m.stack = Frame.await_all_349 hs i d :: rest → hs[i]? = some h →
      (∀ (f : Fid) (c : CoroutineImpl L σ), (m.handles h)._impl = some f →
        m.fibers[f]? = some c → c._status ≠ Status.Supended → m.current ≠ some f →
        step prog m = Except.ok (m.setStack (Frame.await_all_349 hs (i + 1) d :: rest))) ∧
      (∀ (f : Fid) (c : CoroutineImpl L σ), (m.handles h)._impl = some f →
        m.fibers[f]? = some c → c._status = Status.Supended → m.current ≠ some f →
        step prog m =
          CoroutineImpl.resume (m.setStack (Frame.await_all_358 hs i d :: rest)) f)) ∧
    (∀ (m m1 : Machine L σ) (rest : List (Frame L σ)) (i : Nat) (d : Bool),
      m.stack = Frame.await_all_358 hs i d :: rest → step prog m = Except.ok m1 →
      ∃ d1 : Bool, m1 = m.setStack (Frame.await_all_349 hs (i + 1) d1 :: rest)) := by
  refine ⟨?_, ?_, ?_⟩
  · intro entry mem0 n0 n m0 mn rest hreach hstart hrun hret h hh hstable
    have hI : LifeInv m0 := run_reach_life prog hreach
    have h0 : m0.stackOf m0.current = Frame.await_all_345 hs false :: rest := by
      rw [← stack_eq_stackOf]; exact hstart
    rcases await_all_run prog
      (fun x => ∀ (k : Nat) (mk : Machine L σ), k ≤ n → run prog k m0 = Except.ok mk →
        mk.handles x = m0.handles x)
      hs rest m0.current n m0 mn hI
      (Or.inl ⟨_, h0, rfl, fun h => by cases h⟩) hrun
      (fun k mk hk hrk x _ hx => hx k mk hk hrk) with ⟨F, hF, _⟩ | hall
    · rw [hret] at hF
      exact absurd hF.symm (List.cons_ne_self F rest)
    · exact hall h hh hstable
  · intro m rest i d h hstk hi
    constructor
    · intro f c hf hc hst hcur
      have hself : ¬ m.current = (m.handles h)._impl := by rw [hf]; exact hcur
      unfold step
      simp only [hstk, hi, hself, if_false, status_eq hf hcur hc, hst]
    · intro f c hf hc hst hcur
      have hself : ¬ m.current = (m.handles h)._impl := by rw [hf]; exact hcur
      unfold step
      simp only [hstk, hi, hself, if_false, status_eq hf hcur hc, hst, if_true]
      unfold Coroutine.resume
      simp only [hf]
  · intro m m1 rest i d hstk hstep
    unfold step at hstep
    simp only [hstk] at hstep
    cases hi : hs[i]? with
    | none => simp [hi] at hstep
    | some h =>
      simp only [hi] at hstep
      cases hst : Coroutine.status m (m.handles h) with
      | error e => simp [hst] at hstep
      | ok s =>
        simp only [hst] at hstep
        injection hstep with hstep
        exact ⟨_, hstep.symm⟩

end Claims8

end Spark

namespace Example

open Spark

set_option maxRecDepth 100000 in
theorem three_tasks_facts :
    (match run three_tasks 4 (Machine.init 0 0), run three_tasks 43 (Machine.init 0 0) with
      | Except.ok m0, Except.ok mn =>
        decide (m0.current = none) &&
          (match m0.major_stack with
            | [Frame.await_all_345 hs false, Frame.user 4] => decide (hs = [0, 1, 2])
            | _ => false) &&
          (match mn.major_stack with
            | [Frame.user 4] => true
            | _ => false) &&
          decide (mn.current = none) &&
          decide (mn.fibers.map (fun c => c._status) =
            [Status.Finished, Status.Finished, Status.Excepted]) &&
          decide (mn.trace.filterMap
              (fun e => match e with
                | Event.cond f _ => some f
                | _ => none) = [0, 1, 2, 0, 1, 2, 1, 2, 1]) &&
          (List.range 40).all (fun k => [0, 1, 2].all (fun h =>
            match run three_tasks (4 + k) (Machine.init 0 0) with
            | Except.ok mk => decide (mk.handles h = m0.handles h)
            | Except.error _ => true))
      | _, _ => false) = true := by
  decide

end Example

namespace Spark

set_option maxRecDepth 100000 in
/-- Witness of C8: the major fiber awaits three coroutines, one finishing after one `yield()`,
one after three, one raising after two. The call returns 39 steps after it was issued, with
all three ended; the resume attempts were on the members 0, 1, 2, then 0, 1, 2, then 1, 2,
then 1: none on a member that had ended. -/
theorem await_all_terminal_witness :
    ∃ (m0 mn : Machine Nat Nat),
      run Example.three_tasks 4 (Machine.init 0 0) = Except.ok m0 ∧
      run Example.three_tasks 39 m0 = Except.ok mn ∧
      mn.fibers.map (fun c => c._status) =
        [Status.Finished, Status.Finished, Status.Excepted] ∧
      mn.trace.filterMap (fun e => match e with
        | Event.cond f _ => some f
        | _ => none) = [0, 1, 2, 0, 1, 2, 1, 2, 1] ∧
      ∀ h ∈ [0, 1, 2], Ended mn h := by
  have h := Example.three_tasks_facts
  cases hr0 : run Example.three_tasks 4 (Machine.init 0 0) with
  | error e => rw [hr0] at h; cases h
  | ok m0 =>
    cases hr43 : run Example.three_tasks 43 (Machine.init 0 0) with
    | error e => rw [hr0, hr43] at h; cases h
    | ok mn =>
      rw [hr0, hr43] at h
      simp only [Bool.and_eq_true, decide_eq_true_eq, List.all_eq_true] at h
      obtain ⟨⟨⟨⟨⟨⟨h1, h2⟩, h3⟩, h4⟩, h5⟩, h6⟩, h7⟩ := h
      have hadd : ∀ k : Nat, run Example.three_tasks (4 + k) (Machine.init 0 0) =
          run Example.three_tasks k m0 := by
        intro k
        rw [run_add, hr0]
      have hrun : run Example.three_tasks 39 m0 = Except.ok mn := by
        rw [← hadd 39]; exact hr43
      have hstart : m0.stack =
          Frame.await_all_345 [0, 1, 2] false :: [Frame.user 4] := by
        rw [stack_eq_stackOf, h1]
        show m0.major_stack = _
        split at h2
        · rename_i hs heq
          rw [heq, of_decide_eq_true h2]
        · cases h2
      have hret : mn.stackOf m0.current = [Frame.user 4] := by
        rw [h1]
        show mn.major_stack = _
        split at h3
        · rename_i heq; exact heq
        · cases h3
      refine ⟨m0, mn, rfl, hrun, h5, h6, ?_⟩
      intro hd hhd
      refine (await_all_terminal Example.three_tasks [0, 1, 2]).1 0 0 4 39 m0 mn
        [Frame.user 4] hr0 hstart hrun hret hd hhd ?_
      intro k mk hk hrk
      have := h7 k (List.mem_range.mpr (Nat.lt_succ_of_le hk)) hd hhd
      rw [hadd k, hrk] at this
      exact of_decide_eq_true this

end Spark

namespace Spark

section Pass

variable {L σ : Type}

theorem setStack_major {m : Machine L σ} (hcur : m.current = none) (s : List (Frame L σ)) :
    m.setStack s = { m with major_stack := s } := by
  unfold Machine.setStack
  simp only [hcur]

theorem stack_major {m : Machine L σ} (hcur : m.current = none) : m.stack = m.major_stack := by
  unfold Machine.stack
  simp only [hcur]

theorem run_two (prog : L → σ → σ × Call L σ) {m m1 m2 : Machine L σ}
    (h1 : step prog m = Except.ok m1) (h2 : step prog m1 = Except.ok m2) :
    run prog 2 m = Except.ok m2 := by
  simp only [run, h1, h2]

theorem run_three (prog : L → σ → σ × Call L σ) {m m1 m2 m3 : Machine L σ}
    (h1 : step prog m = Except.ok m1) (h2 : step prog m1 = Except.ok m2)
    (h3 : step prog m2 = Except.ok m3) : run prog 3 m = Except.ok m3 := by
  simp only [run, h1, h2, h3]

theorem run_trans (prog : L → σ → σ × Call L σ) {a b : Nat} {m m1 m2 : Machine L σ}
    (h1 : run prog a m = Except.ok m1) (h2 : run prog b m1 = Except.ok m2) :
    run prog (a + b) m = Except.ok m2 := by
  rw [run_add, h1]; exact h2

/-- The pass at an entry whose context has ended: two steps erase the entry and leave the
iterator where it is. -/
theorem pass_terminal (prog : L → σ → σ × Call L σ) {m : Machine L σ} {i : Nat}
    {rest : List (Frame L σ)} {f : Fid} {c : CoroutineImpl L σ}
    (hcur : m.current = none) (hmaj : m.major_stack = Frame.mgr_yield i :: rest)
    (hl : m._fiber_list[i]? = some { _impl := some f }) (hc : m.fibers[f]? = some c)
    (hs : c._status ≠ Status.Supended) :
    run prog 2 m = Except.ok { m with _fiber_list := m._fiber_list.eraseIdx i } := by
  have hst : Coroutine.status m { _impl := some f } = Except.ok c._status :=
    status_eq rfl (by rw [hcur]; simp) hc
  have s1 : step prog m =
      Except.ok { m with major_stack := Frame.mgr_yield_181 i :: rest } := by
    unfold step
    simp only [stack_major hcur, hmaj, hl, hst, hs, if_false, setStack_major hcur]
  generalize hx : ({ m with major_stack := Frame.mgr_yield_181 i :: rest } : Machine L σ) = x
    at s1
  have hxc : x.current = none := by rw [← hx]; exact hcur
  have s2 : step prog x =
      Except.ok { x with _fiber_list := x._fiber_list.eraseIdx i,
                         major_stack := Frame.mgr_yield i :: rest } := by
    have hst2 : Coroutine.status x { _impl := some f } = Except.ok c._status :=
      status_eq rfl (by simp [hxc]) (by rw [← hx]; exact hc)
    have hxl : x._fiber_list[i]? = some { _impl := some f } := by rw [← hx]; exact hl
    have hxm : x.major_stack = Frame.mgr_yield_181 i :: rest := by rw [← hx]
    unfold step
    simp only [stack_major hxc, hxm, hxl, hst2, ne_eq, hs, not_false_eq_true, if_true]
    rw [setStack_major (by exact hxc)]
  rw [run_two prog s1 s2, ← hx]
  simp [hmaj]

/-- The pass at a `Supended` entry whose condition is false: two steps evaluate the condition
once and move the iterator on; nothing else changes. -/
theorem pass_gated (prog : L → σ → σ × Call L σ) {m : Machine L σ} {i : Nat}
    {rest : List (Frame L σ)} {f : Fid} {c : CoroutineImpl L σ}
    (hcur : m.current = none) (hmaj : m.major_stack = Frame.mgr_yield i :: rest)
    (hl : m._fiber_list[i]? = some { _impl := some f }) (hc : m.fibers[f]? = some c)
    (hs : c._status = Status.Supended) (hp : (c._resume_condition m.mem).2 = false) :
    run prog 2 m =
      Except.ok { m with mem := (c._resume_condition m.mem).1,
                         trace := m.trace ++ [Event.cond f false],
                         major_stack := Frame.mgr_yield (i + 1) :: rest } := by
  have hst : Coroutine.status m { _impl := some f } = Except.ok c._status :=
    status_eq rfl (by rw [hcur]; simp) hc
  have s1 : step prog m =
      Except.ok { m with mem := (c._resume_condition m.mem).1,
                         trace := m.trace ++ [Event.cond f false],
                         major_stack := Frame.mgr_yield_181 i :: rest } := by
    unfold step
    simp only [stack_major hcur, hmaj, hl, hst, hs, if_true, setStack_major hcur]
    unfold Coroutine.resume
    simp only
    exact resume_gated { m with major_stack := Frame.mgr_yield_181 i :: rest } f hc
      (by simp [hcur]) hs hp
  generalize hx : ({ m with mem := (c._resume_condition m.mem).1,
                            trace := m.trace ++ [Event.cond f false],
                            major_stack := Frame.mgr_yield_181 i :: rest } : Machine L σ) = x
    at s1
  have hxc : x.current = none := by rw [← hx]; exact hcur
  have s2 : step prog x = Except.ok { x with major_stack := Frame.mgr_yield (i + 1) :: rest } := by
    have hst2 : Coroutine.status x { _impl := some f } = Except.ok c._status :=
      status_eq rfl (by simp [hxc]) (by rw [← hx]; exact hc)
    have hxl : x._fiber_list[i]? = some { _impl := some f } := by rw [← hx]; exact hl
    have hxm : x.major_stack = Frame.mgr_yield_181 i :: rest := by rw [← hx]
    unfold step
    simp only [stack_major hxc, hxm, hxl, hst2, hs, ne_eq, not_true_eq_false, if_false,
      setStack_major hxc]
  rw [run_two prog s1 s2, ← hx]

end Pass

end Spark

namespace Spark

section Pass2

variable {L σ : Type}

/-- A running context that the major fiber resumed and whose next library call gives up
control: one step later the major fiber runs again, and only that context, the user memory
and the log have changed. -/
theorem seg_leave (prog : L → σ → σ × Call L σ) {x : Machine L σ} {f : Fid}
    {c : CoroutineImpl L σ} {pc : L} {rs : List (Frame L σ)}
    (hcur : x.current = some f) (hc : x.fibers[f]? = some c)
    (hcf : c._fiber_come_from = some none) (hstk : c.stack = Frame.user pc :: rs)
    (hleave : (prog pc x.mem).2.isLeave = true) :
    ∃ (x1 : Machine L σ) (c1 : CoroutineImpl L σ), step prog x = Except.ok x1 ∧
      x1.current = none ∧ x1.major_stack = x.major_stack ∧
      x1._fiber_list = x._fiber_list ∧
      x1.trace = x.trace ++ [Event.switch (some f) none] ∧ x1.fibers[f]? = some c1 ∧
      ∀ g : Fid, g ≠ f → x1.fibers[g]? = x.fibers[g]? := by
  have hxs : x.stack = Frame.user pc :: rs := by
    simp [Machine.stack, hcur, hc, hstk]
  rw [step_user prog hxs]
  generalize hx0 : ({ x with mem := (prog pc x.mem).1 } : Machine L σ) = x0
  have hcur0 : x0.current = some f := by rw [← hx0]; exact hcur
  have hc0 : x0.fibers[f]? = some c := by rw [← hx0]; exact hc
  have hmaj0 : x0.major_stack = x.major_stack := by rw [← hx0]
  have hl0 : x0._fiber_list = x._fiber_list := by rw [← hx0]
  have htr0 : x0.trace = x.trace := by rw [← hx0]
  have hfib0 : ∀ g : Fid, x0.fibers[g]? = x.fibers[g]? := by intro g; rw [← hx0]
  have hend : ∀ st : Status, ∃ (x1 : Machine L σ) (c1 : CoroutineImpl L σ),
      CoroutineImpl.do_fiber_work x0 f st = Except.ok x1 ∧
      x1.current = none ∧ x1.major_stack = x.major_stack ∧
      x1._fiber_list = x._fiber_list ∧
      x1.trace = x.trace ++ [Event.switch (some f) none] ∧ x1.fibers[f]? = some c1 ∧
      ∀ g : Fid, g ≠ f → x1.fibers[g]? = x.fibers[g]? := by
    intro st
    obtain ⟨x1, h1, h2, _, _, h5, h6, h7, h8⟩ := do_fiber_work_switch x0 f st hcur0 hc0 hcf
    refine ⟨x1, { c with _status := st, stack := [], _resume_condition := always_true }, h1, h2,
      h6.trans hmaj0, h5.trans hl0, by rw [h7, htr0], by rw [h8 f]; simp, ?_⟩
    intro g hg
    rw [h8 g]; simp only [hg, if_false]; exact hfib0 g
  have hsus : ∀ (p : σ → σ × Bool) (k : L), ∃ (x1 : Machine L σ) (c1 : CoroutineImpl L σ),
      CoroutineImpl.yield_until (x0.setStack (Frame.user k :: rs)) f p = Except.ok x1 ∧
      x1.current = none ∧ x1.major_stack = x.major_stack ∧
      x1._fiber_list = x._fiber_list ∧
      x1.trace = x.trace ++ [Event.switch (some f) none] ∧ x1.fibers[f]? = some c1 ∧
      ∀ g : Fid, g ≠ f → x1.fibers[g]? = x.fibers[g]? := by
    intro p k
    have hcs : (x0.setStack (Frame.user k :: rs)).fibers[f]? =
        some { c with stack := Frame.user k :: rs } := by
      rw [setStack_fibers]; simp [hcur0, hc0]
    obtain ⟨x1, h1, h2, _, _, h5, h6, h7, h8⟩ :=
      yield_until_switch (x0.setStack (Frame.user k :: rs)) f (r := none) p
        (by simp [hcur0]) hcs hcf
    refine ⟨x1, { c with stack := Frame.user k :: rs, _resume_condition := p }, h1, h2, ?_, ?_,
      ?_, by rw [h8 f]; simp, ?_⟩
    · rw [h6, setStack_major_stack]; simp [hcur0, hmaj0]
    · rw [h5]; simp [hl0]
    · rw [h7]; simp [htr0]
    · intro g hg
      rw [h8 g]; simp only [hg, if_false]
      rw [setStack_fibers_other _ _ (by rw [hcur0]; intro e; injection e with e; exact hg e.symm)]
      exact hfib0 g
  revert hleave
  cases (prog pc x.mem).2 with
  | ret => intro _; rw [call_ret_fiber rs hcur0]; exact hend _
  | raise => intro _; rw [call_raise_fiber rs hcur0]; exact hend _
  | yield k =>
    intro _; rw [call_yield_fiber rs k hcur0]
    rw [yield_eq]; exact hsus _ k
  | yield_until p k => intro _; rw [call_yield_until_fiber rs p k hcur0]; exact hsus p k
  | resume _ _ => intro h; cases h
  | status _ _ => intro h; cases h
  | await _ _ => intro h; cases h
  | await_all _ _ => intro h; cases h
  | manage _ _ => intro h; cases h
  | go _ _ _ => intro h; cases h

/-- The pass at a `Supended` entry whose condition is true and whose context gives up control
with its next library call: two steps later the major fiber is back in the pass, right after
`fib.resume()`. -/
theorem pass_enter (prog : L → σ → σ × Call L σ) {m : Machine L σ} {i : Nat}
    {rest : List (Frame L σ)} {f : Fid} {c : CoroutineImpl L σ} {pc : L}
    {rs : List (Frame L σ)}
    (hcur : m.current = none) (hmaj : m.major_stack = Frame.mgr_yield i :: rest)
    (hl : m._fiber_list[i]? = some { _impl := some f }) (hc : m.fibers[f]? = some c)
    (hs : c._status = Status.Supended) (hp : (c._resume_condition m.mem).2 = true)
    (hstk : c.stack = Frame.user pc :: rs) (hleave : ∀ s : σ, (prog pc s).2.isLeave = true) :
    ∃ (x1 : Machine L σ) (c1 : CoroutineImpl L σ), run prog 2 m = Except.ok x1 ∧
      x1.current = none ∧ x1.major_stack = Frame.mgr_yield_181 i :: rest ∧
      x1._fiber_list = m._fiber_list ∧
      x1.trace = m.trace ++ [Event.cond f true, Event.switch none (some f),
        Event.switch (some f) none] ∧
      x1.fibers[f]? = some c1 ∧ ∀ g : Fid, g ≠ f → x1.fibers[g]? = m.fibers[g]? := by
  have hst : Coroutine.status m { _impl := some f } = Except.ok c._status :=
    status_eq rfl (by rw [hcur]; simp) hc
  generalize hy : ({ m with major_stack := Frame.mgr_yield_181 i :: rest } : Machine L σ) = y
  have hyc : y.current = none := by rw [← hy]; exact hcur
  have hyf : y.fibers[f]? = some c := by rw [← hy]; exact hc
  have hym : y.mem = m.mem := by rw [← hy]
  obtain ⟨x, h1, h2, h3, _, h5, h6, h7, h8, h9⟩ :=
    resume_switch y f hyf (by simp [hyc]) hs (by rw [hym]; exact hp)
  have s1 : step prog m = Except.ok x := by
    unfold step
    simp only [stack_major hcur, hmaj, hl, hst, hs, if_true, setStack_major hcur]
    unfold Coroutine.resume
    simp only
    rw [hy]; exact h1
  obtain ⟨x1, c1, g1, g2, g3, g4, g5, g6, g7⟩ :=
    seg_leave prog (x := x) (f := f) (c := { c with _fiber_come_from := some none }) h2
      (by rw [h9 f]; simp [hyc]) rfl hstk (hleave _)
  refine ⟨x1, c1, run_two prog s1 g1, g2, ?_, ?_, ?_, g6, ?_⟩
  · rw [g3, h6, ← hy]
  · rw [g4, h5, ← hy]
  · rw [g5, h7, hyc, ← hy]; simp
  · intro g hg
    rw [g7 g hg, h9 g]; simp only [hg, if_false]; rw [← hy]

/-- The pass right after `fib.resume()` at an entry that is still `Supended`: the iterator moves
on and the entry stays. -/
theorem pass_after_keep (prog : L → σ → σ × Call L σ) {x : Machine L σ} {i : Nat}
    {rest : List (Frame L σ)} {f : Fid} {c : CoroutineImpl L σ}
    (hcur : x.current = none) (hmaj : x.major_stack = Frame.mgr_yield_181 i :: rest)
    (hl : x._fiber_list[i]? = some { _impl := some f }) (hc : x.fibers[f]? = some c)
    (hs : c._status = Status.Supended) :
    step prog x = Except.ok { x with major_stack := Frame.mgr_yield (i + 1) :: rest } := by
  have hst : Coroutine.status x { _impl := some f } = Except.ok c._status :=
    status_eq rfl (by rw [hcur]; simp) hc
  unfold step
  simp only [stack_major hcur, hmaj, hl, hst, hs, ne_eq, not_true_eq_false, if_false,
    setStack_major hcur]

/-- The pass right after `fib.resume()` at an entry that has ended: the entry is erased and the
iterator stays. -/
theorem pass_after_erase (prog : L → σ → σ × Call L σ) {x : Machine L σ} {i : Nat}
    {rest : List (Frame L σ)} {f : Fid} {c : CoroutineImpl L σ}
    (hcur : x.current = none) (hmaj : x.major_stack = Frame.mgr_yield_181 i :: rest)
    (hl : x._fiber_list[i]? = some { _impl := some f }) (hc : x.fibers[f]? = some c)
    (hs : c._status ≠ Status.Supended) :
    step prog x =
      Except.ok { x with _fiber_list := x._fiber_list.eraseIdx i,
                         major_stack := Frame.mgr_yield i :: rest } := by
  have hst : Coroutine.status x { _impl := some f } = Except.ok c._status :=
    status_eq rfl (by rw [hcur]; simp) hc
  unfold step
  simp only [stack_major hcur, hmaj, hl, hst, ne_eq, hs, not_false_eq_true, if_true]
  rw [setStack_major (by exact hcur)]

/-- The pass at a `Supended` entry: the step is the one call `fib.resume()` of line 179, made
with the pass waiting at line 181. -/
theorem pass_attempt (prog : L → σ → σ × Call L σ) {m : Machine L σ} {i : Nat}
    {rest : List (Frame L σ)} {f : Fid} {c : CoroutineImpl L σ}
    (hcur : m.current = none) (hmaj : m.major_stack = Frame.mgr_yield i :: rest)
    (hl : m._fiber_list[i]? = some { _impl := some f }) (hc : m.fibers[f]? = some c)
    (hs : c._status = Status.Supended) :
    step prog m =
      CoroutineImpl.resume { m with major_stack := Frame.mgr_yield_181 i :: rest } f := by
  have hst : Coroutine.status m { _impl := some f } = Except.ok c._status :=
    status_eq rfl (by rw [hcur]; simp) hc
  unfold step
  simp only [stack_major hcur, hmaj, hl, hst, hs, if_true, setStack_major hcur]
  unfold Coroutine.resume
  simp only

end Pass2

end Spark

namespace Spark

section Pass3

variable {L σ : Type}

theorem isSupended_eq {m : Machine L σ} {e : Coroutine} {f : Fid} {c : CoroutineImpl L σ}
    (he : e._impl = some f) (hc : m.fibers[f]? = some c) :
    isSupended m e = decide (c._status = Status.Supended) := by
  simp [isSupended, he, hc]

theorem isSupended_congr {m m1 : Machine L σ} {e : Coroutine}
    (h : ∀ f : Fid, e._impl = some f → m1.fibers[f]? = m.fibers[f]?) :
    isSupended m1 e = isSupended m e := by
  unfold isSupended
  cases he : e._impl with
  | none => rfl
  | some f => simp only [h f he]

theorem getElem?_mid (pre post : List Coroutine) (e : Coroutine) :
    (pre ++ e :: post)[pre.length]? = some e := by
  rw [List.getElem?_append_right (Nat.le_refl _)]
  simp

theorem eraseIdx_mid (pre post : List Coroutine) (e : Coroutine) :
    (pre ++ e :: post).eraseIdx pre.length = pre ++ post := by
  rw [List.eraseIdx_append_of_length_le (Nat.le_refl _)]
  simp

/-- The pass at one entry whose context gives up control with its next library call: some
steps later the major fiber is at the loop head again, with the entry kept exactly when it is
still `Supended`; one attempt was made exactly when it was `Supended` before. -/
theorem pass_head (prog : L → σ → σ × Call L σ) {m : Machine L σ} {rest : List (Frame L σ)}
    {pre post : List Coroutine} {e : Coroutine} {f : Fid} {c : CoroutineImpl L σ}
    (hcur : m.current = none) (hmaj : m.major_stack = Frame.mgr_yield pre.length :: rest)
    (hlist : m._fiber_list = pre ++ e :: post) (he : e._impl = some f)
    (hc : m.fibers[f]? = some c)
    (hsimple : c._status = Status.Supended →
      ∃ (pc : L) (rs : List (Frame L σ)), c.stack = Frame.user pc :: rs ∧
        ∀ s : σ, (prog pc s).2.isLeave = true) :
    ∃ (a : Nat) (m2 : Machine L σ) (τ0 : List Event) (pre1 : List Coroutine),
      run prog a m = Except.ok m2 ∧ m2.current = none ∧
      m2.major_stack = Frame.mgr_yield pre1.length :: rest ∧
      m2._fiber_list = pre1 ++ post ∧ m2.trace = m.trace ++ τ0 ∧
      (∀ g : Fid, g ≠ f → m2.fibers[g]? = m.fibers[g]?) ∧
      (∀ ev ∈ τ0, EventOf f ev) ∧
      attempts τ0 = (if isSupended m e then [f] else []) ∧
      pre1 = (if isSupended m2 e then pre ++ [e] else pre) ∧
      (Event.cond f false ∈ τ0 →
        Event.switch none (some f) ∉ τ0 ∧ m2.fibers[f]? = m.fibers[f]?) := by
  have hee : e = { _impl := some f } := coroutine_eta he
  have hl : m._fiber_list[pre.length]? = some { _impl := some f } := by
    rw [hlist, ← hee]; exact getElem?_mid pre post e
  have herase : m._fiber_list.eraseIdx pre.length = pre ++ post := by
    rw [hlist]; exact eraseIdx_mid pre post e
  by_cases hs : c._status = Status.Supended
  · have hsm : isSupended m e = true := by rw [isSupended_eq he hc]; simp [hs]
    by_cases hp : (c._resume_condition m.mem).2 = true
    · obtain ⟨pc, rs, hstk, hleave⟩ := hsimple hs
      obtain ⟨x1, c1, r1, r2, r3, r4, r5, r6, r7⟩ :=
        pass_enter prog hcur hmaj hl hc hs hp hstk hleave
      have hl1 : x1._fiber_list[pre.length]? = some { _impl := some f } := by rw [r4]; exact hl
      have hev : ∀ ev ∈ [Event.cond f true, Event.switch none (some f),
          Event.switch (some f) none], EventOf f ev := by
        intro ev hev
        simp only [List.mem_cons, List.mem_singleton, List.not_mem_nil, or_false] at hev
        rcases hev with rfl | rfl | rfl
        · exact Or.inl rfl
        · exact Or.inr (Or.inr (Or.inl rfl))
        · exact Or.inr (Or.inr (Or.inr rfl))
      by_cases hs1 : c1._status = Status.Supended
      · have s3 := pass_after_keep prog r2 r3 hl1 r6 hs1
        have hsm2 : ∀ y : Machine L σ, y.fibers = x1.fibers → isSupended y e = true := by
          intro y hy
          rw [isSupended_eq he (c := c1) (by rw [hy]; exact r6)]; simp [hs1]
        refine ⟨2 + 1,
          { x1 with major_stack := Frame.mgr_yield (pre.length + 1) :: rest },
          [Event.cond f true, Event.switch none (some f), Event.switch (some f) none],
          pre ++ [e], run_trans prog r1 (by simp only [run, s3]), r2, ?_, ?_,
          r5, r7, hev, ?_, ?_, ?_⟩
        · simp
        · show x1._fiber_list = _
          rw [r4, hlist]; simp
        · simp [attempts, hsm]
        · simp [hsm2]
        · intro hmem; simp at hmem
      · have s3 := pass_after_erase prog r2 r3 hl1 r6 hs1
        have hsm2 : ∀ y : Machine L σ, y.fibers = x1.fibers → isSupended y e = false := by
          intro y hy
          rw [isSupended_eq he (c := c1) (by rw [hy]; exact r6)]; simp [hs1]
        refine ⟨2 + 1,
          { x1 with
            _fiber_list := x1._fiber_list.eraseIdx pre.length
            major_stack := Frame.mgr_yield pre.length :: rest },
          [Event.cond f true, Event.switch none (some f), Event.switch (some f) none],
          pre, run_trans prog r1 (by simp only [run, s3]), r2, rfl, ?_,
          r5, r7, hev, ?_, ?_, ?_⟩
        · show x1._fiber_list.eraseIdx pre.length = _
          rw [r4, herase]
        · simp [attempts, hsm]
        · simp [hsm2]
        · intro hmem; simp at hmem
    · have hpf : (c._resume_condition m.mem).2 = false := by simpa using hp
      have hsm2 : ∀ y : Machine L σ, y.fibers = m.fibers → isSupended y e = true := by
        intro y hy
        rw [isSupended_eq he (c := c) (by rw [hy]; exact hc)]; simp [hs]
      refine ⟨2,
        { m with
          mem := (c._resume_condition m.mem).1
          trace := m.trace ++ [Event.cond f false]
          major_stack := Frame.mgr_yield (pre.length + 1) :: rest },
        [Event.cond f false], pre ++ [e], pass_gated prog hcur hmaj hl hc hs hpf,
        hcur, ?_, ?_, rfl, fun g _ => rfl, ?_, ?_, ?_, ?_⟩
      · simp
      · show m._fiber_list = _
        rw [hlist]; simp
      · intro ev hev
        rw [List.mem_singleton] at hev
        exact Or.inr (Or.inl hev)
      · simp [attempts, hsm]
      · simp [hsm2]
      · intro _
        exact ⟨by simp, rfl⟩
  · have hsm : isSupended m e = false := by rw [isSupended_eq he hc]; simp [hs]
    have hsm2 : ∀ y : Machine L σ, y.fibers = m.fibers → isSupended y e = false := by
      intro y hy
      rw [isSupended_eq he (c := c) (by rw [hy]; exact hc)]; simp [hs]
    refine ⟨2, { m with _fiber_list := m._fiber_list.eraseIdx pre.length }, [], pre,
      pass_terminal prog hcur hmaj hl hc hs, hcur, hmaj, ?_, by simp,
      fun g _ => rfl, by simp, ?_, ?_, ?_⟩
    · show m._fiber_list.eraseIdx pre.length = _
      rw [herase]
    · simp [attempts, hsm]
    · simp [hsm2]
    · intro hmem; simp at hmem

end Pass3

end Spark

namespace Spark

section Pass4

variable {L σ : Type}

theorem eventOf_cond {g g1 : Fid} {b : Bool} (h : EventOf g1 (Event.cond g b)) : g1 = g := by
  simp only [EventOf, Event.cond.injEq, reduceCtorEq, or_false] at h
  rcases h with h | h
  · exact h.1.symm
  · exact h.1.symm

theorem eventOf_switch_in {g g1 : Fid} (h : EventOf g1 (Event.switch none (some g))) :
    g1 = g := by
  simp only [EventOf, reduceCtorEq, Event.switch.injEq, Option.some.injEq, true_and,
    false_or, and_false, or_false] at h
  exact h.symm

theorem attempts_append (τ1 τ2 : List Event) :
    attempts (τ1 ++ τ2) = attempts τ1 ++ attempts τ2 := by
  simp [attempts, List.filterMap_append]

/-- A whole pass over entries whose contexts give up control with their next library call,
from the loop head with the entries `pre` behind the iterator and the entries `post` ahead. -/
theorem pass_simple (prog : L → σ → σ × Call L σ) (rest : List (Frame L σ)) :
    ∀ (post pre : List Coroutine) (m : Machine L σ), m.current = none →
      m.major_stack = Frame.mgr_yield pre.length :: rest → m._fiber_list = pre ++ post →
      (∀ e ∈ post, Simple prog m e) → (post.map (fun e => e._impl)).Nodup →
      ∃ (n : Nat) (m1 : Machine L σ) (τ : List Event), run prog n m = Except.ok m1 ∧
        m1.current = none ∧ m1.major_stack = rest ∧ m1.trace = m.trace ++ τ ∧
        attempts τ = (post.filter (isSupended m)).filterMap (fun e => e._impl) ∧
        m1._fiber_list = pre ++ post.filter (isSupended m1) ∧
        (∀ g : Fid, (∀ e ∈ post, e._impl ≠ some g) → m1.fibers[g]? = m.fibers[g]?) ∧
        (∀ ev ∈ τ, ∃ g : Fid, (∃ e ∈ post, e._impl = some g) ∧ EventOf g ev) ∧
        (∀ g : Fid, Event.cond g false ∈ τ →
          Event.switch none (some g) ∉ τ ∧ m1.fibers[g]? = m.fibers[g]?) := by
  intro post
  induction post with
  | nil =>
    intro pre m hcur hmaj hlist _ _
    have hl : m._fiber_list[pre.length]? = none := by
      rw [hlist]; simp
    refine ⟨1, { m with major_stack := rest }, [], ?_, hcur, rfl, by simp, by simp [attempts],
      by simp [hlist], fun g _ => rfl, by simp, by simp⟩
    have s1 : step prog m = Except.ok { m with major_stack := rest } := by
      unfold step
      simp only [stack_major hcur, hmaj, hl, setStack_major hcur]
    simp only [run, s1]
  | cons e post ih =>
    intro pre m hcur hmaj hlist hsimple hnodup
    obtain ⟨f, c, he, hc, hsim⟩ := hsimple e (List.mem_cons_self _ _)
    obtain ⟨a, m2, τ0, pre1, h1, h2, h3, h4, h5, h6, h7, h8, h9, h10⟩ :=
      pass_head prog hcur hmaj hlist he hc hsim
    rw [List.map_cons, List.nodup_cons] at hnodup
    obtain ⟨hnot, hnodup1⟩ := hnodup
    have hfpost : ∀ e1 ∈ post, e1._impl ≠ some f := by
      intro e1 he1 heq
      apply hnot
      rw [he, ← heq]
      exact List.mem_map_of_mem _ he1
    have hsame : ∀ e1 ∈ post, ∀ g : Fid, e1._impl = some g → m2.fibers[g]? = m.fibers[g]? := by
      intro e1 he1 g hg
      apply h6
      rintro rfl
      exact hfpost e1 he1 hg
    have hsimple2 : ∀ e1 ∈ post, Simple prog m2 e1 := by
      intro e1 he1
      obtain ⟨f1, c1, hf1, hc1, hs1⟩ := hsimple e1 (List.mem_cons_of_mem _ he1)
      exact ⟨f1, c1, hf1, by rw [hsame e1 he1 f1 hf1]; exact hc1, hs1⟩
    obtain ⟨n1, m1, τ1, k1, k2, k3, k4, k5, k6, k7, k8, k9⟩ :=
      ih pre1 m2 h2 h3 h4 hsimple2 hnodup1
    have hfilt : post.filter (isSupended m2) = post.filter (isSupended m) := by
      apply List.filter_congr
      intro e1 he1
      exact isSupended_congr (fun g hg => hsame e1 he1 g hg)
    have hf12 : m1.fibers[f]? = m2.fibers[f]? := k7 f hfpost
    have hsup12 : isSupended m1 e = isSupended m2 e := by
      apply isSupended_congr
      intro g hg
      rw [he] at hg; injection hg with hg; subst hg
      exact hf12
    refine ⟨a + n1, m1, τ0 ++ τ1, run_trans prog h1 k1, k2, k3, ?_, ?_, ?_, ?_, ?_, ?_⟩
    · rw [k4, h5, List.append_assoc]
    · rw [attempts_append, h8, k5, hfilt]
      cases hse : isSupended m e with
      | true => simp [List.filter_cons, hse, he]
      | false => simp [List.filter_cons, hse]
    · rw [k6, h9]
      cases hse : isSupended m2 e with
      | true => simp [List.filter_cons, hsup12, hse]
      | false => simp [List.filter_cons, hsup12, hse]
    · intro g hg
      have hgf : g ≠ f := by
        rintro rfl
        exact hg e (List.mem_cons_self _ _) he
      rw [k7 g (fun e1 he1 => hg e1 (List.mem_cons_of_mem _ he1)), h6 g hgf]
    · intro ev hev
      rcases List.mem_append.mp hev with hev | hev
      · exact ⟨f, ⟨e, List.mem_cons_self _ _, he⟩, h7 ev hev⟩
      · obtain ⟨g, ⟨e1, he1, hg1⟩, hg2⟩ := k8 ev hev
        exact ⟨g, ⟨e1, List.mem_cons_of_mem _ he1, hg1⟩, hg2⟩
    · intro g hg
      rcases List.mem_append.mp hg with hg | hg
      · have hgf : f = g := eventOf_cond (h7 _ hg)
        subst hgf
        obtain ⟨t1, t2⟩ := h10 hg
        refine ⟨?_, by rw [hf12, t2]⟩
        intro hsw
        rcases List.mem_append.mp hsw with hsw | hsw
        · exact t1 hsw
        · obtain ⟨g1, ⟨e1, he1, hg1⟩, hg2⟩ := k8 _ hsw
          have := eventOf_switch_in hg2
          subst this
          exact hfpost e1 he1 hg1
      · obtain ⟨t1, t2⟩ := k9 g hg
        obtain ⟨g1, ⟨e1, he1, hg1⟩, hg2⟩ := k8 _ hg
        have hgg : g1 = g := eventOf_cond hg2
        subst hgg
        have hgf : g1 ≠ f := by
          rintro rfl
          exact hfpost e1 he1 hg1
        refine ⟨?_, by rw [t2, h6 g1 hgf]⟩
        intro hsw
        rcases List.mem_append.mp hsw with hsw | hsw
        · exact hgf (eventOf_switch_in (h7 _ hsw)).symm
        · exact t1 hsw

theorem resume_fiber_list {m m1 : Machine L σ} {this : Fid}
    (h : CoroutineImpl.resume m this = Except.ok m1) : m1._fiber_list = m._fiber_list := by
  obtain ⟨c, _, _, _, hcase⟩ := resume_ok h
  rcases hcase with ⟨_, rfl⟩ | ⟨_, rfl⟩ <;> rfl

theorem yield_until_fiber_list {m m1 : Machine L σ} {this : Fid} {p : σ → σ × Bool}
    (h : CoroutineImpl.yield_until m this p = Except.ok m1) :
    m1._fiber_list = m._fiber_list := by
  obtain ⟨c, r, _, _, _, rfl⟩ := yield_until_ok h
  rfl

theorem survives_refl (l : List Coroutine) : Survives l l :=
  ⟨l, [], by simp, List.Sublist.refl _, by simp⟩

theorem survives_eraseIdx {l0 l : List Coroutine} (h : Survives l0 l) (i : Nat) :
    Survives l0 (l.eraseIdx i) := by
  obtain ⟨kept, app, rfl, hk, ha⟩ := h
  by_cases hi : i < kept.length
  · refine ⟨kept.eraseIdx i, app, ?_, (List.eraseIdx_sublist _ _).trans hk, ha⟩
    exact List.eraseIdx_append_of_lt_length hi app
  · refine ⟨kept, app.eraseIdx (i - kept.length), ?_, hk, ?_⟩
    · exact List.eraseIdx_append_of_length_le (Nat.le_of_not_lt hi) app
    · intro e he
      exact ha e ((List.eraseIdx_sublist _ _).subset he)

theorem survives_append {l0 l : List Coroutine} (h : Survives l0 l) (e : Coroutine)
    (he : ∀ f : Fid, e._impl = some f → ∀ e0 ∈ l0, e0._impl ≠ some f) :
    Survives l0 (l ++ [e]) := by
  obtain ⟨kept, app, rfl, hk, ha⟩ := h
  refine ⟨kept, app ++ [e], by simp, hk, ?_⟩
  intro e1 he1
  rcases List.mem_append.mp he1 with h1 | h1
  · exact ha e1 h1
  · rw [List.mem_singleton] at h1; subst h1; exact he

theorem since_of_eq {m0 m m1 : Machine L σ} (h : Since m0 m)
    (h1 : m1.fibers.length = m.fibers.length) (h2 : m1.handles = m.handles)
    (h3 : m1._fiber_list = m._fiber_list) : Since m0 m1 :=
  ⟨by rw [h1]; exact h.len, by rw [h2]; exact h.handle_old, by rw [h3]; exact h.list⟩

theorem since_resume {m0 m m1 : Machine L σ} {this : Fid} (h : Since m0 m)
    (hr : CoroutineImpl.resume m this = Except.ok m1) : Since m0 m1 := by
  obtain ⟨c, _, _, _, hcase⟩ := resume_ok hr
  rcases hcase with ⟨_, rfl⟩ | ⟨_, rfl⟩
  · exact since_of_eq h rfl rfl rfl
  · exact since_of_eq h (updFiber_length _ _ _) rfl rfl

theorem since_yield_until {m0 m m1 : Machine L σ} {this : Fid} {p : σ → σ × Bool}
    (h : Since m0 m) (hy : CoroutineImpl.yield_until m this p = Except.ok m1) :
    Since m0 m1 := by
  obtain ⟨c, r, _, _, _, rfl⟩ := yield_until_ok hy
  exact since_of_eq h (updFiber_length _ _ _) rfl rfl

theorem since_step (prog : L → σ → σ × Call L σ) {m0 m m1 : Machine L σ}
    (h0 : ∀ e ∈ m0._fiber_list, ∀ f : Fid, e._impl = some f → f < m0.fibers.length)
    (hI : Since m0 m) (h : step prog m = Except.ok m1) : Since m0 m1 := by
  refine step_preserves prog (Since m0) ?_ ?_ ?_ ?_ ?_ ?_ ?_ ?_ ?_ hI h
  · intro x μ hx; exact since_of_eq hx rfl rfl rfl
  · intro x hx; exact since_of_eq hx rfl rfl rfl
  · intro x s hx _
    exact since_of_eq hx (setStack_length _ _) (setStack_handles _ _) (setStack_fiber_list _ _)
  · intro x i hx
    exact ⟨hx.len, hx.handle_old, survives_eraseIdx hx.list i⟩
  · intro x hd hx
    refine ⟨hx.len, ?_, survives_append hx.list _ (fun f hf => hx.handle_old hd f hf)⟩
    intro h f hf
    simp only [CoroutineMgr.manage] at hf
    by_cases hh : h = hd
    · simp [hh] at hf
    · simp only [hh, if_false] at hf
      exact hx.handle_old h f hf
  · intro x hd task hx
    unfold Coroutine.go
    cases hh : (x.handles hd)._impl with
    | some _ => exact hx
    | none =>
      refine ⟨?_, ?_, hx.list⟩
      · simp only [List.length_append, List.length_singleton]
        exact Nat.le_succ_of_le hx.len
      · intro h f hf e0 he0 heq
        simp only at hf
        by_cases hh1 : h = hd
        · simp only [hh1, if_true] at hf
          have hf2 : x.fibers.length = f := by simpa using hf
          have h1 : f < m0.fibers.length := h0 e0 he0 f heq
          rw [← hf2] at h1
          exact absurd h1 (Nat.not_lt.mpr hx.len)
        · simp only [hh1, if_false] at hf
          exact hx.handle_old h f hf e0 he0 heq
  · intro x x1 this hx hr; exact since_resume hx hr
  · intro x x1 this p hx hy; exact since_yield_until hx hy
  · intro x x1 this st hx _ _ hw
    unfold CoroutineImpl.do_fiber_work at hw
    rw [yield_eq] at hw
    refine since_yield_until (since_of_eq hx ?_ ?_ ?_) hw
    · simp
    · simp
    · simp

/-- From a state in which handles own their contexts, whatever the thread does, the registry
afterwards is what is left of the registry before, in the old order, followed by entries
whose contexts were not registered before. -/
theorem fiber_list_survives (prog : L → σ → σ × Call L σ) :
    ∀ (n : Nat) (m0 m m1 : Machine L σ), Own m0 → Since m0 m → run prog n m = Except.ok m1 →
      Since m0 m1 := by
  intro n
  induction n with
  | zero =>
    intro m0 m m1 _ hI h
    simp only [run] at h
    injection h with h; subst h
    exact hI
  | succ n ih =>
    intro m0 m m1 ho hI h
    simp only [run] at h
    cases hs : step prog m with
    | error e => simp [hs] at h
    | ok m2 =>
      simp only [hs] at h
      exact ih m0 m2 m1 ho (since_step prog ho.list_lt hI hs) h

theorem since_refl {m : Machine L σ} (ho : Own m) : Since m m :=
  ⟨Nat.le_refl _, fun h f hf e he => ho.handle_list h f hf e he, survives_refl _⟩

end Pass4

end Spark

namespace Spark

section Claims9

variable {L σ : Type}

/-- C6. Scheduling order. First part, in any state at the loop head of the root's `yield()`: an
entry that is `Supended` and whose resume-condition is false costs two steps, in which the
condition is evaluated once, no switch is made, the registry is unchanged and the iterator
moves to the next entry. Second part, for any run of the thread from a state it reaches from `init`: the registry
afterwards is what is left of the registry before, in the old order, followed by entries whose
contexts were not registered before, so surviving entries keep their relative order and
new entries come after them. Third part, for a pass over a registry of distinct entries whose contexts each
give up control with their next library call (`yield`, `yield_until`, return or raise): the
pass ends, the resume attempts it made are exactly the entries that were `Supended`, once each
and in insertion order, the registry afterwards consists of the entries that are `Supended`
then, in their old order, and an entry whose condition was false was not switched into, is
unchanged and is still in the registry. Fourth part, in any state: the pass at a `Supended`
entry `i` makes the one call `resume()` of line 179 on it, and once that call is back the
next step either moves the iterator to `i + 1` (the entry is still `Supended`) or erases the
entry and leaves the iterator in place, so no entry gets a second attempt in the pass. -/
theorem scheduling_order (prog : L → σ → σ × Call L σ) :
    (∀ (m : Machine L σ) (i : Nat) (rest : List (Frame L σ)) (f : Fid)
      (c : CoroutineImpl L σ), m.current = none →
      m.major_stack = Frame.mgr_yield i :: rest →
      m._fiber_list[i]? = some { _impl := some f } → m.fibers[f]? = some c →
      c._status = Status.Supended → (c._resume_condition m.mem).2 = false →
      run prog 2 m =
        Except.ok { m with mem := (c._resume_condition m.mem).1,
                           trace := m.trace ++ [Event.cond f false],
                           major_stack := Frame.mgr_yield (i + 1) :: rest }) ∧
    (∀ (entry : L) (mem0 : σ) (k n : Nat) (m m1 : Machine L σ),
      run prog k (Machine.init entry mem0) = Except.ok m → run prog n m = Except.ok m1 →
      ∃ kept app : List Coroutine, m1._fiber_list = kept ++ app ∧
        kept.Sublist m._fiber_list ∧
        ∀ e ∈ app, ∀ f : Fid, e._impl = some f → ∀ e0 ∈ m._fiber_list, e0._impl ≠ some f) ∧
    (∀ (m : Machine L σ) (rest : List (Frame L σ)), m.current = none →
      m.major_stack = Frame.mgr_yield 0 :: rest →
      (∀ e ∈ m._fiber_list, Simple prog m e) →
      (m._fiber_list.map (fun e => e._impl)).Nodup →
      ∃ (n : Nat) (m1 : Machine L σ) (τ : List Event), run prog n m = Except.ok m1 ∧
        m1.current = none ∧ m1.major_stack = rest ∧ m1.trace = m.trace ++ τ ∧
        attempts τ = (m._fiber_list.filter (isSupended m)).filterMap (fun e => e._impl) ∧
        m1._fiber_list = m._fiber_list.filter (isSupended m1) ∧
        (∀ g : Fid, Event.cond g false ∈ τ →
          Event.switch none (some g) ∉ τ ∧ m1.fibers[g]? = m.fibers[g]? ∧
          { _impl := some g } ∈ m1._fiber_list)) ∧
    (∀ (m : Machine L σ) (i : Nat) (rest : List (Frame L σ)) (f : Fid)
      (c : CoroutineImpl L σ), m.current = none → m._fiber_list[i]? = some { _impl := some f } →
      m.fibers[f]? = some c →
      (m.major_stack = Frame.mgr_yield i :: rest → c._status = Status.Supended →
        step prog m =
          CoroutineImpl.resume { m with major_stack := Frame.mgr_yield_181 i :: rest } f) ∧
      (m.major_stack = Frame.mgr_yield_181 i :: rest → c._status = Status.Supended →
        step prog m = Except.ok { m with major_stack := Frame.mgr_yield (i + 1) :: rest }) ∧
      (m.major_stack = Frame.mgr_yield_181 i :: rest → c._status ≠ Status.Supended →
        step prog m = Except.ok { m with _fiber_list := m._fiber_list.eraseIdx i,
                                         major_stack := Frame.mgr_yield i :: rest })) := by
  refine ⟨?_, ?_, ?_, ?_⟩
  rotate_right
  · intro m i rest f c hcur hl hc
    exact ⟨fun hmaj hs => pass_attempt prog hcur hmaj hl hc hs,
      fun hmaj hs => pass_after_keep prog hcur hmaj hl hc hs,
      fun hmaj hs => pass_after_erase prog hcur hmaj hl hc hs⟩
  · intro m i rest f c hcur hmaj hl hc hs hp
    exact pass_gated prog hcur hmaj hl hc hs hp
  · intro entry mem0 k n m m1 hk hn
    have ho : Own m := run_reach_own prog hk
    exact (fiber_list_survives prog n m m m1 ho (since_refl ho) hn).list
  · intro m rest hcur hmaj hsimple hnodup
    obtain ⟨n, m1, τ, k1, k2, k3, k4, k5, k6, k7, k8, k9⟩ :=
      pass_simple prog rest m._fiber_list [] m hcur hmaj (by simp) hsimple hnodup
    refine ⟨n, m1, τ, k1, k2, k3, k4, k5, by simpa using k6, ?_⟩
    intro g hg
    obtain ⟨t1, t2⟩ := k9 g hg
    refine ⟨t1, t2, ?_⟩
    have hatt : g ∈ attempts τ := by
      unfold attempts
      rw [List.mem_filterMap]
      exact ⟨Event.cond g false, hg, rfl⟩
    rw [k5, List.mem_filterMap] at hatt
    obtain ⟨e, he, heg⟩ := hatt
    rw [List.mem_filter] at he
    have hee : e = { _impl := some g } := coroutine_eta heg
    have hsup : isSupended m1 e = true := by
      have hcg : isSupended m1 e = isSupended m e := isSupended_congr (fun f hf => by
        rw [heg] at hf; injection hf with hf; subst hf; exact t2)
      rw [hcg]
      exact he.2
    have : e ∈ m1._fiber_list := by
      have k6' : m1._fiber_list = m._fiber_list.filter (isSupended m1) := by simpa using k6
      rw [k6', List.mem_filter]
      exact ⟨he.1, hsup⟩
    rw [← hee]; exact this

end Claims9

end Spark

namespace Example

open Spark

theorem three_yields_leave (pc s : Nat) : (three_yields pc s).2.isLeave = true := by
  unfold three_yields
  simp only
  split <;> rfl

theorem registry_of_three_simple :
    ∀ e ∈ registry_of_three._fiber_list, Simple three_yields registry_of_three e := by
  intro e he
  simp only [registry_of_three, List.mem_cons, List.mem_singleton, List.not_mem_nil,
    or_false] at he
  rcases he with rfl | rfl | rfl
  · exact ⟨0, parked third_time, rfl, rfl, fun _ => ⟨7, [], rfl, three_yields_leave 7⟩⟩
  · exact ⟨1, CoroutineImpl.mk_task 0, rfl, rfl, fun _ => ⟨0, [], rfl, three_yields_leave 0⟩⟩
  · exact ⟨2, _, rfl, rfl, fun h => by cases h⟩

end Example

namespace Spark

/-- Witness of C6: a pass over three managed coroutines, the first gated by a false condition,
the second fresh, the third finished: two attempts, on the first and the second, and the
third is erased. -/
theorem scheduling_order_witness :
    ∃ (n : Nat) (m1 : Machine Nat Nat) (τ : List Event),
      run Example.three_yields n Example.registry_of_three = Except.ok m1 ∧
      m1.current = none ∧ m1.major_stack = [Frame.user 9] ∧
      m1.trace = Example.registry_of_three.trace ++ τ ∧
      attempts τ = (Example.registry_of_three._fiber_list.filter
        (isSupended Example.registry_of_three)).filterMap (fun e => e._impl) ∧
      m1._fiber_list = Example.registry_of_three._fiber_list.filter (isSupended m1) ∧
      (∀ g : Fid, Event.cond g false ∈ τ →
        Event.switch none (some g) ∉ τ ∧
        m1.fibers[g]? = Example.registry_of_three.fibers[g]? ∧
        { _impl := some g } ∈ m1._fiber_list) :=
  (scheduling_order Example.three_yields).2.2.1 Example.registry_of_three [Frame.user 9] rfl rfl
    Example.registry_of_three_simple (by decide)

end Spark

namespace Demo

open Spark

set_option maxRecDepth 100000 in
theorem run_813_ok : ∃ m : Machine Pc Globals, run prog 813 start = Except.ok m := by
  have h : (run prog 813 start).toBool = true := by decide
  cases hr : run prog 813 start with
  | ok m => exact ⟨m, rfl⟩
  | error e => rw [hr] at h; cases h

set_option maxRecDepth 100000 in
theorem producer_finished : ∃ (m : Machine Pc Globals) (c : CoroutineImpl Pc Globals),
    run prog 813 start = Except.ok m ∧ m.fibers[1]? = some c ∧
      c._status = Status.Finished ∧ m.current = none := by
  have h : (match run prog 813 start with
      | Except.ok m =>
        (match m.fibers[1]? with
          | some c => decide (c._status = Status.Finished)
          | none => false) && decide (m.current = none)
      | Except.error _ => false) = true := by decide
  cases hr : run prog 813 start with
  | error e => rw [hr] at h; cases h
  | ok m =>
    rw [hr] at h
    simp only [Bool.and_eq_true, decide_eq_true_eq] at h
    cases hc : m.fibers[1]? with
    | none => rw [hc] at h; simp at h
    | some c =>
      rw [hc] at h
      exact ⟨m, c, rfl, hc, by simpa using h.1, h.2⟩

end Demo

namespace Spark

/-- Witness of C1 on the demonstration program, 813 steps after `init`. -/
theorem status_lifecycle_witness :
    ∃ m : Machine Demo.Pc Demo.Globals, run Demo.prog 813 Demo.start = Except.ok m ∧
      ∀ (f : Fid) (c : CoroutineImpl Demo.Pc Demo.Globals), m.fibers[f]? = some c →
        c._fiber_come_from = none → c._status = Status.Supended := by
  obtain ⟨m, hm⟩ := Demo.run_813_ok
  exact ⟨m, hm, (status_lifecycle Demo.prog Demo.Pc.main_59 _ 813 m hm).2.1⟩

/-- Witness of C2: at the end of the demonstration program the producer is `Finished`, and a
`resume()` of it by the major fiber fails the assertion on the status. -/
theorem resume_terminal_rejected_witness :
    ∃ m : Machine Demo.Pc Demo.Globals, run Demo.prog 813 Demo.start = Except.ok m ∧
      Coroutine.resume m { _impl := some 1 } = Except.error Err.assert_supended := by
  obtain ⟨m, c, hm, hc, hs, hcur⟩ := Demo.producer_finished
  refine ⟨m, hm, ?_⟩
  exact (resume_terminal_rejected m { _impl := some 1 } 1 c rfl hc (by rw [hs]; decide)).2.1
    (by rw [hcur]; decide)

/-- Witness of C3: a context suspended by `yield_until(third_time)`; two attempts are gated
and the third would switch. -/
theorem resume_condition_gate_witness :
    resume_times 0 2 (Example.thread [Example.parked Example.third_time] [] none) =
      Except.ok
        { mem := 2, fibers := [Example.parked Example.third_time],
          handles := fun j => [].getD j { _impl := none }, _fiber_list := [], current := none,
          major_stack := [Frame.user 0],
          trace := [Event.cond 0 false, Event.cond 0 false] } :=
  (resume_condition_gate
    (Example.thread [Example.parked always_true] [] (some 0))
    { mem := 0, fibers := [Example.parked Example.third_time],
      handles := fun j => [].getD j { _impl := none }, _fiber_list := [], current := none,
      major_stack := [Frame.user 0], trace := [Event.switch (some 0) none] }
    (Example.thread [Example.parked Example.third_time] [] none)
    0 (Example.parked always_true) Example.third_time 2 rfl rfl rfl rfl (by decide)
    (by decide)).1

end Spark

namespace Spark

section Claims11

variable {L σ : Type}

theorem handles_clear_empty {m : Machine L σ} {h : Hid} (he : (m.handles h)._impl = none) :
    ({ m with handles := fun j => if j = h then { _impl := none } else m.handles j } :
      Machine L σ) = m := by
  have hfun : (fun j => if j = h then ({ _impl := none } : Coroutine) else m.handles j) =
      m.handles := by
    funext j
    by_cases hj : j = h
    · subst hj
      simp only [if_true]
      cases hh : m.handles j with
      | mk i => rw [hh] at he; simp only at he; rw [he]
    · simp only [hj, if_false]
  rw [hfun]

theorem get_status_other {m : Machine L σ} {this : Fid} {c : CoroutineImpl L σ}
    (hc : m.fibers[this]? = some c) (hcur : m.current ≠ some this) :
    CoroutineImpl.get_status m this = Except.ok c._status := by
  unfold CoroutineImpl.get_status
  simp [hcur, hc]

theorem destructor_ended {m : Machine L σ} {this : Fid} {c : CoroutineImpl L σ}
    (hc : m.fibers[this]? = some c) (hcur : m.current ≠ some this)
    (hs : c._status ≠ Status.Supended) : CoroutineImpl.destructor m this = Except.ok () := by
  unfold CoroutineImpl.destructor
  simp [hc, hcur, hs]

/-- C11. `reset()` on the handle variable `h`. On an empty handle it returns, nothing
changes and the handle is empty. On a handle whose context has status `Finished` or
`Excepted` it returns: the assertions of the destructor hold for the context, which the
handle gives up, the handle is empty afterwards (`operator bool` false) and nothing else
changes. On a handle whose context is suspended, that is, has status `Supended` and is not
the context that is running, it throws "can't reset" and the state, with it the handle and
the status of the context, is as before. The running context is the current one, not a
suspended one; on its own handle the assertion of `get_status` fails. -/
theorem reset_contract (m : Machine L σ) (h : Hid) :
    ((m.handles h)._impl = none →
      Coroutine.reset m h = Except.ok (ResetResult.returned m) ∧
        (m.handles h).operator_bool = false) ∧
    (∀ (this : Fid) (c : CoroutineImpl L σ), (m.handles h)._impl = some this →
      m.fibers[this]? = some c → m.current ≠ some this →
      (c._status ≠ Status.Supended →
        ∃ m1 : Machine L σ, Coroutine.reset m h = Except.ok (ResetResult.returned m1) ∧
          CoroutineImpl.destructor m this = Except.ok () ∧
          (m1.handles h).operator_bool = false ∧
          (∀ j : Hid, j ≠ h → m1.handles j = m.handles j) ∧
          m1.fibers = m.fibers ∧ m1._fiber_list = m._fiber_list ∧ m1.mem = m.mem ∧
          m1.current = m.current ∧ m1.major_stack = m.major_stack ∧ m1.trace = m.trace) ∧
      (c._status = Status.Supended →
        Coroutine.reset m h = Except.ok (ResetResult.cant_reset m) ∧
          (m.handles h).operator_bool = true)) ∧
    (∀ this : Fid, (m.handles h)._impl = some this → m.current = some this →
      Coroutine.reset m h = Except.error Err.assert_not_self) := by
  refine ⟨?_, ?_, ?_⟩
  · intro he
    constructor
    · unfold Coroutine.reset
      simp only [he]
      rw [handles_clear_empty he]
    · simp [Coroutine.operator_bool, he]
  · intro this c hh hc hcur
    constructor
    · intro hs
      refine ⟨{ m with handles := fun j => if j = h then { _impl := none } else m.handles j },
        ?_, destructor_ended hc hcur hs, ?_, ?_, rfl, rfl, rfl, rfl, rfl, rfl⟩
      · unfold Coroutine.reset
        simp only [hh, get_status_other hc hcur, hs, if_false, destructor_ended hc hcur hs]
      · simp [Coroutine.operator_bool]
      · intro j hj
        simp [hj]
    · intro hs
      constructor
      · unfold Coroutine.reset
        simp only [hh, get_status_other hc hcur, hs, if_true]
      · simp [Coroutine.operator_bool, hh]
  · intro this hh hcur
    unfold Coroutine.reset CoroutineImpl.get_status
    simp only [hh, hcur, if_true]

end Claims11

end Spark

namespace Spark

/-- Witness of C11: in a thread whose handle `0` holds a finished context and whose handle `1`
holds a suspended one, `reset()` empties handle `0` and throws on handle `1`. -/
theorem reset_contract_witness :
    (∃ m1 : Machine Nat Nat,
      Coroutine.reset Example.two_handles 0 = Except.ok (ResetResult.returned m1) ∧
        CoroutineImpl.destructor Example.two_handles 0 = Except.ok () ∧
        (m1.handles 0).operator_bool = false ∧
        (∀ j : Hid, j ≠ 0 → m1.handles j = Example.two_handles.handles j) ∧
        m1.fibers = Example.two_handles.fibers ∧
        m1._fiber_list = Example.two_handles._fiber_list ∧
        m1.mem = Example.two_handles.mem ∧ m1.current = Example.two_handles.current ∧
        m1.major_stack = Example.two_handles.major_stack ∧
        m1.trace = Example.two_handles.trace) ∧
    (Coroutine.reset Example.two_handles 1 =
        Except.ok (ResetResult.cant_reset Example.two_handles) ∧
      (Example.two_handles.handles 1).operator_bool = true) :=
  ⟨((reset_contract Example.two_handles 0).2.1 0 Example.finished rfl rfl (by decide)).1
      (by decide),
    ((reset_contract Example.two_handles 1).2.1 1 (Example.parked always_true) rfl rfl
      (by decide)).2 rfl⟩

end Spark

namespace Spark

section Claims12

variable {L σ : Type}

/-- C12. `yield()` inside a coroutine. Let `this` be the running context, resumed from `r`,
with any stored resume-condition. In every state `CoroutineImpl::yield` gives what
`CoroutineImpl::yield_until(always_true)` gives, also when the assertion fails, and so does
the call from user code inside the coroutine; it switches to `r` and leaves `always_true` as
the stored condition, whatever was stored before; so in any later state in which the context is
untouched the next `resume()` by another fiber evaluates the condition once, with result
true, and switches into the context on the stack it had. Had the old condition stayed and
returned false, the same `resume()` would not have switched. -/
theorem yield_unconditional (m : Machine L σ) (this : Fid) (c : CoroutineImpl L σ)
    (r : Option Fid) (hcur : m.current = some this) (hc : m.fibers[this]? = some c)
    (hfrom : c._fiber_come_from = some r) (hs : c._status = Status.Supended) :
    (∀ (x : Machine L σ) (t : Fid),
      CoroutineImpl.yield x t = CoroutineImpl.yield_until x t always_true) ∧
    (∀ (rest : List (Frame L σ)) (k : L),
      call m rest (Call.yield k) = call m rest (Call.yield_until always_true k)) ∧
    (∃ m1 : Machine L σ, CoroutineImpl.yield m this = Except.ok m1 ∧
      CoroutineImpl.yield_until m this always_true = Except.ok m1 ∧
      m1.current = r ∧ m1.trace = m.trace ++ [Event.switch (some this) r] ∧
      m1.fibers[this]? = some { c with _resume_condition := always_true } ∧
      ∀ m2 : Machine L σ, m2.fibers[this]? = m1.fibers[this]? → m2.current ≠ some this →
        ∃ m3 : Machine L σ, CoroutineImpl.resume m2 this = Except.ok m3 ∧
          m3.current = some this ∧ m3.stack = c.stack ∧ m3.mem = m2.mem ∧
          m3.trace = m2.trace ++ [Event.cond this true, Event.switch m2.current (some this)]) ∧
    (∀ m2 : Machine L σ, m2.fibers[this]? = some c → m2.current ≠ some this →
      (c._resume_condition m2.mem).2 = false →
      CoroutineImpl.resume m2 this =
        Except.ok { m2 with mem := (c._resume_condition m2.mem).1,
                            trace := m2.trace ++ [Event.cond this false] }) := by
  refine ⟨yield_eq, ?_, ?_, ?_⟩
  · intro rest k
    rw [call_yield_fiber rest k hcur, call_yield_until_fiber rest always_true k hcur]
    exact yield_eq _ this
  · obtain ⟨m1, h1, h2, _, _, _, _, h7, h8⟩ :=
      yield_until_switch m this always_true hcur hc hfrom
    have hf1 : m1.fibers[this]? = some { c with _resume_condition := always_true } := by
      rw [h8 this]; simp
    refine ⟨m1, (yield_eq m this).trans h1, h1, h2, h7, hf1, ?_⟩
    intro m2 hm2 hcur2
    rw [hf1] at hm2
    obtain ⟨m3, g1, g2, g3, _, _, _, g7, g8, _⟩ :=
      resume_switch m2 this hm2 hcur2 hs rfl
    exact ⟨m3, g1, g2, g8, g3, g7⟩
  · intro m2 hm2 hcur2 hp
    exact resume_gated m2 this hm2 hcur2 hs hp

end Claims12

/-- Witness of C12: a running context in which an earlier `yield_until` stored a predicate
that does not hold now calls `yield()`; the next `resume()` by another fiber switches into
it. -/
theorem yield_unconditional_witness :
    (∀ (x : Machine Nat Nat) (t : Fid),
      CoroutineImpl.yield x t = CoroutineImpl.yield_until x t always_true) ∧
    (∀ (rest : List (Frame Nat Nat)) (k : Nat),
      call Example.running_after_until rest (Call.yield k) =
        call Example.running_after_until rest (Call.yield_until always_true k)) ∧
    (∃ m1 : Machine Nat Nat,
      CoroutineImpl.yield Example.running_after_until 0 = Except.ok m1 ∧
      CoroutineImpl.yield_until Example.running_after_until 0 always_true = Except.ok m1 ∧
      m1.current = none ∧
      m1.trace = Example.running_after_until.trace ++ [Event.switch (some 0) none] ∧
      m1.fibers[0]? =
        some { Example.parked Example.is_one with _resume_condition := always_true } ∧
      ∀ m2 : Machine Nat Nat, m2.fibers[0]? = m1.fibers[0]? → m2.current ≠ some 0 →
        ∃ m3 : Machine Nat Nat, CoroutineImpl.resume m2 0 = Except.ok m3 ∧
          m3.current = some 0 ∧ m3.stack = (Example.parked Example.is_one).stack ∧
          m3.mem = m2.mem ∧
          m3.trace = m2.trace ++ [Event.cond 0 true, Event.switch m2.current (some 0)]) ∧
    (∀ m2 : Machine Nat Nat, m2.fibers[0]? = some (Example.parked Example.is_one) →
      m2.current ≠ some 0 →
      ((Example.parked Example.is_one)._resume_condition m2.mem).2 = false →
      CoroutineImpl.resume m2 0 =
        Except.ok { m2 with
          mem := ((Example.parked Example.is_one)._resume_condition m2.mem).1,
          trace := m2.trace ++ [Event.cond 0 false] }) :=
  yield_unconditional Example.running_after_until 0 (Example.parked Example.is_one) none
    rfl rfl rfl rfl

end Spark

namespace Spark

section From1

variable {L σ : Type}

theorem sameFrom_refl (m : Machine L σ) : SameFrom m m :=
  fun _ c hc => ⟨c, hc, rfl⟩

theorem sameFrom_of_fibers {m0 m m1 : Machine L σ} (h : SameFrom m0 m)
    (hf : m1.fibers = m.fibers) : SameFrom m0 m1 := by
  intro f c hc
  rw [hf]
  exact h f c hc

theorem sameFrom_updFiber {m0 m : Machine L σ} (h : SameFrom m0 m) (t : Fid)
    (g : CoroutineImpl L σ → CoroutineImpl L σ)
    (hg : ∀ c : CoroutineImpl L σ, (g c)._fiber_come_from = c._fiber_come_from) :
    SameFrom m0 (updFiber m t g) := by
  intro f c hc
  obtain ⟨c1, h1, h2⟩ := h f c hc
  rw [updFiber_fibers]
  by_cases hk : f = t
  · subst hk
    refine ⟨g c1, by simp [h1], ?_⟩
    rw [hg]; exact h2
  · exact ⟨c1, by simp [hk, h1], h2⟩

theorem sameFrom_setStack {m0 m : Machine L σ} (h : SameFrom m0 m) (s : List (Frame L σ)) :
    SameFrom m0 (m.setStack s) := by
  unfold Machine.setStack
  cases m.current with
  | none => exact sameFrom_of_fibers h rfl
  | some f => exact sameFrom_updFiber h f _ (fun _ => rfl)

theorem sameFrom_go {m0 m : Machine L σ} (h : SameFrom m0 m) (hd : Hid) (task : L) :
    SameFrom m0 (Coroutine.go m hd task) := by
  intro f c hc
  obtain ⟨c1, h1, h2⟩ := h f c hc
  exact ⟨c1, go_fibers_old hd task h1, h2⟩

theorem sameFrom_yield_until {m0 m m1 : Machine L σ} {this : Fid} {p : σ → σ × Bool}
    (h : SameFrom m0 m) (hy : CoroutineImpl.yield_until m this p = Except.ok m1) :
    SameFrom m0 m1 := by
  obtain ⟨c, r, _, _, _, rfl⟩ := yield_until_ok hy
  exact sameFrom_updFiber h this _ (fun _ => rfl)

/-- In one step the recorded resumer of a context changes only when the step is a `resume()`
that switches into that context, and then it becomes the fiber that made the step. -/
theorem come_from_step (prog : L → σ → σ × Call L σ) {m m1 : Machine L σ}
    (h : step prog m = Except.ok m1) : FromStep m m1 := by
  refine step_cases prog (fun x => x.current = m.current ∧ SameFrom m x) (FromStep m)
    ?_ ?_ ?_ ?_ ?_ ?_ ?_ ?_ ?_ ?_ ⟨rfl, sameFrom_refl m⟩ h
  · intro x hx f c hc
    obtain ⟨c1, h1, h2⟩ := hx.2 f c hc
    exact ⟨c1, h1, Or.inl h2⟩
  · intro x μ hx; exact ⟨hx.1, sameFrom_of_fibers hx.2 rfl⟩
  · intro x hx _; exact ⟨hx.1, sameFrom_of_fibers hx.2 rfl⟩
  · intro x s hx _ _
    exact ⟨by rw [setStack_current]; exact hx.1, sameFrom_setStack hx.2 s⟩
  · intro x i rest hx _; exact ⟨hx.1, sameFrom_of_fibers hx.2 rfl⟩
  · intro x hd hx; exact ⟨hx.1, sameFrom_of_fibers hx.2 rfl⟩
  · intro x hd task hx
    exact ⟨by rw [go_current]; exact hx.1, sameFrom_go hx.2 hd task⟩
  · intro x x1 this hx _ hr f c hc
    obtain ⟨c1, h1, h2⟩ := hx.2 f c hc
    obtain ⟨d, hd, hcur, _, hcase⟩ := resume_ok hr
    rcases hcase with ⟨_, rfl⟩ | ⟨_, rfl⟩
    · exact ⟨c1, h1, Or.inl h2⟩
    · simp only [updFiber_fibers]
      by_cases hk : f = this
      · subst hk
        rw [h1] at hd; injection hd with hd; subst hd
        refine ⟨{ c1 with _fiber_come_from := some x.current }, by simp [h1], Or.inr ?_⟩
        refine ⟨rfl, by rw [← hx.1]; exact hcur, by rw [hx.1], x.trace, ?_⟩
        rw [hx.1]
      · exact ⟨c1, by simp [hk, h1], Or.inl h2⟩
  · intro x x1 this p hx hy f c hc
    obtain ⟨c1, h1, h2⟩ := sameFrom_yield_until hx.2 hy f c hc
    exact ⟨c1, h1, Or.inl h2⟩
  · intro x x1 this st hx _ _ hw f c hc
    unfold CoroutineImpl.do_fiber_work at hw
    rw [yield_eq] at hw
    have h0 : SameFrom m ((updFiber x this (fun c => { c with _status := st })).setStack []) :=
      sameFrom_setStack
        (sameFrom_updFiber hx.2 this (fun c => { c with _status := st }) (fun _ => rfl)) []
    obtain ⟨c1, h1, h2⟩ := sameFrom_yield_until h0 hw f c hc
    exact ⟨c1, h1, Or.inl h2⟩

end From1

end Spark

namespace Spark

section From2

variable {L σ : Type}

/-- A running context whose next library call gives up control: one step later the fiber
recorded in `_fiber_come_from` runs. -/
theorem leave_step (prog : L → σ → σ × Call L σ) {x : Machine L σ} {f : Fid}
    {c : CoroutineImpl L σ} {pc : L} {rs : List (Frame L σ)} {r : Option Fid}
    (hcur : x.current = some f) (hc : x.fibers[f]? = some c)
    (hcf : c._fiber_come_from = some r) (hstk : c.stack = Frame.user pc :: rs)
    (hleave : (prog pc x.mem).2.isLeave = true) :
    ∃ x1 : Machine L σ, step prog x = Except.ok x1 ∧ x1.current = r ∧
      x1.trace = x.trace ++ [Event.switch (some f) r] := by
  have hxs : x.stack = Frame.user pc :: rs := by
    simp [Machine.stack, hcur, hc, hstk]
  rw [step_user prog hxs]
  generalize hx0 : ({ x with mem := (prog pc x.mem).1 } : Machine L σ) = x0
  have hcur0 : x0.current = some f := by rw [← hx0]; exact hcur
  have hc0 : x0.fibers[f]? = some c := by rw [← hx0]; exact hc
  have htr0 : x0.trace = x.trace := by rw [← hx0]
  have hend : ∀ st : Status, ∃ x1 : Machine L σ,
      CoroutineImpl.do_fiber_work x0 f st = Except.ok x1 ∧ x1.current = r ∧
      x1.trace = x.trace ++ [Event.switch (some f) r] := by
    intro st
    obtain ⟨x1, h1, h2, _, _, _, _, h7, _⟩ := do_fiber_work_switch x0 f st hcur0 hc0 hcf
    exact ⟨x1, h1, h2, by rw [h7, htr0]⟩
  have hsus : ∀ (p : σ → σ × Bool) (k : L), ∃ x1 : Machine L σ,
      CoroutineImpl.yield_until (x0.setStack (Frame.user k :: rs)) f p = Except.ok x1 ∧
      x1.current = r ∧ x1.trace = x.trace ++ [Event.switch (some f) r] := by
    intro p k
    have hcs : (x0.setStack (Frame.user k :: rs)).fibers[f]? =
        some { c with stack := Frame.user k :: rs } := by
      rw [setStack_fibers]; simp [hcur0, hc0]
    obtain ⟨x1, h1, h2, _, _, _, _, h7, _⟩ :=
      yield_until_switch (x0.setStack (Frame.user k :: rs)) f p (by simp [hcur0]) hcs hcf
    exact ⟨x1, h1, h2, by rw [h7]; simp [htr0]⟩
  revert hleave
  cases (prog pc x.mem).2 with
  | ret => intro _; rw [call_ret_fiber rs hcur0]; exact hend _
  | raise => intro _; rw [call_raise_fiber rs hcur0]; exact hend _
  | yield k =>
    intro _; rw [call_yield_fiber rs k hcur0]
    rw [yield_eq]; exact hsus _ k
  | yield_until p k => intro _; rw [call_yield_until_fiber rs p k hcur0]; exact hsus p k
  | resume _ _ => intro h; cases h
  | status _ _ => intro h; cases h
  | await _ _ => intro h; cases h
  | await_all _ _ => intro h; cases h
  | manage _ _ => intro h; cases h
  | go _ _ _ => intro h; cases h

/-- A `resume()` that switches into a context whose next library call gives up control: after
the round the caller runs again, whatever resumer the context had recorded before. -/
theorem resume_round_back (prog : L → σ → σ × Call L σ) (m : Machine L σ) (this : Fid)
    {c : CoroutineImpl L σ} {pc : L} {rs : List (Frame L σ)}
    (hc : m.fibers[this]? = some c) (hcur : m.current ≠ some this)
    (hs : c._status = Status.Supended) (hp : (c._resume_condition m.mem).2 = true)
    (hstk : c.stack = Frame.user pc :: rs)
    (hleave : (prog pc (c._resume_condition m.mem).1).2.isLeave = true) :
    ∃ m2 : Machine L σ, resume_round prog this m = Except.ok m2 ∧ m2.current = m.current ∧
      m2.trace = m.trace ++ [Event.cond this true, Event.switch m.current (some this),
        Event.switch (some this) m.current] := by
  obtain ⟨m1, h1, h2, h3, _, _, _, h7, _, h9⟩ := resume_switch m this hc hcur hs hp
  have hc1 : m1.fibers[this]? = some { c with _fiber_come_from := some m.current } := by
    rw [h9 this]; simp
  obtain ⟨m2, g1, g2, g3⟩ :=
    leave_step prog h2 hc1 rfl hstk (by rw [h3]; exact hleave)
  refine ⟨m2, ?_, g2, ?_⟩
  · unfold resume_round
    simp only [h1]
    exact g1
  · rw [g3, h7]; simp

end From2

end Spark

namespace Spark

section Claims13

variable {L σ : Type}

/-- C13. Suspend target. For a context `this`: a `resume()` by another fiber whose evaluation
of the condition is true records that fiber in `_fiber_come_from`, whatever was recorded
before; a `resume()` gated off by a false condition changes no context; `yield_until()`,
`yield()` and the end of the task, made by the context while it runs, switch to the recorded
fiber, be it the major fiber or a context; in any step of the thread the record of a
context changes only by a `resume()` that switches into it, and then to the fiber that made
the step; and when `resume()` switches into a context whose next library call gives up
control, the caller of that `resume()` is the fiber that runs next, not the resumer recorded
earlier. -/
theorem suspend_target (prog : L → σ → σ × Call L σ) (m : Machine L σ) (this : Fid)
    (c : CoroutineImpl L σ) (hc : m.fibers[this]? = some c) :
    (m.current ≠ some this → c._status = Status.Supended →
      (c._resume_condition m.mem).2 = true →
      ∃ m1 : Machine L σ, CoroutineImpl.resume m this = Except.ok m1 ∧
        m1.current = some this ∧
        m1.fibers[this]? = some { c with _fiber_come_from := some m.current }) ∧
    (m.current ≠ some this → c._status = Status.Supended →
      (c._resume_condition m.mem).2 = false →
      ∃ m1 : Machine L σ, CoroutineImpl.resume m this = Except.ok m1 ∧
        m1.fibers = m.fibers ∧ m1.current = m.current) ∧
    (∀ r : Option Fid, m.current = some this → c._fiber_come_from = some r →
      (∀ p : σ → σ × Bool, ∃ m1 : Machine L σ,
        CoroutineImpl.yield_until m this p = Except.ok m1 ∧ m1.current = r ∧
          m1.trace = m.trace ++ [Event.switch (some this) r]) ∧
      (∃ m1 : Machine L σ, CoroutineImpl.yield m this = Except.ok m1 ∧ m1.current = r ∧
        m1.trace = m.trace ++ [Event.switch (some this) r]) ∧
      (∀ st : Status, ∃ m1 : Machine L σ,
        CoroutineImpl.do_fiber_work m this st = Except.ok m1 ∧ m1.current = r ∧
          m1.trace = m.trace ++ [Event.switch (some this) r])) ∧
    (∀ m1 : Machine L σ, step prog m = Except.ok m1 →
      ∃ c1 : CoroutineImpl L σ, m1.fibers[this]? = some c1 ∧
        (c1._fiber_come_from = c._fiber_come_from ∨
          (m1.current = some this ∧ m.current ≠ some this ∧
            c1._fiber_come_from = some m.current ∧
            ∃ t : List Event,
              m1.trace = t ++ [Event.cond this true, Event.switch m.current (some this)]))) ∧
    (∀ (pc : L) (rs : List (Frame L σ)), m.current ≠ some this →
      c._status = Status.Supended → (c._resume_condition m.mem).2 = true →
      c.stack = Frame.user pc :: rs →
      (prog pc (c._resume_condition m.mem).1).2.isLeave = true →
      ∃ m2 : Machine L σ, resume_round prog this m = Except.ok m2 ∧
        m2.current = m.current ∧
        m2.trace = m.trace ++ [Event.cond this true, Event.switch m.current (some this),
          Event.switch (some this) m.current]) := by
  refine ⟨?_, ?_, ?_, ?_, ?_⟩
  · intro hcur hs hp
    obtain ⟨m1, h1, h2, _, _, _, _, _, _, h9⟩ := resume_switch m this hc hcur hs hp
    exact ⟨m1, h1, h2, by rw [h9 this]; simp⟩
  · intro hcur hs hp
    exact ⟨_, resume_gated m this hc hcur hs hp, rfl, rfl⟩
  · intro r hcur hfrom
    refine ⟨?_, ?_, ?_⟩
    · intro p
      obtain ⟨m1, h1, h2, _, _, _, _, h7, _⟩ := yield_until_switch m this p hcur hc hfrom
      exact ⟨m1, h1, h2, h7⟩
    · obtain ⟨m1, h1, h2, _, _, _, _, h7, _⟩ :=
        yield_until_switch m this always_true hcur hc hfrom
      exact ⟨m1, (yield_eq m this).trans h1, h2, h7⟩
    · intro st
      obtain ⟨m1, h1, h2, _, _, _, _, h7, _⟩ := do_fiber_work_switch m this st hcur hc hfrom
      exact ⟨m1, h1, h2, h7⟩
  · intro m1 h
    exact come_from_step prog h this c hc
  · intro pc rs hcur hs hp hstk hleave
    exact resume_round_back prog m this hc hcur hs hp hstk hleave

end Claims13

/-- Witness of C13: context `1` resumes context `0`, which the major fiber had resumed
earlier; when the task of context `0` ends, context `1` runs again, not the major fiber. -/
theorem suspend_target_witness :
    ∃ m2 : Machine Nat Nat,
      resume_round Example.three_yields 0 Example.nested = Except.ok m2 ∧
        m2.current = Example.nested.current ∧
        m2.trace = Example.nested.trace ++
          [Event.cond 0 true, Event.switch Example.nested.current (some 0),
            Event.switch (some 0) Example.nested.current] :=
  (suspend_target Example.three_yields Example.nested 0 (Example.parked always_true)
    rfl).2.2.2.2 7 [] (by decide) rfl rfl rfl rfl

end Spark

namespace Spark

section Claims14

variable {L σ : Type}

/-- `CoroutineMgr::yield_until` at its loop head: one evaluation of the condition, then the
return or the start of a pass. -/
theorem until_head (prog : L → σ → σ × Call L σ) {m : Machine L σ} {p : σ → σ × Bool}
    {rest : List (Frame L σ)} (hcur : m.current = none)
    (hmaj : m.major_stack = Frame.mgr_yield_until p :: rest) :
    step prog m =
      Except.ok { m with
        mem := (p m.mem).1
        major_stack :=
          if (p m.mem).2 then rest
          else Frame.mgr_yield 0 :: Frame.mgr_yield_until p :: rest } := by
  unfold step
  simp only [stack_major hcur, hmaj]
  cases hb : (p m.mem).2 with
  | true => simp only [if_true, Machine.setStack, hcur]
  | false => simp only [Bool.false_eq_true, if_false, Machine.setStack, hcur]

/-- The end of a pass: `CoroutineMgr::yield` returns to its caller. -/
theorem pass_return (prog : L → σ → σ × Call L σ) {m : Machine L σ} {i : Nat}
    {rest : List (Frame L σ)} (hcur : m.current = none)
    (hmaj : m.major_stack = Frame.mgr_yield i :: rest) (hend : m._fiber_list[i]? = none) :
    step prog m = Except.ok { m with major_stack := rest } := by
  unfold step
  simp only [stack_major hcur, hmaj, hend, setStack_major hcur]

/-- With an empty registry, `CoroutineMgr::yield_until` returns after as many passes as the
condition is false. -/
theorem until_empty (prog : L → σ → σ × Call L σ) (p : σ → σ × Bool)
    (rest : List (Frame L σ)) :
    ∀ (k : Nat) (m : Machine L σ), m.current = none →
      m.major_stack = Frame.mgr_yield_until p :: rest → m._fiber_list = [] →
      (∀ j : Nat, j < k → (p (mem_after p j m.mem)).2 = false) →
      (p (mem_after p k m.mem)).2 = true →
      run prog (2 * k + 1) m =
        Except.ok { m with mem := mem_after p (k + 1) m.mem, major_stack := rest } := by
  intro k
  induction k with
  | zero =>
    intro m hcur hmaj _ _ htrue
    simp only [mem_after] at htrue
    simp only [Nat.mul_zero, Nat.zero_add, run, until_head prog hcur hmaj, htrue, if_true,
      mem_after]
  | succ k ih =>
    intro m hcur hmaj hl hfalse htrue
    have h0 : (p m.mem).2 = false := hfalse 0 (Nat.succ_pos k)
    have s1 := until_head prog hcur hmaj
    simp only [h0, Bool.false_eq_true, if_false] at s1
    have s2 : step prog
        ({ m with mem := (p m.mem).1,
                  major_stack := Frame.mgr_yield 0 :: Frame.mgr_yield_until p :: rest } :
          Machine L σ) =
        Except.ok { m with mem := (p m.mem).1,
                           major_stack := Frame.mgr_yield_until p :: rest } :=
      pass_return prog hcur rfl (by simp [hl])
    have s3 := ih { m with mem := (p m.mem).1,
                           major_stack := Frame.mgr_yield_until p :: rest } hcur rfl hl
      (fun j hj => hfalse (j + 1) (Nat.succ_lt_succ hj)) htrue
    have hn : 2 * (k + 1) + 1 = 2 + (2 * k + 1) := by omega
    rw [hn]
    exact run_trans prog (run_two prog s1 s2) s3

/-- C14. `yield_until(condition)` called from the root. The call enters
`CoroutineMgr::yield_until`. At its loop head one step evaluates the condition once: if the
result is true the function returns and nothing but the user memory has changed, so no entry
of the registry was resumed; if it is false a pass `CoroutineMgr::yield` starts under the
loop, and the end of that pass leads back to the loop head, where the condition is
evaluated again. A step that leaves the loop for the caller is one whose evaluation was
true. Hence a condition that is true at the first evaluation costs two steps without a
pass; and with an empty registry a condition that is false `k` times and then true is
evaluated `k + 1` times, with `k` passes. -/
theorem root_yield_until (prog : L → σ → σ × Call L σ) (m : Machine L σ)
    (condition : σ → σ × Bool) (rest : List (Frame L σ)) (hcur : m.current = none) :
    (∀ (pc k : L), m.major_stack = Frame.user pc :: rest →
      (prog pc m.mem).2 = Call.yield_until condition k →
      step prog m =
        Except.ok { m with mem := (prog pc m.mem).1,
                           major_stack :=
                             Frame.mgr_yield_until condition :: Frame.user k :: rest }) ∧
    (m.major_stack = Frame.mgr_yield_until condition :: rest →
      ((condition m.mem).2 = true →
        step prog m = Except.ok { m with mem := (condition m.mem).1, major_stack := rest }) ∧
      ((condition m.mem).2 = false →
        step prog m =
          Except.ok { m with mem := (condition m.mem).1,
                             major_stack :=
                               Frame.mgr_yield 0 :: Frame.mgr_yield_until condition :: rest }) ∧
      (∀ m1 : Machine L σ, step prog m = Except.ok m1 → m1.major_stack = rest →
        (condition m.mem).2 = true)) ∧
    (∀ i : Nat, m.major_stack = Frame.mgr_yield i :: Frame.mgr_yield_until condition :: rest →
      m._fiber_list[i]? = none →
      step prog m =
        Except.ok { m with major_stack := Frame.mgr_yield_until condition :: rest }) ∧
    (∀ (pc k : L), m.major_stack = Frame.user pc :: rest →
      (prog pc m.mem).2 = Call.yield_until condition k →
      (condition (prog pc m.mem).1).2 = true →
      run prog 2 m =
        Except.ok { m with mem := (condition (prog pc m.mem).1).1,
                           major_stack := Frame.user k :: rest }) ∧
    (∀ k : Nat, m.major_stack = Frame.mgr_yield_until condition :: rest →
      m._fiber_list = [] →
      (∀ j : Nat, j < k → (condition (mem_after condition j m.mem)).2 = false) →
      (condition (mem_after condition k m.mem)).2 = true →
      run prog (2 * k + 1) m =
        Except.ok { m with mem := mem_after condition (k + 1) m.mem, major_stack := rest }) := by
  have hcall : ∀ (pc k : L), m.major_stack = Frame.user pc :: rest →
      (prog pc m.mem).2 = Call.yield_until condition k →
      step prog m =
        Except.ok { m with mem := (prog pc m.mem).1,
                           major_stack :=
                             Frame.mgr_yield_until condition :: Frame.user k :: rest } := by
    intro pc k hmaj hcall
    have hstk : m.stack = Frame.user pc :: rest := by rw [stack_major hcur]; exact hmaj
    rw [step_user prog hstk, hcall]
    unfold call
    simp only [hcur, Machine.setStack]
  refine ⟨hcall, ?_, ?_, ?_, ?_⟩
  · intro hmaj
    have hstep := until_head prog hcur hmaj
    refine ⟨?_, ?_, ?_⟩
    · intro ht
      simp only [ht, if_true] at hstep
      exact hstep
    · intro hf
      simp only [hf, Bool.false_eq_true, if_false] at hstep
      exact hstep
    · intro m1 h1 hret
      cases hb : (condition m.mem).2 with
      | true => rfl
      | false =>
        exfalso
        simp only [hb, Bool.false_eq_true, if_false] at hstep
        rw [hstep] at h1
        injection h1 with h1
        subst h1
        have hlen := congrArg List.length hret
        simp only [List.length_cons] at hlen
        omega
  · intro i hmaj hend
    exact pass_return prog hcur hmaj hend
  · intro pc k hmaj hc ht
    have s1 := hcall pc k hmaj hc
    generalize hx : ({ m with mem := (prog pc m.mem).1,
                              major_stack :=
                                Frame.mgr_yield_until condition :: Frame.user k :: rest } :
      Machine L σ) = x at s1
    have hxc : x.current = none := by rw [← hx]; exact hcur
    have hxm : x.major_stack = Frame.mgr_yield_until condition :: Frame.user k :: rest := by
      rw [← hx]
    have s2 := until_head prog hxc hxm
    have key := run_two prog s1 s2
    subst hx
    simp only [ht, if_true] at key
    exact key
  · intro k hmaj hl hfalse htrue
    exact until_empty prog condition rest k m hcur hmaj hl hfalse htrue

end Claims14

end Spark

namespace Example

open Spark

set_option maxRecDepth 100000 in
/-- The program `root_until`: the call of `yield_until(ran_twice)` is made in the third step
and has returned eleven steps later, after three evaluations of the predicate and two
passes, each of which ran the task once. -/
theorem root_until_run :
    (match run root_until 3 (Machine.init 0 0), run root_until 14 (Machine.init 0 0) with
      | Except.ok m0, Except.ok mn =>
        decide (m0.mem = 0) &&
          (match m0.major_stack with
            | [Frame.mgr_yield_until _, Frame.user 3] => true
            | _ => false) &&
          (match mn.major_stack with
            | [Frame.user 3] => true
            | _ => false) &&
          decide (mn.current = none) && decide (mn.mem = 32) &&
          decide (mn.trace =
            [Event.cond 0 true, Event.switch none (some 0), Event.switch (some 0) none,
              Event.cond 0 true, Event.switch none (some 0), Event.switch (some 0) none])
      | _, _ => false) = true := by
  decide

end Example

namespace Spark

/-- Witness of C14: with an empty registry, `yield_until(third_time)` returns after two
passes and three evaluations of the predicate. -/
theorem root_yield_until_witness :
    run Example.three_yields (2 * 2 + 1) Example.until_third_time =
      Except.ok { Example.until_third_time with
        mem := mem_after Example.third_time (2 + 1) Example.until_third_time.mem
        major_stack := [Frame.user 9] } :=
  (root_yield_until Example.three_yields Example.until_third_time Example.third_time
    [Frame.user 9] rfl).2.2.2.2 2 rfl rfl (by decide) (by decide)

end Spark

namespace Spark

set_option maxRecDepth 100000 in
/-- C15. Two coroutines awaiting one target (`Example.two_awaiters`). After 22 steps the
first awaiter has been resumed by the second pass and is inside `Coroutine::await` at
line 431, about to call `fiber.resume()`; the target, which the second awaiter resumed
in the meantime, is `Finished`; the next step is that `resume()`, and it fails on the
assertion `_status == Supended`. So `await` issues a `resume()` on a target that is not
`Supended`. -/
theorem await_resume_unguarded :
    ∃ m : Machine Nat Nat,
      run Example.two_awaiters 22 (Machine.init 0 0) = Except.ok m ∧
      m.current = some 1 ∧ (∃ rest : List (Frame Nat Nat), m.stack = Frame.await_431 0 :: rest) ∧
      Coroutine.status m (m.handles 0) = Except.ok Status.Finished ∧
      step Example.two_awaiters m = Except.error Err.assert_supended ∧
      run Example.two_awaiters 23 (Machine.init 0 0) = Except.error Err.assert_supended := by
  have h : (match run Example.two_awaiters 22 (Machine.init 0 0) with
      | Except.ok m =>
        decide (m.current = some 1) &&
          (match m.stack with
            | Frame.await_431 0 :: _ => true
            | _ => false) &&
          (match Coroutine.status m (m.handles 0) with
            | Except.ok s => decide (s = Status.Finished)
            | Except.error _ => false) &&
          (match step Example.two_awaiters m with
            | Except.ok _ => false
            | Except.error e => decide (e = Err.assert_supended))
      | Except.error _ => false) = true := by decide
  cases hr : run Example.two_awaiters 22 (Machine.init 0 0) with
  | error e => rw [hr] at h; cases h
  | ok m =>
    rw [hr] at h
    simp only [Bool.and_eq_true, decide_eq_true_eq] at h
    obtain ⟨⟨⟨h1, h2⟩, h3⟩, h4⟩ := h
    have hstep : step Example.two_awaiters m = Except.error Err.assert_supended := by
      cases hs : step Example.two_awaiters m with
      | ok _ => rw [hs] at h4; cases h4
      | error e =>
        rw [hs] at h4
        simp only [decide_eq_true_eq] at h4
        rw [h4]
    refine ⟨m, rfl, h1, ?_, ?_, hstep, ?_⟩
    · cases hstk : m.stack with
      | nil => rw [hstk] at h2; cases h2
      | cons top rest =>
        rw [hstk] at h2
        cases top with
        | await_431 hd =>
          cases hd with
          | zero => exact ⟨rest, rfl⟩
          | succ n => simp at h2
        | _ => simp at h2
    · cases hst : Coroutine.status m (m.handles 0) with
      | error e => rw [hst] at h3; cases h3
      | ok s =>
        rw [hst] at h3
        simp only [decide_eq_true_eq] at h3
        rw [h3]
    · have : run Example.two_awaiters (22 + 1) (Machine.init 0 0) =
          Except.error Err.assert_supended := by
        rw [run_add, hr]
        simp only [run, hstep]
      exact this

end Spark

namespace Demo

open Spark

set_option maxRecDepth 100000 in
/-- C16. Teardown of simple.cpp. When `main` has returned from its loop (813 steps, as in
the run of C9), the registry still holds the consumer, the context `0`, whose status is
`Supended`: it yielded at line 47 in the pass in which the producer set `g_shutdown`, and
no pass followed. The producer is `Finished` and both handle variables of `main` are
empty. So the teardown reaches `Coroutine::uninit()`, which destroys the registry, and
the destructor of the consumer's context fails on the assertion
`_status != Supended`. -/
theorem teardown_consumer_supended :
    ∃ m : Machine Pc Globals, run prog 813 start = Except.ok m ∧
      m.current = none ∧ m.major_stack.length = 0 ∧ m.mem.g_shutdown = true ∧
      m.handles consumer = { _impl := none } ∧ m.handles producer = { _impl := none } ∧
      m._fiber_list = [{ _impl := some 0 }] ∧
      m.fibers.map (fun c => (c._task, c._status)) =
        [(Pc.do_consumer, Status.Supended), (Pc.do_producer, Status.Finished)] ∧
      CoroutineImpl.destructor m 0 = Except.error Err.assert_not_supended ∧
      Coroutine.uninit m = Except.error Err.assert_not_supended ∧
      teardown m = Except.error Err.assert_not_supended := by
  have h : (match run prog 813 start with
      | Except.ok m =>
        decide (m.current = none ∧ m.major_stack.length = 0 ∧ m.mem.g_shutdown = true ∧
          m.handles consumer = { _impl := none } ∧ m.handles producer = { _impl := none } ∧
          m._fiber_list = [{ _impl := some 0 }] ∧
          m.fibers.map (fun c => (c._task, c._status)) =
            [(Pc.do_consumer, Status.Supended), (Pc.do_producer, Status.Finished)]) &&
          (match CoroutineImpl.destructor m 0 with
            | Except.ok _ => false
            | Except.error e => decide (e = Err.assert_not_supended)) &&
          (match Coroutine.uninit m with
            | Except.ok _ => false
            | Except.error e => decide (e = Err.assert_not_supended)) &&
          (match teardown m with
            | Except.ok _ => false
            | Except.error e => decide (e = Err.assert_not_supended))
      | Except.error _ => false) = true := by decide
  cases hr : run prog 813 start with
  | error e => rw [hr] at h; cases h
  | ok m =>
    rw [hr] at h
    simp only [Bool.and_eq_true, decide_eq_true_eq] at h
    obtain ⟨⟨⟨⟨h1, h2, h3, h4, h5, h6, h7⟩, h8⟩, h9⟩, h10⟩ := h
    refine ⟨m, rfl, h1, h2, h3, h4, h5, h6, h7, ?_, ?_, ?_⟩
    · cases hd : CoroutineImpl.destructor m 0 with
      | ok _ => rw [hd] at h8; cases h8
      | error e => rw [hd] at h8; simp only [decide_eq_true_eq] at h8; rw [h8]
    · cases hd : Coroutine.uninit m with
      | ok _ => rw [hd] at h9; cases h9
      | error e => rw [hd] at h9; simp only [decide_eq_true_eq] at h9; rw [h9]
    · cases hd : teardown m with
      | ok _ => rw [hd] at h10; cases h10
      | error e => rw [hd] at h10; simp only [decide_eq_true_eq] at h10; rw [h10]

end Demo

namespace Spark

section Claims17

variable {L σ : Type}

/-- C17. `manage(h)` moves the handle. The registry afterwards is the old registry followed by
one entry, which holds what `h` held; the entries that were there are where they were; no
context changes, so the status and the resume-condition of the managed context are as
before; `h` is empty (`operator bool` false) and the other handle variables are unchanged;
`resume()` and `status()` through `h` now fail on the assertion `_impl`. As a call from the
root's user code this is all that the step does, besides moving on to the next control
state. -/
theorem manage_moves_handle (prog : L → σ → σ × Call L σ) (m : Machine L σ) (h : Hid) :
    (CoroutineMgr.manage m h)._fiber_list = m._fiber_list ++ [m.handles h] ∧
    (∀ i : Nat, i < m._fiber_list.length →
      (CoroutineMgr.manage m h)._fiber_list[i]? = m._fiber_list[i]?) ∧
    (CoroutineMgr.manage m h)._fiber_list[m._fiber_list.length]? = some (m.handles h) ∧
    (CoroutineMgr.manage m h).fibers = m.fibers ∧
    ((CoroutineMgr.manage m h).handles h).operator_bool = false ∧
    (∀ j : Hid, j ≠ h → (CoroutineMgr.manage m h).handles j = m.handles j) ∧
    Coroutine.resume (CoroutineMgr.manage m h) ((CoroutineMgr.manage m h).handles h) =
      Except.error Err.assert_impl ∧
    Coroutine.status (CoroutineMgr.manage m h) ((CoroutineMgr.manage m h).handles h) =
      Except.error Err.assert_impl ∧
    (CoroutineMgr.manage m h).mem = m.mem ∧ (CoroutineMgr.manage m h).current = m.current ∧
    (CoroutineMgr.manage m h).major_stack = m.major_stack ∧
    (CoroutineMgr.manage m h).trace = m.trace ∧
    (∀ (pc k : L) (rest : List (Frame L σ)), m.current = none →
      m.major_stack = Frame.user pc :: rest → (prog pc m.mem).2 = Call.manage h k →
      step prog m =
        Except.ok { m with
          mem := (prog pc m.mem).1
          _fiber_list := m._fiber_list ++ [m.handles h]
          handles := fun j => if j = h then { _impl := none } else m.handles j
          major_stack := Frame.user k :: rest }) := by
  refine ⟨rfl, ?_, ?_, rfl, ?_, ?_, ?_, ?_, rfl, rfl, rfl, rfl, ?_⟩
  · intro i hi
    simp only [CoroutineMgr.manage]
    rw [List.getElem?_append_left hi]
  · simp only [CoroutineMgr.manage]
    rw [List.getElem?_append_right (Nat.le_refl _)]
    simp
  · simp [CoroutineMgr.manage, Coroutine.operator_bool]
  · intro j hj
    simp [CoroutineMgr.manage, hj]
  · simp [CoroutineMgr.manage, Coroutine.resume]
  · simp [CoroutineMgr.manage, Coroutine.status]
  · intro pc k rest hcur hmaj hcall
    have hstk : m.stack = Frame.user pc :: rest := by rw [stack_major hcur]; exact hmaj
    rw [step_user prog hstk, hcall]
    unfold call
    simp only [CoroutineMgr.manage, Machine.setStack, hcur]

end Claims17

/-- Witness of C17: `main` hands the handle variable `1`, which holds a suspended context,
to the empty registry. -/
theorem manage_moves_handle_witness :
    step (fun _ s => (s, Call.manage 1 5)) Example.two_handles =
      Except.ok { Example.two_handles with
        mem := Example.two_handles.mem
        _fiber_list := Example.two_handles._fiber_list ++ [Example.two_handles.handles 1]
        handles := fun j => if j = 1 then { _impl := none } else Example.two_handles.handles j
        major_stack := [Frame.user 5] } :=
  (manage_moves_handle (fun _ s => (s, Call.manage 1 5)) Example.two_handles 1).2.2.2.2.2.2.2.2.2.2.2.2
    0 5 [] rfl rfl rfl

section Claims18

variable {L σ : Type}

/-- C18. Move assignment `dst = std::move(src)`. It completes exactly when `dst` is empty.
Then `dst` holds what `src` held, `src` is empty, and no other handle variable, no context
and nothing else has changed. When `dst` holds a context the call ends in `terminate()`;
the status of that context is not looked at, so this is so for `Finished` and `Excepted`
contexts too. -/
theorem move_assign_contract (m : Machine L σ) (dst src : Hid) :
    ((∃ m1 : Machine L σ, Coroutine.operator_assign m dst src = Except.ok m1) ↔
      (m.handles dst).operator_bool = false) ∧
    ((m.handles dst).operator_bool = false →
      ∃ m1 : Machine L σ, Coroutine.operator_assign m dst src = Except.ok m1 ∧
        m1.handles dst = m.handles src ∧ (m1.handles src).operator_bool = false ∧
        (∀ j : Hid, j ≠ dst → j ≠ src → m1.handles j = m.handles j) ∧
        m1.fibers = m.fibers ∧ m1._fiber_list = m._fiber_list ∧ m1.mem = m.mem ∧
        m1.current = m.current ∧ m1.major_stack = m.major_stack ∧ m1.trace = m.trace) ∧
    (∀ (f : Fid) (c : CoroutineImpl L σ) (st : Status), (m.handles dst)._impl = some f →
      m.fibers[f]? = some c → c._status = st →
      Coroutine.operator_assign m dst src = Except.error Err.terminate) := by
  refine ⟨?_, ?_, ?_⟩
  · constructor
    · rintro ⟨m1, h1⟩
      unfold Coroutine.operator_assign at h1
      cases hd : (m.handles dst)._impl with
      | none => simp [Coroutine.operator_bool, hd]
      | some f => rw [hd] at h1; cases h1
    · intro he
      have hd : (m.handles dst)._impl = none := by
        simpa [Coroutine.operator_bool] using he
      unfold Coroutine.operator_assign
      rw [hd]
      exact ⟨_, rfl⟩
  · intro he
    have hd : (m.handles dst)._impl = none := by
      simpa [Coroutine.operator_bool] using he
    refine ⟨{ m with
        handles := fun j =>
          if j = dst then m.handles src else if j = src then m.handles dst else m.handles j },
      ?_, ?_, ?_, ?_, rfl, rfl, rfl, rfl, rfl, rfl⟩
    · unfold Coroutine.operator_assign
      rw [hd]
    · simp
    · by_cases hsd : src = dst
      · subst hsd
        simp [Coroutine.operator_bool, hd]
      · simp [Coroutine.operator_bool, hsd, hd]
    · intro j hj1 hj2
      simp [hj1, hj2]
  · intro f c st hd _ _
    unfold Coroutine.operator_assign
    rw [hd]

end Claims18

/-- Witness of C18: in a thread whose handle variable `0` holds a finished context, `1` a
suspended one and `2` none, the assignment of `1` to `2` completes and the assignment of
`1` to `0` ends in `terminate()`. -/
theorem move_assign_contract_witness :
    (∃ m1 : Machine Nat Nat,
      Coroutine.operator_assign Example.two_handles 2 1 = Except.ok m1 ∧
        m1.handles 2 = Example.two_handles.handles 1 ∧
        (m1.handles 1).operator_bool = false ∧
        (∀ j : Hid, j ≠ 2 → j ≠ 1 → m1.handles j = Example.two_handles.handles j) ∧
        m1.fibers = Example.two_handles.fibers ∧
        m1._fiber_list = Example.two_handles._fiber_list ∧
        m1.mem = Example.two_handles.mem ∧ m1.current = Example.two_handles.current ∧
        m1.major_stack = Example.two_handles.major_stack ∧
        m1.trace = Example.two_handles.trace) ∧
    Coroutine.operator_assign Example.two_handles 0 1 = Except.error Err.terminate :=
  ⟨(move_assign_contract Example.two_handles 2 1).2.1 rfl,
    (move_assign_contract Example.two_handles 0 1).2.2 0 Example.finished Status.Finished
      rfl rfl rfl⟩

end Spark

namespace Spark

section Segments

variable {L σ : Type}

/-- While a fiber does not run, its stack stays as it is. -/
theorem run_other_stack (prog : L → σ → σ × Call L σ) (r : Option Fid) :
    ∀ (n : Nat) (m m1 : Machine L σ), run prog n m = Except.ok m1 →
      (∀ (j : Nat) (mj : Machine L σ), j < n → run prog j m = Except.ok mj →
        mj.current ≠ r) →
      m.stackOf r ≠ [] → m1.stackOf r = m.stackOf r := by
  intro n
  induction n with
  | zero =>
    intro m m1 h _ _
    simp only [run] at h
    injection h with h; subst h; rfl
  | succ n ih =>
    intro m m1 h hH hne
    simp only [run] at h
    cases hs : step prog m with
    | error e => simp [hs] at h
    | ok m2 =>
      simp only [hs] at h
      have hcur0 : m.current ≠ r := hH 0 m (Nat.succ_pos n) rfl
      have e1 : m2.stackOf r = m.stackOf r := step_other_stack prog hs (Ne.symm hcur0) hne
      have e2 := ih m2 m1 h
        (fun j mj hj hr => hH (j + 1) mj (Nat.succ_lt_succ hj) (by simp only [run, hs]; exact hr))
        (by rw [e1]; exact hne)
      exact e2.trans e1

/-- While only the context `t` runs, no `resume()` switches into it, so its recorded resumer
stays. -/
theorem run_same_from (prog : L → σ → σ × Call L σ) (t : Fid) :
    ∀ (n : Nat) (m m1 : Machine L σ) (c : CoroutineImpl L σ), run prog n m = Except.ok m1 →
      (∀ (j : Nat) (mj : Machine L σ), j < n → run prog j m = Except.ok mj →
        mj.current = some t) →
      m.fibers[t]? = some c →
      ∃ c1 : CoroutineImpl L σ, m1.fibers[t]? = some c1 ∧
        c1._fiber_come_from = c._fiber_come_from := by
  intro n
  induction n with
  | zero =>
    intro m m1 c h _ hc
    simp only [run] at h
    injection h with h; subst h
    exact ⟨c, hc, rfl⟩
  | succ n ih =>
    intro m m1 c h hH hc
    simp only [run] at h
    cases hs : step prog m with
    | error e => simp [hs] at h
    | ok m2 =>
      simp only [hs] at h
      have hcur0 : m.current = some t := hH 0 m (Nat.succ_pos n) rfl
      obtain ⟨c2, hc2, hfrom⟩ := come_from_step prog hs t c hc
      have hsame : c2._fiber_come_from = c._fiber_come_from := by
        rcases hfrom with hsame | ⟨_, hne, _⟩
        · exact hsame
        · exact absurd hcur0 hne
      obtain ⟨c1, hc1, h1⟩ := ih m2 m1 c2 h
        (fun j mj hj hr => hH (j + 1) mj (Nat.succ_lt_succ hj) (by simp only [run, hs]; exact hr))
        hc2
      exact ⟨c1, hc1, h1.trans hsame⟩

/-- The end of a task: the status is stored and the recorded resumer runs next. -/
theorem end_step (prog : L → σ → σ × Call L σ) {x : Machine L σ} {t : Fid}
    {c : CoroutineImpl L σ} {pc : L} {rs : List (Frame L σ)} {r : Option Fid} {st : Status}
    (hcur : x.current = some t) (hc : x.fibers[t]? = some c)
    (hcf : c._fiber_come_from = some r) (hstk : c.stack = Frame.user pc :: rs)
    (hend : (prog pc x.mem).2 = Call.raise ∧ st = Status.Excepted ∨
      (prog pc x.mem).2 = Call.ret ∧ st = Status.Finished) :
    ∃ x1 : Machine L σ, step prog x = Except.ok x1 ∧ x1.current = r ∧
      x1.handles = x.handles ∧ x1.trace = x.trace ++ [Event.switch (some t) r] ∧
      x1.fibers[t]? =
        some { c with _status := st, stack := [], _resume_condition := always_true } := by
  have hxs : x.stack = Frame.user pc :: rs := by
    simp [Machine.stack, hcur, hc, hstk]
  rw [step_user prog hxs]
  generalize hx0 : ({ x with mem := (prog pc x.mem).1 } : Machine L σ) = x0
  have hcur0 : x0.current = some t := by rw [← hx0]; exact hcur
  have hc0 : x0.fibers[t]? = some c := by rw [← hx0]; exact hc
  have htr0 : x0.trace = x.trace := by rw [← hx0]
  have hh0 : x0.handles = x.handles := by rw [← hx0]
  obtain ⟨x1, h1, h2, _, h4, _, _, h7, h8⟩ := do_fiber_work_switch x0 t st hcur0 hc0 hcf
  refine ⟨x1, ?_, h2, h4.trans hh0, by rw [h7, htr0], by rw [h8 t]; simp⟩
  rcases hend with ⟨hcall, rfl⟩ | ⟨hcall, rfl⟩
  · rw [hcall, call_raise_fiber rs hcur0]; exact h1
  · rw [hcall, call_ret_fiber rs hcur0]; exact h1

/-- A `resume()` by the fiber running in `m` has switched into the context `this`, giving
`m2`. If the thread then runs `n` steps in none of which that fiber runs, after which the
task of `this` ends with that fiber still recorded as its resumer, then one step later the
fiber runs again on the stack it had in `m2`, and the status of `this` is stored. -/
theorem segment_end (prog : L → σ → σ × Call L σ) {m2 m3 : Machine L σ} {this : Fid}
    {r : Option Fid} {c3 : CoroutineImpl L σ} {pc : L} {rs : List (Frame L σ)} {st : Status}
    (n : Nat) (hrun : run prog n m2 = Except.ok m3)
    (hquiet : ∀ (j : Nat) (mj : Machine L σ), j ≤ n → run prog j m2 = Except.ok mj →
      mj.current ≠ r)
    (hne : m2.stackOf r ≠ [])
    (hcur3 : m3.current = some this) (hc3 : m3.fibers[this]? = some c3)
    (hfrom : c3._fiber_come_from = some r) (hstk : c3.stack = Frame.user pc :: rs)
    (hend : (prog pc m3.mem).2 = Call.raise ∧ st = Status.Excepted ∨
      (prog pc m3.mem).2 = Call.ret ∧ st = Status.Finished) :
    ∃ (m4 : Machine L σ) (c4 : CoroutineImpl L σ), run prog (n + 1) m2 = Except.ok m4 ∧
      m4.current = r ∧ m4.stack = m2.stackOf r ∧ m4.fibers[this]? = some c4 ∧
      c4._status = st ∧ m4.handles = m3.handles ∧
      m4.trace = m3.trace ++ [Event.switch (some this) r] := by
  obtain ⟨m4, h1, h2, h3, h4, h5⟩ := end_step prog hcur3 hc3 hfrom hstk hend
  have hrun4 : run prog (n + 1) m2 = Except.ok m4 :=
    run_trans prog hrun (by simp only [run, h1])
  have hstack : m4.stackOf r = m2.stackOf r :=
    run_other_stack prog r (n + 1) m2 m4 hrun4
      (fun j mj hj hr => hquiet j mj (Nat.le_of_lt_succ hj) hr) hne
  refine ⟨m4, _, hrun4, h2, ?_, h5, rfl, h3, h4⟩
  rw [stack_eq_stackOf, h2]; exact hstack

/-- A step made by the context `t`, which was resumed from another fiber `r`, and after which
`t` still runs: there was no switch and no `Sleep`, and the log gained at most an
evaluation, with result false, of the condition of another context. -/
theorem quiet_step (prog : L → σ → σ × Call L σ) {m m1 : Machine L σ} {t : Fid}
    {c : CoroutineImpl L σ} {r : Option Fid} (h : step prog m = Except.ok m1)
    (hcur : m.current = some t) (hcur1 : m1.current = some t) (hc : m.fibers[t]? = some c)
    (hfrom : c._fiber_come_from = some r) (hr : r ≠ some t) :
    ∃ τ : List Event, m1.trace = m.trace ++ τ ∧
      ∀ e ∈ τ, ∃ g : Fid, g ≠ t ∧ e = Event.cond g false := by
  have key := step_cases prog
    (fun x => x.current = some t ∧ x.trace = m.trace ∧
      ∃ d : CoroutineImpl L σ, x.fibers[t]? = some d ∧ d._fiber_come_from = some r)
    (fun x => x.current = some t → ∃ τ : List Event, x.trace = m.trace ++ τ ∧
      ∀ e ∈ τ, ∃ g : Fid, g ≠ t ∧ e = Event.cond g false)
    ?_ ?_ ?_ ?_ ?_ ?_ ?_ ?_ ?_ ?_ ⟨hcur, rfl, c, hc, hfrom⟩ h
  · exact key hcur1
  · intro x hx _
    exact ⟨[], by simp [hx.2.1], by simp⟩
  · intro x μ hx; exact hx
  · intro x hx hnone
    rw [hx.1] at hnone; cases hnone
  · intro x s hx _ _
    obtain ⟨h1, h2, d, h3, h4⟩ := hx
    refine ⟨by rw [setStack_current]; exact h1, by rw [setStack_trace]; exact h2,
      { d with stack := s }, ?_, h4⟩
    rw [setStack_fibers]; simp [h1, h3]
  · intro x i rest hx _; exact hx
  · intro x hd hx; exact hx
  · intro x hd task hx
    obtain ⟨h1, h2, d, h3, h4⟩ := hx
    refine ⟨by rw [go_current]; exact h1, ?_, d, go_fibers_old hd task h3, h4⟩
    unfold Coroutine.go
    cases (x.handles hd)._impl <;> exact h2
  · intro x x1 this hx _ hres
    obtain ⟨h1, h2, d, h3, h4⟩ := hx
    obtain ⟨d0, hd0, hne, _, hcase⟩ := resume_ok hres
    have hthis : this ≠ t := by
      intro e; subst e; exact hne h1
    rcases hcase with ⟨_, rfl⟩ | ⟨_, rfl⟩
    · intro _
      exact ⟨[Event.cond this false], by simp [h2], by
        intro e he
        rw [List.mem_singleton] at he
        exact ⟨this, hthis, he⟩⟩
    · intro hc1
      simp only at hc1
      injection hc1 with hc1
      exact absurd hc1 hthis
  · intro x x1 this p hx hy
    obtain ⟨h1, h2, d, h3, h4⟩ := hx
    obtain ⟨d0, src, hc0, hd0, hsrc, rfl⟩ := yield_until_ok hy
    rw [h1] at hc0; injection hc0 with hc0; subst hc0
    rw [h3] at hd0; injection hd0 with hd0; subst hd0
    rw [h4] at hsrc; injection hsrc with hsrc; subst hsrc
    intro hc1
    exact absurd hc1 hr
  · intro x x1 this st hx _ hcx hw
    obtain ⟨h1, h2, d, h3, h4⟩ := hx
    rw [h1] at hcx; injection hcx with hcx; subst hcx
    rw [do_fiber_work_eq] at hw
    obtain ⟨d0, src, _, hd0, hsrc, rfl⟩ := yield_until_ok hw
    have hf := finish_fibers st h1 h3 t
    simp only [if_true] at hf
    rw [hf] at hd0; injection hd0 with hd0; subst hd0
    simp only at hsrc
    rw [h4] at hsrc; injection hsrc with hsrc; subst hsrc
    intro hc1
    exact absurd hc1 hr

/-- While only the context `t` runs, resumed from another fiber: no switch, no `Sleep`, and
the log gains only evaluations, with result false, of conditions of other contexts. -/
theorem quiet_run (prog : L → σ → σ × Call L σ) (t : Fid) (r : Option Fid) (hr : r ≠ some t) :
    ∀ (n : Nat) (m m1 : Machine L σ) (c : CoroutineImpl L σ), run prog n m = Except.ok m1 →
      (∀ (j : Nat) (mj : Machine L σ), j ≤ n → run prog j m = Except.ok mj →
        mj.current = some t) →
      m.fibers[t]? = some c → c._fiber_come_from = some r →
      ∃ τ : List Event, m1.trace = m.trace ++ τ ∧
        ∀ e ∈ τ, ∃ g : Fid, g ≠ t ∧ e = Event.cond g false := by
  intro n
  induction n with
  | zero =>
    intro m m1 c h _ _ _
    simp only [run] at h
    injection h with h; subst h
    exact ⟨[], by simp, by simp⟩
  | succ n ih =>
    intro m m1 c h hH hc hfrom
    simp only [run] at h
    cases hs : step prog m with
    | error e => simp [hs] at h
    | ok m2 =>
      simp only [hs] at h
      have hcur0 : m.current = some t := hH 0 m (Nat.zero_le _) rfl
      have hcur2 : m2.current = some t :=
        hH 1 m2 (Nat.succ_le_succ (Nat.zero_le n)) (by simp only [run, hs])
      obtain ⟨τ1, e1, g1⟩ := quiet_step prog hs hcur0 hcur2 hc hfrom hr
      obtain ⟨c2, hc2, hsame⟩ := come_from_step prog hs t c hc
      have hfrom2 : c2._fiber_come_from = some r := by
        rcases hsame with hsame | ⟨_, hne, _⟩
        · rw [hsame]; exact hfrom
        · exact absurd hcur0 hne
      obtain ⟨τ2, e2, g2⟩ := ih m2 m1 c2 h
        (fun j mj hj hrj => hH (j + 1) mj (Nat.succ_le_succ hj)
          (by simp only [run, hs]; exact hrj))
        hc2 hfrom2
      refine ⟨τ1 ++ τ2, by rw [e2, e1, List.append_assoc], ?_⟩
      intro e he
      rcases List.mem_append.mp he with he | he
      · exact g1 e he
      · exact g2 e he

end Segments

end Spark

namespace Spark

section Claims10

variable {L σ : Type}

/-- C10, as amended. Failure capture. Let `resume()` by the running fiber switch into the
`Supended` context `this`. First part: if the thread then runs `n` steps in none of which
the caller runs, and then the task of `this` raises (or returns) with the caller still
recorded as its resumer, that is, no other `resume()` has switched into `this` since, then
the next step succeeds, so no exception is propagated; after it the running fiber is the
caller, on the stack it had when it issued the `resume()`, and the status of `this` is
`Excepted` (or `Finished`). Second part: this is so in particular when only `this` runs
until its task ends; then the log of the whole call is the evaluation of the condition,
the switch into `this`, evaluations with result false of conditions of other contexts, and
the final switch back. -/
theorem failure_capture (prog : L → σ → σ × Call L σ) (m : Machine L σ) (this : Fid)
    (c : CoroutineImpl L σ) (hc : m.fibers[this]? = some c) (hcur : m.current ≠ some this)
    (hs : c._status = Status.Supended) (hp : (c._resume_condition m.mem).2 = true)
    (hne : m.stack ≠ []) :
    ∃ m2 : Machine L σ, CoroutineImpl.resume m this = Except.ok m2 ∧
      m2.current = some this ∧ m2.stack = c.stack ∧ m2.mem = (c._resume_condition m.mem).1 ∧
      m2.fibers[this]? = some { c with _fiber_come_from := some m.current } ∧
      m2.trace = m.trace ++ [Event.cond this true, Event.switch m.current (some this)] ∧
      (∀ (n : Nat) (m3 : Machine L σ) (c3 : CoroutineImpl L σ) (pc : L)
        (rs : List (Frame L σ)) (st : Status),
        run prog n m2 = Except.ok m3 →
        (∀ (j : Nat) (mj : Machine L σ), j ≤ n → run prog j m2 = Except.ok mj →
          mj.current ≠ m.current) →
        m3.current = some this → m3.fibers[this]? = some c3 →
        c3._fiber_come_from = some m.current → c3.stack = Frame.user pc :: rs →
        ((prog pc m3.mem).2 = Call.raise ∧ st = Status.Excepted ∨
          (prog pc m3.mem).2 = Call.ret ∧ st = Status.Finished) →
        ∃ (m4 : Machine L σ) (c4 : CoroutineImpl L σ),
          run prog (n + 1) m2 = Except.ok m4 ∧ m4.current = m.current ∧
          m4.stack = m.stack ∧ m4.fibers[this]? = some c4 ∧ c4._status = st ∧
          m4.trace = m3.trace ++ [Event.switch (some this) m.current]) ∧
      (∀ (n : Nat) (m3 : Machine L σ) (c3 : CoroutineImpl L σ) (pc : L)
        (rs : List (Frame L σ)) (st : Status),
        run prog n m2 = Except.ok m3 →
        (∀ (j : Nat) (mj : Machine L σ), j ≤ n → run prog j m2 = Except.ok mj →
          mj.current = some this) →
        m3.fibers[this]? = some c3 → c3.stack = Frame.user pc :: rs →
        ((prog pc m3.mem).2 = Call.raise ∧ st = Status.Excepted ∨
          (prog pc m3.mem).2 = Call.ret ∧ st = Status.Finished) →
        ∃ (m4 : Machine L σ) (c4 : CoroutineImpl L σ) (τ : List Event),
          run prog (n + 1) m2 = Except.ok m4 ∧ m4.current = m.current ∧
          m4.stack = m.stack ∧ m4.fibers[this]? = some c4 ∧ c4._status = st ∧
          m4.trace = m.trace ++ [Event.cond this true, Event.switch m.current (some this)] ++
            τ ++ [Event.switch (some this) m.current] ∧
          ∀ e ∈ τ, ∃ g : Fid, g ≠ this ∧ e = Event.cond g false) := by
  obtain ⟨m2, h1, h2, h3, _, _, _, h7, h8, h9⟩ := resume_switch m this hc hcur hs hp
  have hc2 : m2.fibers[this]? = some { c with _fiber_come_from := some m.current } := by
    rw [h9 this]; simp
  have hne0 : m.stackOf m.current ≠ [] := by rw [← stack_eq_stackOf]; exact hne
  have hstk2 : m2.stackOf m.current = m.stack := by
    rw [resume_stackOf h1 hne0, ← stack_eq_stackOf]
  have hne2 : m2.stackOf m.current ≠ [] := by rw [hstk2]; exact hne
  have gen : ∀ (n : Nat) (m3 : Machine L σ) (c3 : CoroutineImpl L σ) (pc : L)
      (rs : List (Frame L σ)) (st : Status),
      run prog n m2 = Except.ok m3 →
      (∀ (j : Nat) (mj : Machine L σ), j ≤ n → run prog j m2 = Except.ok mj →
        mj.current ≠ m.current) →
      m3.current = some this → m3.fibers[this]? = some c3 →
      c3._fiber_come_from = some m.current → c3.stack = Frame.user pc :: rs →
      ((prog pc m3.mem).2 = Call.raise ∧ st = Status.Excepted ∨
        (prog pc m3.mem).2 = Call.ret ∧ st = Status.Finished) →
      ∃ (m4 : Machine L σ) (c4 : CoroutineImpl L σ),
        run prog (n + 1) m2 = Except.ok m4 ∧ m4.current = m.current ∧
        m4.stack = m.stack ∧ m4.fibers[this]? = some c4 ∧ c4._status = st ∧
        m4.trace = m3.trace ++ [Event.switch (some this) m.current] := by
    intro n m3 c3 pc rs st hrun hquiet hcur3 hc3 hfrom hstk hend
    obtain ⟨m4, c4, g1, g2, g3, g4, g5, _, g7⟩ :=
      segment_end prog n hrun hquiet hne2 hcur3 hc3 hfrom hstk hend
    exact ⟨m4, c4, g1, g2, g3.trans hstk2, g4, g5, g7⟩
  refine ⟨m2, h1, h2, h8, h3, hc2, h7, gen, ?_⟩
  intro n m3 c3 pc rs st hrun hstay hc3 hstk hend
  have hcur3 : m3.current = some this := hstay n m3 (Nat.le_refl n) hrun
  have hquiet : ∀ (j : Nat) (mj : Machine L σ), j ≤ n → run prog j m2 = Except.ok mj →
      mj.current ≠ m.current := by
    intro j mj hj hr e
    rw [hstay j mj hj hr] at e
    exact hcur e.symm
  obtain ⟨c3b, hc3b, hfrom⟩ := run_same_from prog this n m2 m3 _ hrun
    (fun j mj hj hr => hstay j mj (Nat.le_of_lt hj) hr) hc2
  rw [hc3] at hc3b; injection hc3b with hc3b; subst hc3b
  obtain ⟨m4, c4, g1, g2, g3, g4, g5, g6⟩ :=
    gen n m3 c3 pc rs st hrun hquiet hcur3 hc3 hfrom hstk hend
  obtain ⟨τ, e1, e2⟩ := quiet_run prog this m.current hcur n m2 m3 _ hrun hstay hc2 rfl
  refine ⟨m4, c4, τ, g1, g2, g3, g4, g5, ?_, e2⟩
  rw [g6, e1, h7]

end Claims10

end Spark

namespace Spark

/-- Witness of C10: the major fiber resumes a fresh context whose task binds a coroutine to a
handle variable and then raises. -/
theorem failure_capture_witness :
    ∃ (m2 m4 : Machine Nat Nat) (c4 : CoroutineImpl Nat Nat) (τ : List Event),
      CoroutineImpl.resume (Example.thread [CoroutineImpl.mk_task 0] [] none) 0 =
        Except.ok m2 ∧
      run Example.binds_then_raises (1 + 1) m2 = Except.ok m4 ∧
      m4.current = none ∧ m4.stack = [Frame.user 0] ∧ m4.fibers[0]? = some c4 ∧
      c4._status = Status.Excepted ∧
      m4.trace = [] ++ [Event.cond 0 true, Event.switch none (some 0)] ++ τ ++
        [Event.switch (some 0) none] ∧
      ∀ e ∈ τ, ∃ g : Fid, g ≠ 0 ∧ e = Event.cond g false := by
  obtain ⟨m2, h1, _, _, _, _, _, _, hstay⟩ :=
    failure_capture Example.binds_then_raises
      (Example.thread [CoroutineImpl.mk_task 0] [] none) 0 (CoroutineImpl.mk_task 0)
      rfl (by decide) rfl rfl (List.cons_ne_nil (Frame.user 0) [])
  have hm2 : m2 = Example.worker_running := by
    have hX : CoroutineImpl.resume (Example.thread [CoroutineImpl.mk_task 0] [] none) 0 =
        Except.ok Example.worker_running := rfl
    rw [hX] at h1
    injection h1 with h1
    exact h1.symm
  subst hm2
  have hrun : run Example.binds_then_raises 1 Example.worker_running =
      Except.ok Example.worker_bound := rfl
  obtain ⟨m4, c4, τ, g1, g2, g3, g4, g5, g6, g7⟩ :=
    hstay 1 Example.worker_bound
      { _task := 0, _resume_condition := always_true, _status := Status.Supended,
        _fiber_come_from := some none, stack := [Frame.user 1] }
      1 [] Status.Excepted hrun
      (by
        intro j mj hj hr
        have hj2 : j = 0 ∨ j = 1 := by omega
        rcases hj2 with rfl | rfl
        · simp only [run] at hr
          injection hr with hr
          subst hr
          rfl
        · rw [hrun] at hr
          injection hr with hr
          subst hr
          rfl)
      rfl rfl (Or.inl ⟨rfl, rfl⟩)
  exact ⟨_, m4, c4, τ, h1, g1, g2, g3, g4, g5, g6, g7⟩

set_option maxRecDepth 100000 in
/-- C10 as stated fails when the task resumes the coroutine that resumed it
(`Example.resumes_resumer`). In step 4 the context `0` calls `resume()` on the context `1`,
whose task runs. In step 5 that task resumes the context `0`, which goes on after its
`resume()` call although the status of the context `1` is still `Supended`. In step 6 the
task of the context `0` returns. In step 7 the task of the context `1` raises: the status
`Excepted` is stored and the final switch goes to the context `0`, whose stack is
exhausted, so the thread ends in step 8 and nothing returns to the `resume()` call. -/
theorem failure_capture_counterexample :
    ∃ m4 m5 m7 : Machine Nat Nat,
      run Example.resumes_resumer 4 (Machine.init 0 0) = Except.ok m4 ∧
      m4.current = some 1 ∧
      m4.trace = [Event.cond 0 true, Event.switch none (some 0), Event.cond 1 true,
        Event.switch (some 0) (some 1)] ∧
      run Example.resumes_resumer 5 (Machine.init 0 0) = Except.ok m5 ∧
      m5.current = some 0 ∧
      m5.fibers.map (fun c => c._status) = [Status.Supended, Status.Supended] ∧
      run Example.resumes_resumer 7 (Machine.init 0 0) = Except.ok m7 ∧
      m7.current = some 0 ∧ m7.stack.length = 0 ∧
      m7.fibers.map (fun c => c._status) = [Status.Finished, Status.Excepted] ∧
      run Example.resumes_resumer 8 (Machine.init 0 0) = Except.error Err.thread_exit := by
  have h : (match run Example.resumes_resumer 4 (Machine.init 0 0),
        run Example.resumes_resumer 5 (Machine.init 0 0),
        run Example.resumes_resumer 7 (Machine.init 0 0) with
      | Except.ok m4, Except.ok m5, Except.ok m7 =>
        decide (m4.current = some 1 ∧
          m4.trace = [Event.cond 0 true, Event.switch none (some 0), Event.cond 1 true,
            Event.switch (some 0) (some 1)] ∧
          m5.current = some 0 ∧
          m5.fibers.map (fun c => c._status) = [Status.Supended, Status.Supended] ∧
          m7.current = some 0 ∧ m7.stack.length = 0 ∧
          m7.fibers.map (fun c => c._status) = [Status.Finished, Status.Excepted]) &&
          (match step Example.resumes_resumer m7 with
            | Except.ok _ => false
            | Except.error e => decide (e = Err.thread_exit))
      | _, _, _ => false) = true := by decide
  cases h4 : run Example.resumes_resumer 4 (Machine.init 0 0) with
  | error e => rw [h4] at h; cases h
  | ok m4 =>
    cases h5 : run Example.resumes_resumer 5 (Machine.init 0 0) with
    | error e => rw [h4, h5] at h; cases h
    | ok m5 =>
      cases h7 : run Example.resumes_resumer 7 (Machine.init 0 0) with
      | error e => rw [h4, h5, h7] at h; cases h
      | ok m7 =>
        rw [h4, h5, h7] at h
        simp only [Bool.and_eq_true, decide_eq_true_eq] at h
        obtain ⟨⟨g1, g2, g3, g4, g5, g6, g7⟩, g8⟩ := h
        have hstep : step Example.resumes_resumer m7 = Except.error Err.thread_exit := by
          cases hs : step Example.resumes_resumer m7 with
          | ok _ => rw [hs] at g8; cases g8
          | error e =>
            rw [hs] at g8
            simp only [decide_eq_true_eq] at g8
            rw [g8]
        refine ⟨m4, m5, m7, rfl, g1, g2, rfl, g3, g4, rfl, g5, g6, g7, ?_⟩
        have : run Example.resumes_resumer (7 + 1) (Machine.init 0 0) =
            Except.error Err.thread_exit := by
          rw [run_add, h7]
          simp only [run, hstep]
        exact this

end Spark

namespace Spark

section Claims7

variable {L σ : Type}

/-- The first two steps of a call of `await` on a fresh context: the call, and the `resume()`
of line 422, which switches into the target. -/
theorem await_enter (prog : L → σ → σ × Call L σ) {m : Machine L σ} {h : Hid} {pc k task : L}
    {rest : List (Frame L σ)} {t : Fid} (hstk : m.stack = Frame.user pc :: rest)
    (hcall : (prog pc m.mem).2 = Call.await h k) (ht : (m.handles h)._impl = some t)
    (hc : m.fibers[t]? = some (CoroutineImpl.mk_task task)) (hcur : m.current ≠ some t) :
    ∃ m2 : Machine L σ, run prog 2 m = Except.ok m2 ∧ m2.current = some t ∧
      m2.stack = [Frame.user task] ∧ m2.mem = (prog pc m.mem).1 ∧
      m2.fibers[t]? =
        some { (CoroutineImpl.mk_task task : CoroutineImpl L σ) with
          _fiber_come_from := some m.current } ∧
      m2.trace = m.trace ++ [Event.cond t true, Event.switch m.current (some t)] ∧
      m2.stackOf m.current = Frame.await_424 h :: Frame.user k :: rest ∧
      m2.handles = m.handles := by
  have hne : m.stack ≠ [] := by rw [hstk]; simp
  have hne0 : ({ m with mem := (prog pc m.mem).1 } : Machine L σ).stack ≠ [] := hne
  have s1 : step prog m = Except.ok (({ m with mem := (prog pc m.mem).1 } :
      Machine L σ).setStack (Frame.await_421 h :: Frame.user k :: rest)) := by
    rw [step_user prog hstk, hcall]; rfl
  generalize hm1 : (({ m with mem := (prog pc m.mem).1 } : Machine L σ).setStack
    (Frame.await_421 h :: Frame.user k :: rest)) = m1 at s1
  have e1 : m1.stack = Frame.await_421 h :: Frame.user k :: rest := by
    rw [← hm1]; exact stack_setStack _ _ hne0
  have c1 : m1.current = m.current := by rw [← hm1]; simp
  have f1 : m1.fibers[t]? = some (CoroutineImpl.mk_task task) := by
    rw [← hm1, setStack_fibers_other _ _ (by simpa using hcur)]; exact hc
  have hh1 : m1.handles = m.handles := by rw [← hm1]; simp
  have t1 : (m1.handles h)._impl = some t := by rw [hh1]; exact ht
  have tr1 : m1.trace = m.trace := by rw [← hm1]; simp
  have mem1 : m1.mem = (prog pc m.mem).1 := by rw [← hm1]; simp
  have hcur1 : m1.current ≠ some t := by rw [c1]; exact hcur
  have hne1 : m1.stack ≠ [] := by rw [e1]; simp
  generalize hm2 : m1.setStack (Frame.await_424 h :: Frame.user k :: rest) = x
  have e2 : x.stack = Frame.await_424 h :: Frame.user k :: rest := by
    rw [← hm2]; exact stack_setStack _ _ hne1
  have c2 : x.current = m.current := by rw [← hm2]; simp [c1]
  have f2 : x.fibers[t]? = some (CoroutineImpl.mk_task task) := by
    rw [← hm2, setStack_fibers_other _ _ hcur1]; exact f1
  have hh2 : x.handles = m.handles := by rw [← hm2]; simp [hh1]
  have tr2 : x.trace = m.trace := by rw [← hm2]; simp [tr1]
  have mem2 : x.mem = (prog pc m.mem).1 := by rw [← hm2]; simp [mem1]
  have s2 : step prog m1 = CoroutineImpl.resume x t := by
    unfold step
    simp only [e1]
    have hself : ¬ m1.current = (m1.handles h)._impl := by rw [t1]; exact hcur1
    simp only [hself, if_false, status_eq t1 hcur1 f1]
    simp only [CoroutineImpl.mk_task, if_true, hm2]
    unfold Coroutine.resume
    simp only [t1]
  have hcur2 : x.current ≠ some t := by rw [c2]; exact hcur
  obtain ⟨m2, r1, r2, r3, r4, _, _, r7, r8, r9⟩ :=
    resume_switch x t f2 hcur2 rfl rfl
  have hx0 : x.stackOf x.current ≠ [] := by rw [← stack_eq_stackOf, e2]; simp
  have hso : m2.stackOf x.current = x.stackOf x.current := resume_stackOf r1 hx0
  refine ⟨m2, ?_, r2, ?_, ?_, ?_, ?_, ?_, r4.trans hh2⟩
  · simp only [run, s1, s2, r1]
  · rw [r8]; rfl
  · rw [r3, mem2]; rfl
  · rw [r9 t, c2]; simp
  · rw [r7, tr2, c2]
  · rw [← c2, hso, ← stack_eq_stackOf]; exact e2

/-- The loop test of `await` (line 424) at a target that has ended: `await` returns. -/
theorem await_leave (prog : L → σ → σ × Call L σ) {x : Machine L σ} {h : Hid} {t : Fid}
    {c : CoroutineImpl L σ} {S : List (Frame L σ)}
    (hstk : x.stack = Frame.await_424 h :: S) (ht : (x.handles h)._impl = some t)
    (hcur : x.current ≠ some t) (hc : x.fibers[t]? = some c)
    (hs : c._status ≠ Status.Supended) :
    step prog x = Except.ok (x.setStack S) ∧ (x.setStack S).stack = S ∧
      (x.setStack S).fibers[t]? = some c := by
  have hne : x.stack ≠ [] := by rw [hstk]; simp
  refine ⟨?_, stack_setStack _ _ hne, (setStack_fibers_other x S hcur).trans hc⟩
  unfold step
  simp only [hstk, status_eq ht hcur hc]
  simp [hs]

/-- C7, as amended. `await(target)`. First part: a step that starts inside `Coroutine::await`
(at any of its three return points) and ends with the same fiber running on the caller's
stack below the `await` frame, that is, `await` has returned, leaves the target's status
`Finished` or `Excepted`. Second part: user code calls `await` on a handle whose context
is fresh (`Supended`, never resumed). Two steps later the one `resume()` of line 422 has
switched into the target. If the thread then runs `n` steps in none of which the caller
runs, after which the task of the target returns or raises with the caller still recorded
as its resumer and the awaited handle still holding the target, then two steps later the
caller is back in its own code right after the call and the target has its final status.
The steps of the caller are the call, that `resume()` and the loop test of line 424: one
`resume()` attempt, no `yield()` and no `Sleep`. Third part: this is so in particular when
only the target runs until its task ends and the handle still holds it; then the log of the
whole call is one evaluation of the target's condition, the switch into the target,
evaluations with result false of conditions of other contexts, and the target's final
switch back. -/
theorem await_returns_terminal (prog : L → σ → σ × Call L σ) (m : Machine L σ) (h : Hid) :
    (∀ (top : Frame L σ) (rest : List (Frame L σ)) (m1 : Machine L σ),
      m.stack = top :: rest →
      (top = Frame.await_421 h ∨ top = Frame.await_424 h ∨ top = Frame.await_431 h) →
      step prog m = Except.ok m1 → m1.current = m.current → m1.stack = rest →
      ∃ (t : Fid) (c : CoroutineImpl L σ), (m1.handles h)._impl = some t ∧
        m1.fibers[t]? = some c ∧ c._status ≠ Status.Supended) ∧
    (∀ (pc k task : L) (rest : List (Frame L σ)) (t : Fid),
      m.stack = Frame.user pc :: rest → (prog pc m.mem).2 = Call.await h k →
      (m.handles h)._impl = some t → m.fibers[t]? = some (CoroutineImpl.mk_task task) →
      m.current ≠ some t →
      ∃ m2 : Machine L σ, run prog 2 m = Except.ok m2 ∧ m2.current = some t ∧
        m2.stack = [Frame.user task] ∧ m2.mem = (prog pc m.mem).1 ∧
        m2.fibers[t]? =
          some { (CoroutineImpl.mk_task task : CoroutineImpl L σ) with
            _fiber_come_from := some m.current } ∧
        m2.trace = m.trace ++ [Event.cond t true, Event.switch m.current (some t)] ∧
        (∀ (n : Nat) (m3 : Machine L σ) (c3 : CoroutineImpl L σ) (pc3 : L)
          (rs : List (Frame L σ)) (st : Status),
          run prog n m2 = Except.ok m3 →
          (∀ (j : Nat) (mj : Machine L σ), j ≤ n → run prog j m2 = Except.ok mj →
            mj.current ≠ m.current) →
          m3.current = some t → m3.fibers[t]? = some c3 →
          c3._fiber_come_from = some m.current → c3.stack = Frame.user pc3 :: rs →
          ((prog pc3 m3.mem).2 = Call.raise ∧ st = Status.Excepted ∨
            (prog pc3 m3.mem).2 = Call.ret ∧ st = Status.Finished) →
          (m3.handles h)._impl = some t →
          ∃ (m4 : Machine L σ) (c4 : CoroutineImpl L σ),
            run prog (n + 4) m = Except.ok m4 ∧ m4.current = m.current ∧
            m4.stack = Frame.user k :: rest ∧ m4.fibers[t]? = some c4 ∧
            c4._status = st ∧
            m4.trace = m3.trace ++ [Event.switch (some t) m.current]) ∧
        (∀ (n : Nat) (m3 : Machine L σ) (c3 : CoroutineImpl L σ) (pc3 : L)
          (rs : List (Frame L σ)) (st : Status),
          run prog n m2 = Except.ok m3 →
          (∀ (j : Nat) (mj : Machine L σ), j ≤ n → run prog j m2 = Except.ok mj →
            mj.current = some t) →
          m3.fibers[t]? = some c3 → c3.stack = Frame.user pc3 :: rs →
          ((prog pc3 m3.mem).2 = Call.raise ∧ st = Status.Excepted ∨
            (prog pc3 m3.mem).2 = Call.ret ∧ st = Status.Finished) →
          (m3.handles h)._impl = some t →
          ∃ (m4 : Machine L σ) (c4 : CoroutineImpl L σ) (τ : List Event),
            run prog (n + 4) m = Except.ok m4 ∧ m4.current = m.current ∧
            m4.stack = Frame.user k :: rest ∧ m4.fibers[t]? = some c4 ∧
            c4._status = st ∧
            m4.trace = m.trace ++ [Event.cond t true, Event.switch m.current (some t)] ++
              τ ++ [Event.switch (some t) m.current] ∧
            ∀ e ∈ τ, ∃ g : Fid, g ≠ t ∧ e = Event.cond g false)) := by
  refine ⟨(await_steps prog m h).1, ?_⟩
  intro pc k task rest t hstk hcall ht hc hcur
  obtain ⟨m2, r1, r2, r3, r4, r5, r6, r7, r8⟩ := await_enter prog hstk hcall ht hc hcur
  have hne2 : m2.stackOf m.current ≠ [] := by rw [r7]; simp
  have gen : ∀ (n : Nat) (m3 : Machine L σ) (c3 : CoroutineImpl L σ) (pc3 : L)
      (rs : List (Frame L σ)) (st : Status),
      run prog n m2 = Except.ok m3 →
      (∀ (j : Nat) (mj : Machine L σ), j ≤ n → run prog j m2 = Except.ok mj →
        mj.current ≠ m.current) →
      m3.current = some t → m3.fibers[t]? = some c3 →
      c3._fiber_come_from = some m.current → c3.stack = Frame.user pc3 :: rs →
      ((prog pc3 m3.mem).2 = Call.raise ∧ st = Status.Excepted ∨
        (prog pc3 m3.mem).2 = Call.ret ∧ st = Status.Finished) →
      (m3.handles h)._impl = some t →
      ∃ (m4 : Machine L σ) (c4 : CoroutineImpl L σ),
        run prog (n + 4) m = Except.ok m4 ∧ m4.current = m.current ∧
        m4.stack = Frame.user k :: rest ∧ m4.fibers[t]? = some c4 ∧
        c4._status = st ∧
        m4.trace = m3.trace ++ [Event.switch (some t) m.current] := by
    intro n m3 c3 pc3 rs st hrun hquiet hcur3 hc3 hfrom hstk3 hend hh3
    obtain ⟨x, c4, g1, g2, g3, g4, g5, g6, g7⟩ :=
      segment_end prog n hrun hquiet hne2 hcur3 hc3 hfrom hstk3 hend
    have hst : c4._status ≠ Status.Supended := by
      rw [g5]
      rcases hend with ⟨_, rfl⟩ | ⟨_, rfl⟩ <;> decide
    have hxs : x.stack = Frame.await_424 h :: Frame.user k :: rest := by rw [g3, r7]
    have hxh : (x.handles h)._impl = some t := by rw [g6]; exact hh3
    have hxc : x.current ≠ some t := by rw [g2]; exact hcur
    obtain ⟨s4, e4, f4⟩ := await_leave prog hxs hxh hxc g4 hst
    refine ⟨x.setStack (Frame.user k :: rest), c4, ?_, by simp [g2], e4, f4, g5, by simp [g7]⟩
    have h3 : run prog (2 + (n + 1)) m = Except.ok x := run_trans prog r1 g1
    have h4 : run prog (2 + (n + 1) + 1) m = Except.ok (x.setStack (Frame.user k :: rest)) :=
      run_trans prog h3 (by simp only [run, s4])
    have hn : n + 4 = 2 + (n + 1) + 1 := by omega
    rw [hn]; exact h4
  refine ⟨m2, r1, r2, r3, r4, r5, r6, gen, ?_⟩
  intro n m3 c3 pc3 rs st hrun hstay hc3 hstk3 hend hh3
  have hcur3 : m3.current = some t := hstay n m3 (Nat.le_refl n) hrun
  have hquiet : ∀ (j : Nat) (mj : Machine L σ), j ≤ n → run prog j m2 = Except.ok mj →
      mj.current ≠ m.current := by
    intro j mj hj hr e
    rw [hstay j mj hj hr] at e
    exact hcur e.symm
  obtain ⟨c3b, hc3b, hfrom⟩ := run_same_from prog t n m2 m3 _ hrun
    (fun j mj hj hr => hstay j mj (Nat.le_of_lt hj) hr) r5
  rw [hc3] at hc3b; injection hc3b with hc3b; subst hc3b
  obtain ⟨m4, c4, g1, g2, g3, g4, g5, g6⟩ :=
    gen n m3 c3 pc3 rs st hrun hquiet hcur3 hc3 hfrom hstk3 hend hh3
  obtain ⟨τ, e1, e2⟩ := quiet_run prog t m.current hcur n m2 m3 _ hrun hstay r5 rfl
  refine ⟨m4, c4, τ, g1, g2, g3, g4, g5, ?_, e2⟩
  rw [g6, e1, r6]

end Claims7

end Spark

namespace Spark

/-- Witness of C7: the major fiber awaits a fresh context whose task binds a coroutine to a
handle variable and returns. -/
theorem await_returns_terminal_witness :
    ∃ (m2 m4 : Machine Nat Nat) (c4 : CoroutineImpl Nat Nat) (τ : List Event),
      run Example.awaits_worker 2
        (Example.thread [CoroutineImpl.mk_task 5] [{ _impl := some 0 }] none) =
        Except.ok m2 ∧
      run Example.awaits_worker (1 + 4)
        (Example.thread [CoroutineImpl.mk_task 5] [{ _impl := some 0 }] none) =
        Except.ok m4 ∧
      m4.current = none ∧ m4.stack = [Frame.user 1] ∧ m4.fibers[0]? = some c4 ∧
      c4._status = Status.Finished ∧
      m4.trace = [] ++ [Event.cond 0 true, Event.switch none (some 0)] ++ τ ++
        [Event.switch (some 0) none] ∧
      ∀ e ∈ τ, ∃ g : Fid, g ≠ 0 ∧ e = Event.cond g false := by
  obtain ⟨m2, r1, _, _, _, _, _, _, hstay⟩ :=
    (await_returns_terminal Example.awaits_worker
      (Example.thread [CoroutineImpl.mk_task 5] [{ _impl := some 0 }] none) 0).2
      0 1 5 [] 0 rfl rfl rfl rfl (by decide)
  have hm2 : m2 = Example.awaited_running := by
    have hX : run Example.awaits_worker 2
        (Example.thread [CoroutineImpl.mk_task 5] [{ _impl := some 0 }] none) =
        Except.ok Example.awaited_running := rfl
    rw [hX] at r1
    injection r1 with r1
    exact r1.symm
  subst hm2
  have hrun : run Example.awaits_worker 1 Example.awaited_running =
      Except.ok Example.awaited_bound := rfl
  obtain ⟨m4, c4, τ, g1, g2, g3, g4, g5, g6, g7⟩ :=
    hstay 1 Example.awaited_bound
      { _task := 5, _resume_condition := always_true, _status := Status.Supended,
        _fiber_come_from := some none, stack := [Frame.user 6] }
      6 [] Status.Finished hrun
      (by
        intro j mj hj hr
        have hj2 : j = 0 ∨ j = 1 := by omega
        rcases hj2 with rfl | rfl
        · simp only [run] at hr
          injection hr with hr
          subst hr
          rfl
        · rw [hrun] at hr
          injection hr with hr
          subst hr
          rfl)
      rfl rfl (Or.inr ⟨rfl, rfl⟩) rfl
  exact ⟨_, m4, c4, τ, r1, g1, g2, g3, g4, g5, g6, g7⟩

set_option maxRecDepth 100000 in
/-- C7 as stated fails in its second half. In `Example.gives_away` the target is fresh and its
task returns without suspending, but first hands the awaited handle to the registry: after
five steps the task has returned (`Finished`), the awaiter is at the loop test of line 424
and the handle is empty, so `fiber.status()` fails on the assertion `_impl` and `await` does
not return. In `Example.target_resumes_awaiter` the task of the target does not suspend
either, but resumes its awaiter: after seven steps the awaiter has called `yield()` inside
`await` while the target is still `Supended`. -/
theorem await_returns_terminal_counterexample :
    (∃ m5 : Machine Nat Nat, run Example.gives_away 5 (Machine.init 0 0) = Except.ok m5 ∧
      m5.current = none ∧
      (∃ rest : List (Frame Nat Nat), m5.stack = Frame.await_424 0 :: rest) ∧
      m5.fibers.map (fun c => c._status) = [Status.Finished] ∧
      m5.handles 0 = { _impl := none } ∧
      m5.trace = [Event.cond 0 true, Event.switch none (some 0),
        Event.switch (some 0) none] ∧
      run Example.gives_away 6 (Machine.init 0 0) = Except.error Err.assert_impl) ∧
    (∃ m7 : Machine Nat Nat,
      run Example.target_resumes_awaiter 7 (Machine.init 0 0) = Except.ok m7 ∧
      m7.fibers.map (fun c => (c._status, c._task)) =
        [(Status.Supended, 10), (Status.Supended, 20)] ∧
      (∃ c0 : CoroutineImpl Nat Nat, ∃ rest : List (Frame Nat Nat),
        m7.fibers[0]? = some c0 ∧ c0.stack = Frame.await_431 1 :: rest) ∧
      m7.trace = [Event.cond 0 true, Event.switch none (some 0), Event.cond 1 true,
        Event.switch (some 0) (some 1), Event.cond 0 true, Event.switch (some 1) (some 0),
        Event.switch (some 0) (some 1)]) := by
  have h : (match run Example.gives_away 5 (Machine.init 0 0),
        run Example.target_resumes_awaiter 7 (Machine.init 0 0) with
      | Except.ok m5, Except.ok m7 =>
        decide (m5.current = none ∧
          m5.fibers.map (fun c => c._status) = [Status.Finished] ∧
          m5.handles 0 = { _impl := none } ∧
          m5.trace = [Event.cond 0 true, Event.switch none (some 0),
            Event.switch (some 0) none] ∧
          m7.fibers.map (fun c => (c._status, c._task)) =
            [(Status.Supended, 10), (Status.Supended, 20)] ∧
          m7.trace = [Event.cond 0 true, Event.switch none (some 0), Event.cond 1 true,
            Event.switch (some 0) (some 1), Event.cond 0 true,
            Event.switch (some 1) (some 0), Event.switch (some 0) (some 1)]) &&
          (match m5.stack with
            | Frame.await_424 0 :: _ => true
            | _ => false) &&
          (match step Example.gives_away m5 with
            | Except.ok _ => false
            | Except.error e => decide (e = Err.assert_impl)) &&
          (match m7.fibers[0]? with
            | some c0 =>
              (match c0.stack with
                | Frame.await_431 1 :: _ => true
                | _ => false)
            | none => false)
      | _, _ => false) = true := by decide
  cases h5 : run Example.gives_away 5 (Machine.init 0 0) with
  | error e => rw [h5] at h; cases h
  | ok m5 =>
    cases h7 : run Example.target_resumes_awaiter 7 (Machine.init 0 0) with
    | error e => rw [h5, h7] at h; cases h
    | ok m7 =>
      rw [h5, h7] at h
      simp only [Bool.and_eq_true, decide_eq_true_eq] at h
      obtain ⟨⟨⟨⟨g1, g2, g3, g4, g5, g6⟩, g7⟩, g8⟩, g9⟩ := h
      have hstep : step Example.gives_away m5 = Except.error Err.assert_impl := by
        cases hs : step Example.gives_away m5 with
        | ok _ => rw [hs] at g8; cases g8
        | error e =>
          rw [hs] at g8
          simp only [decide_eq_true_eq] at g8
          rw [g8]
      refine ⟨⟨m5, rfl, g1, ?_, g2, g3, g4, ?_⟩, m7, rfl, g5, ?_, g6⟩
      · cases hstk : m5.stack with
        | nil => rw [hstk] at g7; cases g7
        | cons top rest =>
          rw [hstk] at g7
          cases top with
          | await_424 hd =>
            cases hd with
            | zero => exact ⟨rest, rfl⟩
            | succ n => simp at g7
          | _ => simp at g7
      · have : run Example.gives_away (5 + 1) (Machine.init 0 0) =
            Except.error Err.assert_impl := by
          rw [run_add, h5]
          simp only [run, hstep]
        exact this
      · cases hc0 : m7.fibers[0]? with
        | none => rw [hc0] at g9; cases g9
        | some c0 =>
          rw [hc0] at g9
          simp only at g9
          cases hstk : c0.stack with
          | nil => rw [hstk] at g9; cases g9
          | cons top rest =>
            rw [hstk] at g9
            cases top with
            | await_431 hd =>
              cases hd with
              | zero => simp at g9
              | succ n =>
                cases n with
                | zero => exact ⟨c0, rest, rfl, hstk⟩
                | succ k => simp at g9
            | _ => simp at g9

end Spark

namespace Spark

set_option maxRecDepth 100000 in
/-- C8 as stated fails when a member rebinds the handle variable of another member
(`Example.rebinds`). The call `await_all` on the handle variables `0` and `1` is issued in
step 3. The first member finishes. The task of the second hands the handle variable `0` to
the registry, binds a fresh coroutine to it and returns. After step 14 `await_all` has
returned to `main`, and the member behind the handle variable `0` is `Supended`. -/
theorem await_all_terminal_counterexample :
    ∃ m0 mn : Machine Nat Nat,
      run Example.rebinds 3 (Machine.init 0 0) = Except.ok m0 ∧ m0.current = none ∧
      (∃ rest : List (Frame Nat Nat), m0.stack = Frame.await_all_345 [0, 1] false :: rest ∧
        run Example.rebinds 11 m0 = Except.ok mn ∧ mn.current = none ∧ mn.stack = rest) ∧
      Coroutine.status mn (mn.handles 0) = Except.ok Status.Supended ∧
      ¬ Ended mn 0 := by
  have h : (match run Example.rebinds 3 (Machine.init 0 0),
        run Example.rebinds 14 (Machine.init 0 0) with
      | Except.ok m0, Except.ok mn =>
        decide (m0.current = none ∧ mn.current = none) &&
          (match m0.major_stack, mn.major_stack with
            | [Frame.await_all_345 hs false, Frame.user a], [Frame.user b] =>
              decide (hs = [0, 1] ∧ a = b)
            | _, _ => false) &&
          (match Coroutine.status mn (mn.handles 0) with
            | Except.ok s => decide (s = Status.Supended)
            | Except.error _ => false)
      | _, _ => false) = true := by decide
  cases h3 : run Example.rebinds 3 (Machine.init 0 0) with
  | error e => rw [h3] at h; cases h
  | ok m0 =>
    cases h14 : run Example.rebinds 14 (Machine.init 0 0) with
    | error e => rw [h3, h14] at h; cases h
    | ok mn =>
      rw [h3, h14] at h
      simp only [Bool.and_eq_true, decide_eq_true_eq] at h
      obtain ⟨⟨⟨g1, g2⟩, g3⟩, g4⟩ := h
      have hrun : run Example.rebinds 11 m0 = Except.ok mn := by
        have := run_add Example.rebinds 3 11 (Machine.init 0 0)
        rw [h3] at this
        exact this.symm.trans h14
      have hst : Coroutine.status mn (mn.handles 0) = Except.ok Status.Supended := by
        cases hs : Coroutine.status mn (mn.handles 0) with
        | error e => rw [hs] at g4; cases g4
        | ok s =>
          rw [hs] at g4
          simp only [decide_eq_true_eq] at g4
          rw [g4]
      refine ⟨m0, mn, rfl, g1, ?_, hst, ?_⟩
      · split at g3
        · rename_i hs a b e0 en
          simp only [decide_eq_true_eq] at g3
          obtain ⟨rfl, rfl⟩ := g3
          refine ⟨[Frame.user a], ?_, hrun, g2, ?_⟩
          · rw [stack_major g1]; exact e0
          · rw [stack_major g2]; exact en
        · cases g3
      · rintro ⟨f, c, e1, e2, e3⟩
        obtain ⟨t, d, d1, _, d3, d4⟩ := status_ok hst
        rw [e1] at d1
        injection d1 with d1
        subst d1
        rw [e2] at d3
        injection d3 with d3
        subst d3
        exact e3 d4

end Spark
